import Mathlib

/-!
# Verification development for `org_futo_inputmethod_latin_xlm_LanguageModel.cpp`

A shallow embedding of the decoding core of the keyboard language model
(`Initialize`, `softmax`, `transform_logits`, `GetCachedMixAmount`,
`DecodePromptAndMixes`, `Sample`, `PredictNextWord`, `PredictCorrection` and the part of
`xlm_LanguageModel_getSuggestions` that builds the mixes) followed by theorems about it.

Modelling conventions.

* `float` values are exact rationals (`ℚ`); `expf` and `logf` come from the C
  library and are parameters of the model.
* A `float *` buffer is a function `Nat → ℚ`; the length travels separately, as
  in the source.
* Token ids, sequence ids and container sizes are natural numbers; positions
  and the two fields of `DecodeResult` are integers, as in the source.
* The llama context is external.  Its state is the history of the calls made on
  it (newest first) and the evaluator is a pair of functions of that history:
  the status returned by `llama_decode` and the contents of the logits rows.
  Every deterministic evaluator is of this form.
* `ASSERT` does not abort (production build); a failed assertion is recorded in
  the history, or counted where there is no history.  Logging and timing are left out.
* String iterators are indices; `end` in `trim` is an integer, since on the empty
  string it steps to `begin - 1` before the loop test ends the loop.
* The keyboard geometry (`ProximityInfo`) is external and enters by the methods
  that are called on it.
* The helpers `transformer_context_fastforward` and `transformer_context_apply`
  are defined outside this file.  The model takes them as fields of
  `LanguageModel`; the two definitions of the same names follow the description
  of the helpers in the specification and are marked as such.
-/

/-! ## Definitions -/

/-- The tolerance `#define EPS 0.0001`. -/
def EPS : ℚ := 1 / 10000

/-- The predicate `std::isspace` in the "C" locale: space, `\t`, `\n`, `\v`, `\f`, `\r`. -/
def isspace (c : Char) : Bool :=
  c.toNat == 32 || (9 ≤ c.toNat && c.toNat ≤ 13)

/-- The `do { end--; } while (distance(start, end) > 0 && isspace(*end))` loop of `trim`.
The argument is the value of `end` before the decrement, the result its final value;
`end` is an integer because the decrement of `s.begin()` of an empty string steps to `-1`. -/
def trimEnd (s : List Char) (start : Nat) : Nat → Int
  | 0 => -1
  | e + 1 => if start < e ∧ isspace (s.getD e ' ') = true then trimEnd s start e else (e : Int)

/-- The function `trim`: the characters in the iterator range `[start, end + 1)`. -/
def trim (s : List Char) : List Char :=
  let start := (s.takeWhile isspace).length
  let stop := trimEnd s start s.length
  (s.drop start).take (stop + 1 - (start : Int)).toNat

/-- Insertion of one pair into a list that is descending in the first component; the new
pair goes in front of the first pair that is not larger (comparator `a.first > b.first`). -/
def insertDescending {T : Type} (a : ℚ × T) : List (ℚ × T) → List (ℚ × T)
  | [] => [a]
  | b :: l => if b.1 > a.1 then b :: insertDescending a l else a :: b :: l

/-- The two overloads of `sortProbabilityPairVectorDescending` (`std::sort` and
`std::partial_sort` with comparator `a.first > b.first`).  The C++ library fixes the
result only up to the order of pairs with equal first component, and `partial_sort`
leaves the order behind position `middle` open; the model is the stable sort of the whole
vector, which is one of the permitted results.  The callers read the leading `middle`
entries only.  The general theorems use no more of the result than that it is a
permutation of the vector in descending order. -/
def sortProbabilityPairVectorDescending {T : Type} (vec : List (ℚ × T)) (_middle : Nat) :
    List (ℚ × T) :=
  vec.foldr insertDescending []

/-- The struct `potential_sequence_data`. -/
structure potential_sequence_data where
  tokens : List Nat
  seq_id : Nat
deriving DecidableEq, Repr

/-- The typedef `potential_sequence`: `P = P(tokens[0]) * P(tokens[1]) * [...]`. -/
abbrev potential_sequence := ℚ × potential_sequence_data

/-- The value-initialised `potential_sequence`, which `resize` appends when it grows a
vector and which stands for a read past the end of a vector. -/
def potential_sequence_zero : potential_sequence := (0, { tokens := [], seq_id := 0 })

/-- The first loop of `softmax`: the maximum `m`, starting from `-INFINITY` (`none`). -/
def softmaxMax (input : Nat → ℚ) (input_len : Nat) : Option ℚ :=
  (List.range input_len).foldl
    (fun m i => match m with
      | none => some (input i)
      | some v => if input i > v then some (input i) else some v)
    none

/-- The function `softmax`, in place on the leading `input_len` entries of the buffer. -/
def softmax (expf logf : ℚ → ℚ) (input : Nat → ℚ) (input_len : Nat) : Nat → ℚ :=
  match softmaxMax input input_len with
  | none => input
  | some m =>
    let sum := (List.range input_len).foldl (fun s i => s + expf (input i - m)) 0
    let offset := m + logf sum
    fun i => if i < input_len then expf (input i - offset) else input i

/-- One entry of `TokenMix::mixes`. -/
structure TokenMixEntry where
  weight : ℚ
  token : Nat
deriving DecidableEq, Repr

/-- The struct `TokenMix`; `mixes` has `NUM_TOKEN_MIX = 4` entries. -/
structure TokenMix where
  x : ℚ
  y : ℚ
  mixes : List TokenMixEntry
deriving DecidableEq, Repr

/-- The struct `DecodeResult`; `{}` is `{0, 0}`. -/
structure DecodeResult where
  logits_head : Int
  size : Int
deriving DecidableEq, Repr

/-- The member `specialTokens` of `LanguageModelState`. -/
structure SpecialTokens where
  SPACE : Nat
  SAMPLING_BAD_TOKENS : List Nat
  XBU : Nat
  XBC : Nat
  XEC : Nat
  XC0_SWIPE_MODE : Nat
  LETTERS_TO_IDS : List Nat
deriving DecidableEq, Repr

/-- One position of a `llama_batch` of tokens. -/
structure BatchEntry where
  token : Nat
  pos : Int
  seq_id : Nat
  logits : Bool
deriving DecidableEq, Repr

/-- A call on the llama context, or an in-place rewrite of one of its logits rows. -/
inductive Event where
  | decode (batch : List BatchEntry)
  | decode_embd (embd : List ℚ) (pos : Int) (seq_id : Nat) (logits : Bool)
  | kv_cache_seq_rm (seq_id : Nat) (p0 p1 : Int)
  | kv_cache_seq_cp (src dst : Nat) (p0 p1 : Int)
  | transform_logits (row : Int) (allow_space allow_correction_token : Bool)
  | assert_failed
deriving DecidableEq, Repr

/-- The collaborators of `LanguageModelState` that are not part of the source file: the
model and tokenizer, the llama context, the C library and the fast-forward helper. -/
structure LanguageModel where
  /-- The vocabulary size `llama_n_vocab`. -/
  n_vocab : Nat
  /-- The embedding dimension `llama_n_embd`. -/
  n_embd : Nat
  /-- The bytes of `model->getToken(id)`. -/
  getToken : Nat → List Nat
  /-- The tokenizer `model->tokenize`. -/
  tokenize : List Char → List Nat
  /-- The detokenizer `model->decode`. -/
  decode : List Nat → List Char
  /-- The status returned by the `llama_decode` call that is the newest event of the history. -/
  llama_decode : List Event → Int
  /-- The row `llama_get_logits_ith(ctx, i)` after the given history. -/
  llama_get_logits_ith : List Event → Int → Nat → ℚ
  /-- The C library function `expf`. -/
  expf : ℚ → ℚ
  /-- The C library function `logf`. -/
  logf : ℚ → ℚ
  /-- The vector `encoder_weight` of the adapter. -/
  encoder_weight : List ℚ
  /-- The vector `encoder_bias` of the adapter. -/
  encoder_bias : List ℚ
  /-- The embedding table `embeddings` of the adapter, row-major. -/
  embeddings : List ℚ
  /-- The helper `transformer_context_fastforward(active, next, flag)`: new tokens and `n_past`. -/
  transformer_context_fastforward : List Nat → List Nat → Bool → List Nat × Nat
  /-- The helper `transformer_context_apply(active, prompt_ff)`: the new active context. -/
  transformer_context_apply : List Nat → List Nat × Nat → List Nat

/-- The mutable part of `LanguageModelState` together with `specialTokens`. -/
structure LanguageModelState where
  specialTokens : SpecialTokens
  /-- The member `past_mixes`. -/
  past_mixes : List TokenMix
  /-- The token sequence held by `model->transformerContext`. -/
  active_context : List Nat
  /-- The history of the llama context, newest event first. -/
  ctx : List Event

/-- The mask value `-999.0f` written by `transform_logits`. -/
def MASKED : ℚ := -999

/-- The loop `for (int x : SAMPLING_BAD_TOKENS)` of `transform_logits`. -/
def transform_bad_tokens (SPACE : Nat) : List Nat → (Nat → ℚ) → (Nat → ℚ)
  | [], logits => logits
  | x :: rest, logits =>
    let logits1 := Function.update logits SPACE (logits SPACE + max 0 (logits x))
    transform_bad_tokens SPACE rest (Function.update logits1 x MASKED)

/-- The loop `for (int x : LETTERS_TO_IDS)` of `transform_logits`. -/
def transform_letters : List Nat → (Nat → ℚ) → (Nat → ℚ)
  | [], logits => logits
  | x :: rest, logits => transform_letters rest (Function.update logits x MASKED)

/-- The method `transform_logits`, from the buffer before the call to the buffer after it. -/
def SpecialTokens.transform_logits (sp : SpecialTokens) (expf logf : ℚ → ℚ)
    (logits : Nat → ℚ) (n_vocab : Nat) (allow_space allow_correction_token : Bool) : Nat → ℚ :=
  let l0 := softmax expf logf logits n_vocab
  let l1 := Function.update l0 sp.XBU MASKED
  let l2 := Function.update l1 sp.XBC MASKED
  let l3 := if !allow_correction_token then Function.update l2 sp.XEC MASKED else l2
  let l4 := transform_letters sp.LETTERS_TO_IDS l3
  let l5 := transform_bad_tokens sp.SPACE sp.SAMPLING_BAD_TOKENS l4
  if !allow_space then Function.update l5 sp.SPACE MASKED else l5

/-- The end-of-word test of `Sample`: the token text has at least three bytes and ends
with `E2 96 81`. -/
def endsWord (token : List Nat) : Bool :=
  decide (3 ≤ token.length) && token.getD (token.length - 1) 0 == 0x81 &&
    token.getD (token.length - 2) 0 == 0x96 && token.getD (token.length - 3) 0 == 0xe2

/-- The two termination checks at the head of an expansion step of `Sample`: what the
sequence adds to `outputs`, or `none` when it stays live. -/
def finished (model : LanguageModel) (sp : SpecialTokens) (sequence : potential_sequence) :
    Option (ℚ × List Nat) :=
  let next_token := sequence.2.tokens.getD (sequence.2.tokens.length - 1) 0
  if next_token = sp.XEC then
    some (sequence.1, sequence.2.tokens.take (sequence.2.tokens.length - 1))
  else if endsWord (model.getToken next_token) = true then
    some (sequence.1, sequence.2.tokens)
  else none

/-- The ranking done at every read of a logits row in `Sample`: `transform_logits` on the
row, `index_value` filled with `(logits[i], i)` for `i < n_vocab`, then the partial sort. -/
def rankRow (model : LanguageModel) (sp : SpecialTokens) (ctx : List Event) (row : Int)
    (allow_space allow_correction_token : Bool) (middle : Nat) : List (ℚ × Nat) :=
  let logits := sp.transform_logits model.expf model.logf (model.llama_get_logits_ith ctx row)
    model.n_vocab allow_space allow_correction_token
  sortProbabilityPairVectorDescending ((List.range model.n_vocab).map (fun i => (logits i, i)))
    middle

/-- The loop state of `Sample`: the live `sequences`, the `outputs` and the llama context. -/
structure SampleState where
  sequences : List potential_sequence
  outputs : List (ℚ × List Nat)
  ctx : List Event

/-- The part of `Sample` before the loop: the first ranking, the `n_results` initial
hypotheses with `seq_id = i`, and the copy of slot 0 into every other slot.  A read of
`index_value[i]` past the end (only when `n_vocab < n_results`) is `(0, 0)`. -/
def sampleInit (model : LanguageModel) (sp : SpecialTokens) (ctx : List Event)
    (decodeResult : DecodeResult) (n_results : Nat) : SampleState :=
  let allow_correction_token := decide (decodeResult.logits_head = 0)
  let index_value := rankRow model sp ctx decodeResult.logits_head false
    allow_correction_token n_results
  let ctx1 := Event.transform_logits decodeResult.logits_head false allow_correction_token :: ctx
  let sequences : List potential_sequence := (List.range n_results).map (fun i =>
    ((index_value.getD i (0, 0)).1,
      { tokens := [(index_value.getD i (0, 0)).2], seq_id := i }))
  let ctx2 := (sequences.filter (fun s => s.2.seq_id ≠ 0)).foldl
    (fun c s => Event.kv_cache_seq_cp 0 s.2.seq_id 0 decodeResult.size :: c) ctx1
  { sequences := sequences, outputs := [], ctx := ctx2 }

/-- The body of the inner loop of an expansion step: the child of `parent_seq` for rank `i`.
Its probability is `index_value[i].first * sequences[i].first`, as in the source. -/
def child (sequences : List potential_sequence) (parent_seq : potential_sequence)
    (index_value : List (ℚ × Nat)) (i : Nat) : potential_sequence :=
  ((index_value.getD i (0, 0)).1 * (sequences.getD i potential_sequence_zero).1,
    { tokens := parent_seq.2.tokens ++ [(index_value.getD i (0, 0)).2],
      seq_id := parent_seq.2.seq_id })

/-- One pass of the loop `for (int seq = 0; seq < remaining_count; seq++)`: the row of
parent `seq` is transformed and ranked and its `remaining_count` children are appended. -/
def expandParent (model : LanguageModel) (sp : SpecialTokens) (allow_correction_token : Bool)
    (sequences : List potential_sequence) (remaining_count : Nat)
    (acc : List potential_sequence × List Event) (seq : Nat) :
    List potential_sequence × List Event :=
  let parent_seq := sequences.getD seq potential_sequence_zero
  let index_value := rankRow model sp acc.2 (seq : Int) true allow_correction_token
    remaining_count
  (acc.1 ++ (List.range remaining_count).map (child sequences parent_seq index_value),
    Event.transform_logits (seq : Int) true allow_correction_token :: acc.2)

/-- The method `std::vector::resize`. -/
def resize {α : Type} (v : List α) (n : Nat) (zero : α) : List α :=
  v.take n ++ List.replicate (n - v.length) zero

/-- The collision loop of `Sample` over `next_sequences`, with the array
`seq_id_use_count`: the rebound sequences (`none` is the branch `return {}`) and the llama
context when the loop is left. -/
def resolveCollisions (n_results : Nat) (size : Int) :
    List potential_sequence → List Nat → List Event →
      Option (List potential_sequence) × List Event
  | [], _, ctx => (some [], ctx)
  | seq :: rest, seq_id_use_count, ctx =>
    if 1 < seq_id_use_count.getD seq.2.seq_id 0 then
      let old_seq_id := seq.2.seq_id
      match (List.range n_results).find? (fun i => seq_id_use_count.getD i 0 == 0) with
      | none => (none, ctx)
      | some new_seq_id =>
        let count1 := seq_id_use_count.set old_seq_id (seq_id_use_count.getD old_seq_id 0 - 1)
        let count2 := count1.set new_seq_id (count1.getD new_seq_id 0 + 1)
        let ctx1 := Event.kv_cache_seq_cp old_seq_id new_seq_id 0
          (size + ((seq.2.tokens.length : Int) - 1)) :: ctx
        match resolveCollisions n_results size rest count2 ctx1 with
        | (none, ctx2) => (none, ctx2)
        | (some rest1, ctx2) =>
          (some ((seq.1, { tokens := seq.2.tokens, seq_id := new_seq_id }) :: rest1), ctx2)
    else
      match resolveCollisions n_results size rest seq_id_use_count ctx with
      | (none, ctx2) => (none, ctx2)
      | (some rest1, ctx2) => (some (seq :: rest1), ctx2)

/-- How one pass of the body of `for (int tok = 0; tok < 10; tok++)` ends. -/
inductive StepOutcome where
  /-- The body ran to its end with `sequences = next_sequences`. -/
  | proceed (s : SampleState)
  /-- The statement `break`: no live hypothesis is left. -/
  | stop (s : SampleState)
  /-- The statement `return {}` of the collision loop. -/
  | returnEmpty (ctx : List Event)

/-- The vector `outputs` after the termination checks at the head of a pass. -/
def stepOutputs (model : LanguageModel) (sp : SpecialTokens) (s : SampleState) :
    List (ℚ × List Nat) :=
  s.outputs ++ s.sequences.filterMap (finished model sp)

/-- The vector `sequences` after the termination checks at the head of a pass: the
hypotheses that stay live. -/
def stepLive (model : LanguageModel) (sp : SpecialTokens) (s : SampleState) :
    List potential_sequence :=
  s.sequences.filter (fun q => (finished model sp q).isNone)

/-- The batch of a pass: for every live hypothesis its newest token at position
`decodeResult.size + (tokens.size() - 1)` in its own slot, with logits requested. -/
def stepBatch (decodeResult : DecodeResult) (sequences : List potential_sequence) :
    List BatchEntry :=
  sequences.map (fun q =>
    { token := q.2.tokens.getD (q.2.tokens.length - 1) 0,
      pos := decodeResult.size + ((q.2.tokens.length : Int) - 1),
      seq_id := q.2.seq_id,
      logits := true })

/-- The loop `for (int seq = 0; seq < remaining_count; seq++)` of a pass: `next_sequences`
before it is sorted, and the llama context afterwards. -/
def expandAll (model : LanguageModel) (sp : SpecialTokens) (allow_correction_token : Bool)
    (sequences : List potential_sequence) (remaining_count : Nat) (ctx : List Event) :
    List potential_sequence × List Event :=
  (List.range remaining_count).foldl
    (expandParent model sp allow_correction_token sequences remaining_count) ([], ctx)

/-- The counting loop `for (auto &seq: next_sequences) seq_id_use_count[seq.second.seq_id] += 1`
on an array of `n_results` zeros. -/
def countSeqIds (n_results : Nat) (next_sequences : List potential_sequence) : List Nat :=
  next_sequences.foldl (fun c q => c.set q.2.seq_id (c.getD q.2.seq_id 0 + 1))
    (List.replicate n_results 0)

/-- The statement `ASSERT(batch.n_tokens == remaining_count)`. -/
def assertBatch (n_tokens remaining_count : Nat) (ctx : List Event) : List Event :=
  if n_tokens = remaining_count then ctx else Event.assert_failed :: ctx

/-- The vector `next_sequences` of a pass after the partial sort and the `resize`, for the
llama context `ctx1` in which the expansion starts. -/
def stepNext (model : LanguageModel) (sp : SpecialTokens) (decodeResult : DecodeResult)
    (n_results : Nat) (s : SampleState) (ctx1 : List Event) : List potential_sequence :=
  resize
    (sortProbabilityPairVectorDescending
      (expandAll model sp (decide (decodeResult.logits_head = 0)) (stepLive model sp s)
        (n_results - (stepOutputs model sp s).length) ctx1).1
      (n_results - (stepOutputs model sp s).length))
    (n_results - (stepOutputs model sp s).length) potential_sequence_zero

/-- One pass of the body of the loop of `Sample`: the termination checks, the batch, the
ignored `llama_decode`, the expansion, the sort and `resize`, the collision loop. -/
def sampleStep (model : LanguageModel) (sp : SpecialTokens) (decodeResult : DecodeResult)
    (n_results : Nat) (s : SampleState) : StepOutcome :=
  let outputs := stepOutputs model sp s
  let sequences := stepLive model sp s
  let remaining_count := n_results - outputs.length
  let batch := stepBatch decodeResult sequences
  let ctx0 := assertBatch batch.length remaining_count s.ctx
  if batch.length = 0 then
    StepOutcome.stop { sequences := sequences, outputs := outputs, ctx := ctx0 }
  else
    let ctx1 := Event.decode batch :: ctx0
    let next_sequences := stepNext model sp decodeResult n_results s ctx1
    match resolveCollisions n_results decodeResult.size next_sequences
        (countSeqIds n_results next_sequences)
        (expandAll model sp (decide (decodeResult.logits_head = 0)) sequences remaining_count
          ctx1).2 with
    | (none, ctx2) => StepOutcome.returnEmpty ctx2
    | (some resolved, ctx2) =>
      StepOutcome.proceed { sequences := resolved, outputs := outputs, ctx := ctx2 }

/-- How the loop of `Sample` is left. -/
inductive LoopExit where
  /-- By `break` or after the last pass. -/
  | finished (s : SampleState)
  /-- By `return {}`. -/
  | failed (ctx : List Event)

/-- The loop `for (int tok = 0; tok < 10; tok++)`, with the number of passes still to run. -/
def sampleLoop (model : LanguageModel) (sp : SpecialTokens) (decodeResult : DecodeResult)
    (n_results : Nat) : Nat → SampleState → LoopExit
  | 0, s => LoopExit.finished s
  | k + 1, s =>
    match sampleStep model sp decodeResult n_results s with
    | StepOutcome.proceed s1 => sampleLoop model sp decodeResult n_results k s1
    | StepOutcome.stop s1 => LoopExit.finished s1
    | StepOutcome.returnEmpty ctx => LoopExit.failed ctx

/-- The state after `k` whole passes of the body from state `s`; `none` when one of them
leaves the loop by `break` or `return`. -/
def sampleIter (model : LanguageModel) (sp : SpecialTokens) (decodeResult : DecodeResult)
    (n_results : Nat) : Nat → SampleState → Option SampleState
  | 0, s => some s
  | k + 1, s =>
    match sampleStep model sp decodeResult n_results s with
    | StepOutcome.proceed s1 => sampleIter model sp decodeResult n_results k s1
    | _ => none

/-- The state at the head of pass `tok` of the loop of `Sample`, if that pass is reached. -/
def sampleStateAt (model : LanguageModel) (sp : SpecialTokens) (ctx : List Event)
    (decodeResult : DecodeResult) (n_results : Nat) (tok : Nat) : Option SampleState :=
  sampleIter model sp decodeResult n_results tok
    (sampleInit model sp ctx decodeResult n_results)

/-- The hypotheses that pass `tok` of the loop of `Sample` moves to `outputs`; empty when
the pass is not reached. -/
def emittedAt (model : LanguageModel) (sp : SpecialTokens) (ctx : List Event)
    (decodeResult : DecodeResult) (n_results : Nat) (tok : Nat) : List (ℚ × List Nat) :=
  match sampleStateAt model sp ctx decodeResult n_results tok with
  | none => []
  | some s => s.sequences.filterMap (finished model sp)

/-- The final loop `for (int i = 1; i < n_results; i++) llama_kv_cache_seq_rm(ctx, i, 0, -1)`. -/
def sampleCleanup (n_results : Nat) (ctx : List Event) : List Event :=
  ((List.range n_results).filter (fun i => 1 ≤ i)).foldl
    (fun c i => Event.kv_cache_seq_rm i 0 (-1) :: c) ctx

/-- The method `Sample`: the returned vector and the state after the call. -/
def LanguageModelState.Sample (st : LanguageModelState) (model : LanguageModel)
    (decodeResult : DecodeResult) (n_results : Nat) :
    List (ℚ × List Nat) × LanguageModelState :=
  match sampleLoop model st.specialTokens decodeResult n_results 10
      (sampleInit model st.specialTokens st.ctx decodeResult n_results) with
  | LoopExit.finished s => (s.outputs, { st with ctx := sampleCleanup n_results s.ctx })
  | LoopExit.failed ctx => ([], { st with ctx := ctx })

/-- The loop of `GetCachedMixAmount` over `past_mixes` and `mixes`. -/
def cachedMixAmount : List TokenMix → List TokenMix → Nat
  | p :: ps, m :: ms =>
    if |p.x - m.x| ≥ EPS then 0
    else if |p.y - m.y| ≥ EPS then 0
    else cachedMixAmount ps ms + 1
  | _, _ => 0

/-- The method `GetCachedMixAmount`. -/
def LanguageModelState.GetCachedMixAmount (st : LanguageModelState) (mixes : List TokenMix) :
    Nat :=
  cachedMixAmount st.past_mixes mixes

/-- The encoder branch of the embedding of one mix:
`encoder_bias[i] + encoder_weight[i*2]*mix.x + encoder_weight[i*2 + 1]*mix.y`. -/
def encodeMix (model : LanguageModel) (mix : TokenMix) : List ℚ :=
  (List.range model.n_embd).map (fun i =>
    model.encoder_bias.getD i 0 + model.encoder_weight.getD (i * 2) 0 * mix.x +
      model.encoder_weight.getD (i * 2 + 1) 0 * mix.y)

/-- The loop `for (auto &t: mix.mixes)` of the blend branch, on `mix_f` and `num_added`;
it stops at the first weight below `EPS`. -/
def blendMix (model : LanguageModel) : List TokenMixEntry → List ℚ × Nat → List ℚ × Nat
  | [], acc => acc
  | t :: rest, acc =>
    if t.weight < EPS then acc
    else
      blendMix model rest
        ((List.range model.n_embd).map (fun i =>
            acc.1.getD i 0 + model.embeddings.getD (t.token * model.n_embd + i) 0 * t.weight),
          acc.2 + 1)

/-- The body of `for (auto &mix : mixes)`: the vector `mix_f` and the counter `num_added`. -/
def mixEmbedding (model : LanguageModel) (mix : TokenMix) : List ℚ × Nat :=
  if !model.encoder_weight.isEmpty then (encodeMix model mix, 1)
  else blendMix model mix.mixes (List.replicate model.n_embd 0, 0)

/-- The loop `for (int h = n_past; h < n_tokens; h++)` over the values of `h` still to do:
one `llama_decode` per embedding, `false` at the first one that fails. -/
def decodeEmbeds (model : LanguageModel) (embeds : List ℚ) (prompt_size : Nat) :
    List Nat → List Event → Bool × List Event
  | [], ctx => (true, ctx)
  | h :: rest, ctx =>
    let ctx1 := Event.decode_embd ((embeds.drop (h * model.n_embd)).take model.n_embd)
      ((prompt_size : Int) + h) 0 false :: ctx
    if model.llama_decode ctx1 ≠ 0 then (false, ctx1)
    else decodeEmbeds model embeds prompt_size rest ctx1

/-- The macro `ASSERT(success)` on the llama context: nothing when the condition holds,
otherwise the record of a failed assertion. -/
def ASSERT (success : Prop) [Decidable success] (ctx : List Event) : List Event :=
  if success then ctx else Event.assert_failed :: ctx

/-- The method `DecodePromptAndMixes`: the returned `DecodeResult` and the state after
the call. -/
def LanguageModelState.DecodePromptAndMixes (st : LanguageModelState) (model : LanguageModel)
    (prompt : List Nat) (mixes : List TokenMix) : DecodeResult × LanguageModelState :=
  let prompt_ff := model.transformer_context_fastforward st.active_context prompt
    (!mixes.isEmpty)
  let batch : List BatchEntry := (List.range prompt_ff.1.length).map (fun i =>
    { token := prompt_ff.1.getD i 0,
      pos := (prompt_ff.2 : Int) + i,
      seq_id := 0,
      logits := decide (i = prompt_ff.1.length - 1) && mixes.isEmpty })
  let ctx1 := if 0 < batch.length then
      Event.decode batch :: Event.kv_cache_seq_rm 0 prompt_ff.2 (-1) :: st.ctx
    else st.ctx
  if 0 < batch.length ∧ model.llama_decode ctx1 ≠ 0 then
    ({ logits_head := 0, size := 0 }, { st with ctx := ctx1 })
  else
    let active := model.transformer_context_apply st.active_context prompt_ff
    let head : Int := (prompt_ff.1.length : Int) - 1
    let mixed := mixes.map (mixEmbedding model)
    let embeds : List ℚ := (mixed.map (fun e => e.1)).flatten
    let ctx2 := (mixed.filter (fun e => e.2 = 0)).foldl (fun c _ => Event.assert_failed :: c) ctx1
    let size : Int := (prompt.length : Int) + mixes.length
    let n_tokens := mixes.length
    let n_past := if !prompt_ff.1.isEmpty then 0 else st.GetCachedMixAmount mixes
    let ctx3 := Event.kv_cache_seq_rm 0 ((prompt.length : Int) + n_past) (-1) :: ctx2
    if !embeds.isEmpty then
      match decodeEmbeds model embeds prompt.length
          ((List.range n_tokens).filter (fun h => n_past ≤ h)) ctx3 with
      | (false, ctx4) =>
        ({ logits_head := 0, size := 0 },
          { st with past_mixes := mixes, active_context := active, ctx := ctx4 })
      | (true, ctx4) =>
        let ctx5 := Event.decode
          [{ token := st.specialTokens.XBC, pos := (prompt.length : Int) + n_tokens,
             seq_id := 0, logits := true }] :: ctx4
        if model.llama_decode ctx5 ≠ 0 then
          ({ logits_head := 0, size := 0 },
            { st with past_mixes := mixes, active_context := active, ctx := ctx5 })
        else
          let ctx6 := ASSERT (size + 1 = (prompt.length : Int) + n_tokens + 1) ctx5
          let ctx7 := ASSERT
            (size + 1 = (prompt.length : Int) + (embeds.length / model.n_embd : Nat) + 1) ctx6
          ({ logits_head := 0, size := size + 1 },
            { st with past_mixes := mixes, active_context := active,
                      ctx := Event.kv_cache_seq_rm 0 (size + 1) (-1) :: ctx7 })
    else
      let ctx4 := ASSERT (size = (prompt.length : Int)) ctx3
      let ctx5 := ASSERT (head = (prompt_ff.1.length : Int) - 1) ctx4
      ({ logits_head := head, size := size },
        { st with past_mixes := mixes, active_context := active,
                  ctx := Event.kv_cache_seq_rm 0 size (-1) :: ctx5 })

/-- The method `PredictNextWord`: the returned vector and the state after the call. -/
def LanguageModelState.PredictNextWord (st : LanguageModelState) (model : LanguageModel)
    (context : List Char) : List (ℚ × List Char) × LanguageModelState :=
  let next_context := 1 :: model.tokenize (trim context ++ [' '])
  let decoding := st.DecodePromptAndMixes model next_context []
  let sampled := decoding.2.Sample model decoding.1 3
  (sampled.1.map (fun r => (r.1, model.decode r.2)), sampled.2)

/-- The method `PredictCorrection`: the returned vector and the state after the call. -/
def LanguageModelState.PredictCorrection (st : LanguageModelState) (model : LanguageModel)
    (context : List Char) (_word : List Char) (mixes : List TokenMix) (swipe_mode : Bool) :
    List (ℚ × List Char) × LanguageModelState :=
  let tokenized := if context.length ≠ 0 then model.tokenize (trim context ++ [' ']) else []
  let with_xbu := (1 :: tokenized) ++ [st.specialTokens.XBU]
  let next_context := if swipe_mode then with_xbu ++ [st.specialTokens.XC0_SWIPE_MODE]
    else with_xbu
  let decoding := st.DecodePromptAndMixes model next_context mixes
  let sampled := decoding.2.Sample model decoding.1 3
  (sampled.1.map (fun r => (r.1, model.decode r.2)), sampled.2)

/-- What `Initialize` leaves behind: the returned flag, the member `specialTokens`, and the
number of `ASSERT`s that failed. -/
structure InitializeResult where
  returned : Bool
  specialTokens : SpecialTokens
  failed_asserts : Nat
deriving DecidableEq, Repr

/-- The ids `a, a + 1, .., b - 1` of a loop `for (int i = a; i < b; i++)`. -/
def idRange (a b : Nat) : List Nat :=
  (List.range (b - a)).map (fun i => a + i)

/-- The method `Initialize`.  `createLanguageModel` stands for
`LlamaAdapter::createLanguageModel`: `none` is the null pointer, and a loaded model is
given by its `tokenToId`.  A `LanguageModelState` starts value-initialised, so without a
model `specialTokens` is all zero. -/
def Initialize (createLanguageModel : String → Option (String → Nat)) (paths : String) :
    InitializeResult :=
  match createLanguageModel paths with
  | none =>
    { returned := false,
      specialTokens := { SPACE := 0, SAMPLING_BAD_TOKENS := [], XBU := 0, XBC := 0, XEC := 0,
                         XC0_SWIPE_MODE := 0, LETTERS_TO_IDS := List.replicate 26 0 },
      failed_asserts := 0 }
  | some tokenToId =>
    let bad0 : List Nat := [0, 1, 2, 3, 126, 127, 128, 129, 130]
    let bad1 := bad0 ++
      (idRange (tokenToId ".▁") (tokenToId "0")).filter (fun i => i ≠ tokenToId ".")
    let bad2 := bad1 ++ idRange (tokenToId ":") (tokenToId "~" + 1)
    let XBU := tokenToId "<XBU>"
    let XBC := tokenToId "<XBC>"
    let XEC := tokenToId "<XEC>"
    let CHAR_A := tokenToId "<CHAR_A>"
    { returned := true,
      specialTokens := { SPACE := 560, SAMPLING_BAD_TOKENS := bad2, XBU := XBU, XBC := XBC,
                         XEC := XEC, XC0_SWIPE_MODE := tokenToId "<XC0>",
                         LETTERS_TO_IDS := (List.range 26).map (fun i => CHAR_A + i) },
      failed_asserts := ([XBU, XBC, XEC, CHAR_A].filter (fun id => id = 0)).length }

/-- The collaborator `ProximityInfo` (keyboard geometry), by the four methods that
`getSuggestions` calls. -/
structure ProximityInfo where
  /-- The proportions `decomposeTapPosition(x, y)`, one per key. -/
  decomposeTapPosition : Int → Int → List ℚ
  /-- The code point `getKeyCodePoint(keyIndex)`. -/
  getKeyCodePoint : Nat → Int
  getKeyboardWidth : Int
  getKeyboardHeight : Int

/-- The constant `NUM_TOKEN_MIX`. -/
def NUM_TOKEN_MIX : Nat := 4

/-- The character `(char) (pInfo->getKeyCodePoint(key))`: the low eight bits.  Whether
`char` is signed does not matter for the comparisons with letters. -/
def keyChar (pInfo : ProximityInfo) (key : Nat) : Int :=
  pInfo.getKeyCodePoint key % 256

/-- The test `c >= 'a' && c <= 'z'`. -/
def isLowerLetter (c : Int) : Bool := decide (97 ≤ c) && decide (c ≤ 122)

/-- The test `c >= 'A' && c <= 'Z'`. -/
def isUpperLetter (c : Int) : Bool := decide (65 ≤ c) && decide (c ≤ 90)

/-- The state of the symbol loop of `getSuggestions`. -/
structure SymbolLoopState where
  index_value : List (ℚ × Nat)
  needs_resorting : Bool
  num_symbols : Nat
deriving DecidableEq, Repr

/-- The body of `for (int j = 0; j < NUM_TOKEN_MIX; j++)` in the symbol loop: a key that
is not a letter gets the value `-99999` and is counted.  A read past the end of
`index_value` is `(0, 0)`. -/
def markSymbol (pInfo : ProximityInfo) (acc : SymbolLoopState) (j : Nat) : SymbolLoopState :=
  let c := keyChar pInfo (acc.index_value.getD j (0, 0)).2
  if isLowerLetter c then acc
  else if isUpperLetter c then acc
  else
    { index_value := acc.index_value.set j (-99999, (acc.index_value.getD j (0, 0)).2),
      needs_resorting := true,
      num_symbols := acc.num_symbols + 1 }

/-- The loop `for (int s = 0; s < 100; s++)` of `getSuggestions`, with the number of passes
still to run.  Neither `needs_resorting` nor `num_symbols` is reset between passes. -/
def symbolLoop (pInfo : ProximityInfo) : Nat → SymbolLoopState → SymbolLoopState
  | 0, acc => acc
  | fuel + 1, acc =>
    let acc1 := (List.range NUM_TOKEN_MIX).foldl (markSymbol pInfo) acc
    if acc1.num_symbols = NUM_TOKEN_MIX then acc1
    else if !acc1.needs_resorting then acc1
    else
      symbolLoop pInfo fuel
        { acc1 with
          index_value := sortProbabilityPairVectorDescending acc1.index_value NUM_TOKEN_MIX }

/-- The vector `index_value` of a touch point after the first partial sort: the proportions
of `decomposeTapPosition` with every value below `0.05` set to zero, paired with the key
index and ranked. -/
def rankedKeys (pInfo : ProximityInfo) (x y : Int) : List (ℚ × Nat) :=
  let proportions := (pInfo.decomposeTapPosition x y).map (fun f => if f < 1 / 20 then 0 else f)
  sortProbabilityPairVectorDescending
    ((List.range proportions.length).map (fun k => (proportions.getD k 0, k))) NUM_TOKEN_MIX

/-- The symbol loop of a touch point, run on its ranked keys. -/
def selectKeys (pInfo : ProximityInfo) (x y : Int) : SymbolLoopState :=
  symbolLoop pInfo 100
    { index_value := rankedKeys pInfo x y, needs_resorting := false, num_symbols := 0 }

/-- The sum `total_sum` of the first `NUM_TOKEN_MIX` values of `index_value`. -/
def totalSum (index_value : List (ℚ × Nat)) : ℚ :=
  ((List.range NUM_TOKEN_MIX).map (fun j => (index_value.getD j (0, 0)).1)).sum

/-- The entry `results.mixes[j]` of a kept touch point: the value divided by `total_sum`
and the per-letter id of a letter key, weight zero for any other key.  The source leaves
the token of such a key uninitialised; the model takes 0.  A division by a `total_sum` of
zero is NaN or infinite in the source and `0` in the model. -/
def mixEntry (sp : SpecialTokens) (pInfo : ProximityInfo) (index_value : List (ℚ × Nat))
    (j : Nat) : TokenMixEntry :=
  let c := keyChar pInfo (index_value.getD j (0, 0)).2
  let w := (index_value.getD j (0, 0)).1 / totalSum index_value
  if isLowerLetter c then { weight := w, token := sp.LETTERS_TO_IDS.getD (c - 97).toNat 0 }
  else if isUpperLetter c then { weight := w, token := sp.LETTERS_TO_IDS.getD (c - 65).toNat 0 }
  else { weight := 0, token := 0 }

/-- The body of the loop `for (int i = 0; i < inputSize; i++)` of `getSuggestions` for the
touch point `(x, y)`: `none` is the `continue` that skips the point, otherwise the
`TokenMix` pushed to `mixes`. -/
def pointMix (sp : SpecialTokens) (pInfo : ProximityInfo) (x y : Int) : Option TokenMix :=
  let selected := selectKeys pInfo x y
  if selected.num_symbols = NUM_TOKEN_MIX then none
  else
    some { x := (x : ℚ) / (pInfo.getKeyboardWidth : ℚ),
           y := (y : ℚ) / (pInfo.getKeyboardHeight : ℚ),
           mixes := (List.range NUM_TOKEN_MIX).map (mixEntry sp pInfo selected.index_value) }

/-- The number of touch points that `getSuggestions` processes: the length of `inComposeX`,
lowered to the size of the partial word. -/
def inputSize (partialWord : List Char) (inComposeX : List Int) : Nat :=
  if partialWord.length < inComposeX.length then partialWord.length else inComposeX.length

/-- The vector `mixes` that `getSuggestions` builds from the processed touch points. -/
def getSuggestionsMixes (sp : SpecialTokens) (pInfo : ProximityInfo) (partialWord : List Char)
    (inComposeX inComposeY : List Int) : List TokenMix :=
  (List.range (inputSize partialWord inComposeX)).filterMap
    (fun i => pointMix sp pInfo (inComposeX.getD i 0) (inComposeY.getD i 0))

/-- The function `xlm_LanguageModel_getSuggestions` up to the marshalling of its result:
the suggestions and the state after the call.  A null `partialWord` is the empty word. -/
def xlm_LanguageModel_getSuggestions (st : LanguageModelState) (model : LanguageModel)
    (pInfo : ProximityInfo) (context : List Char) (partialWord : Option (List Char))
    (inputMode : Int) (inComposeX inComposeY : List Int) :
    List (ℚ × List Char) × LanguageModelState :=
  let partialWordString := partialWord.getD []
  let mixes := getSuggestionsMixes st.specialTokens pInfo partialWordString inComposeX inComposeY
  if partialWordString.isEmpty then st.PredictNextWord model context
  else st.PredictCorrection model context partialWordString mixes (inputMode == 1)

/-- Modelled from the spec: the length of "the longest common prefix between old and new
prompt", which the fast-forward helper (defined outside this file) computes. -/
def commonPrefixLength : List Nat → List Nat → Nat
  | a :: as, b :: bs => if a = b then commonPrefixLength as bs + 1 else 0
  | _, _ => 0

/-- Modelled from the spec: the helper `transformer_context_fastforward` is defined outside
this file.  "Compute the longest common prefix between old and new prompt; if they diverge
at position p, the fast-forward result is the new prompt's tokens from p onward,
n_past = p."  The spec gives the third argument no role. -/
def transformer_context_fastforward (active_context next_context : List Nat)
    (_allow_empty : Bool) : List Nat × Nat :=
  (next_context.drop (commonPrefixLength active_context next_context),
    commonPrefixLength active_context next_context)

/-- Modelled from the spec: the helper `transformer_context_apply` is defined outside this
file.  It "updates the persisted previous prompt state to the new prompt": the kept prefix
followed by the new tokens. -/
def transformer_context_apply (active_context : List Nat) (prompt_ff : List Nat × Nat) :
    List Nat :=
  active_context.take prompt_ff.2 ++ prompt_ff.1

/-- The token batch that `DecodePromptAndMixes` fills from the fast-forward result: token
`i` of the suffix at position `n_past + i` in slot 0, with logits requested at the last
position when there are no mixes. -/
def promptBatch (prompt_ff : List Nat × Nat) (mixes : List TokenMix) : List BatchEntry :=
  (List.range prompt_ff.1.length).map (fun i =>
    { token := prompt_ff.1.getD i 0,
      pos := (prompt_ff.2 : Int) + i,
      seq_id := 0,
      logits := decide (i = prompt_ff.1.length - 1) && mixes.isEmpty })

/-! ## Notions used in the statements -/

/-- Whether an event is a `llama_decode` of a token batch. -/
def isDecode : Event → Bool
  | Event.decode _ => true
  | _ => false

/-- Whether `transform_logits` has overwritten id `t` with the mask value before its loop
over the banned tokens: `XBU`, `XBC`, `XEC` unless corrections are allowed, and the
per-letter ids. -/
def SpecialTokens.controlMasked (sp : SpecialTokens) (allow_correction_token : Bool)
    (t : Nat) : Bool :=
  t == sp.XBU || t == sp.XBC || (!allow_correction_token && t == sp.XEC) ||
    sp.LETTERS_TO_IDS.contains t

/-- Whether `transform_logits` overwrites id `t` with the mask value at some point: a
control or per-letter id, a banned id, or the space id when space is not allowed. -/
def SpecialTokens.masked (sp : SpecialTokens) (allow_space allow_correction_token : Bool)
    (t : Nat) : Bool :=
  sp.controlMasked allow_correction_token t || sp.SAMPLING_BAD_TOKENS.contains t ||
    (!allow_space && t == sp.SPACE)

/-- The number of vocabulary ids that `transform_logits` leaves unmasked. -/
def SpecialTokens.unmaskedCount (sp : SpecialTokens) (n_vocab : Nat)
    (allow_space allow_correction_token : Bool) : Nat :=
  ((List.range n_vocab).filter
    (fun t => !sp.masked allow_space allow_correction_token t)).length

/-- The total non-negative mass of the leading `n` entries of a buffer. -/
def bufferMass (n : Nat) (l : Nat → ℚ) : ℚ :=
  ∑ i in Finset.range n, max 0 (l i)

/-- An exact softmax output over `n` ids: non-negative entries that sum to one. -/
def IsDistribution (n : Nat) (p : Nat → ℚ) : Prop :=
  (∀ i, i < n → 0 ≤ p i) ∧ ∑ i in Finset.range n, p i = 1

/-- A token id that a live hypothesis may carry in front of its newest token: not `XEC`,
and its text does not end a word. -/
def cleanToken (model : LanguageModel) (sp : SpecialTokens) (t : Nat) : Prop :=
  t ≠ sp.XEC ∧ endsWord (model.getToken t) = false

/-- What `Sample` emits for a hypothesis `q`: the tokens in front of a trailing `XEC`, or
all tokens of a hypothesis whose newest token ends a word; the probability is kept. -/
def EmittedFrom (model : LanguageModel) (sp : SpecialTokens) (q : potential_sequence)
    (o : ℚ × List Nat) : Prop :=
  o.1 = q.1 ∧
    (q.2.tokens = o.2 ++ [sp.XEC] ∨
      (q.2.tokens = o.2 ∧ ∃ body last, o.2 = body ++ [last] ∧
        endsWord (model.getToken last) = true))

/-- The llama context with which a pass of the loop of `Sample` ends. -/
def StepOutcome.ctx : StepOutcome → List Event
  | StepOutcome.proceed s => s.ctx
  | StepOutcome.stop s => s.ctx
  | StepOutcome.returnEmpty c => c

/-- The llama context with which the loop of `Sample` is left. -/
def LoopExit.ctx : LoopExit → List Event
  | LoopExit.finished s => s.ctx
  | LoopExit.failed c => c

/-- The events that a call of `Sample` with the given `decodeResult` puts on the llama
context: every `transform_logits` carries the flag `logits_head == 0`, and no embedding is
decoded. -/
def SampleEvent (decodeResult : DecodeResult) : Event → Prop
  | Event.transform_logits _ _ c => c = decide (decodeResult.logits_head = 0)
  | Event.decode_embd _ _ _ _ => False
  | _ => True

/-- The history `new` is `old` with events in front that all satisfy `Q`, at most `k` of
them `llama_decode` calls on a token batch. -/
def Extends (Q : Event → Prop) (k : Nat) (new old : List Event) : Prop :=
  ∃ added, new = added ++ old ∧ (∀ e ∈ added, Q e) ∧ (added.filter isDecode).length ≤ k

/-- The llama context in which the expansion of a pass starts: the context at the head of
the pass after the `ASSERT` on the batch size and the `llama_decode` of the batch. -/
def stepCtx (model : LanguageModel) (sp : SpecialTokens) (decodeResult : DecodeResult)
    (n_results : Nat) (s : SampleState) : List Event :=
  Event.decode (stepBatch decodeResult (stepLive model sp s)) ::
    assertBatch (stepBatch decodeResult (stepLive model sp s)).length
      (n_results - (stepOutputs model sp s).length) s.ctx

/-- The llama context of a pass when its collision loop starts. -/
def stepExpandedCtx (model : LanguageModel) (sp : SpecialTokens) (decodeResult : DecodeResult)
    (n_results : Nat) (s : SampleState) : List Event :=
  (expandAll model sp (decide (decodeResult.logits_head = 0)) (stepLive model sp s)
    (n_results - (stepOutputs model sp s).length)
    (stepCtx model sp decodeResult n_results s)).2

/-- The vector `next_sequences` of a pass when its collision loop starts. -/
def stepNextSequences (model : LanguageModel) (sp : SpecialTokens) (decodeResult : DecodeResult)
    (n_results : Nat) (s : SampleState) : List potential_sequence :=
  stepNext model sp decodeResult n_results s (stepCtx model sp decodeResult n_results s)

/-- The slot ids of a list of hypotheses, in order. -/
def slotIds (l : List potential_sequence) : List Nat :=
  l.map (fun q => q.2.seq_id)

/-- The slots in use at the moment the collision loop handles hypothesis number `i`: the
slots of the hypotheses already handled and the slots of the hypotheses from `i` on. -/
def slotsInUse (next resolved : List potential_sequence) (i : Nat) : List Nat :=
  slotIds (resolved.take i) ++ slotIds (next.drop i)

/-- The `llama_kv_cache_seq_cp` calls of the collision loop, newest first: one for every
hypothesis whose slot changes, from the old slot to the new one over the positions
`[0, decodeResult.size + (tokens.size() - 1))`. -/
def collisionCopies (size : Int) (next resolved : List potential_sequence) : List Event :=
  ((next.zip resolved).filterMap (fun p =>
    if p.1.2.seq_id = p.2.2.seq_id then none
    else some (Event.kv_cache_seq_cp p.1.2.seq_id p.2.2.seq_id 0
      (size + ((p.1.2.tokens.length : Int) - 1))))).reverse

/-- Whether an event writes cached state into slot `i`: a forward pass with a position in
the slot, or a copy into the slot. -/
def writesSlot (i : Nat) : Event → Bool
  | Event.decode batch => batch.any (fun b => b.seq_id == i)
  | Event.decode_embd _ _ seq_id _ => seq_id == i
  | Event.kv_cache_seq_cp _ dst _ _ => dst == i
  | _ => false

/-- Whether an event removes the cached state of slot `i` over its whole position range:
`llama_kv_cache_seq_rm(ctx, i, p0, p1)` with `p0 <= 0` and a negative `p1`, which stands
for the end. -/
def evictsSlot (i : Nat) : Event → Bool
  | Event.kv_cache_seq_rm seq_id p0 p1 => seq_id == i && decide (p0 ≤ 0) && decide (p1 < 0)
  | _ => false

/-- Whether the history (newest first) holds a removal of slot `i` over its whole position
range that is newer than every write or copy into the slot. -/
def evictedAfterLastWrite (i : Nat) : List Event → Bool
  | [] => false
  | e :: rest =>
    if evictsSlot i e then true
    else if writesSlot i e then false
    else evictedAfterLastWrite i rest

/-- The property `Q` holds of every kind of event that `Sample` issues before its final
cleanup: a `transform_logits`, a `llama_decode` of a token batch, a `llama_kv_cache_seq_cp`
and a failed `ASSERT`. -/
def LoopClosed (Q : Event → Prop) : Prop :=
  (∀ row a c, Q (Event.transform_logits row a c)) ∧ (∀ b, Q (Event.decode b)) ∧
    (∀ src dst p0 p1, Q (Event.kv_cache_seq_cp src dst p0 p1)) ∧ Q Event.assert_failed

/-- An event other than a `llama_kv_cache_seq_rm`. -/
def NoRemoval : Event → Prop
  | Event.kv_cache_seq_rm _ _ _ => False
  | _ => True

/-- Whether the key is alphabetic for `getSuggestions`: its character passes
`c >= 'a' && c <= 'z'` or `c >= 'A' && c <= 'Z'`. -/
def isLetterKey (pInfo : ProximityInfo) (key : Nat) : Bool :=
  isLowerLetter (keyChar pInfo key) || isUpperLetter (keyChar pInfo key)

/-- The key index at rank `j` of a vector `index_value`. -/
def keyAt (index_value : List (ℚ × Nat)) (j : Nat) : Nat :=
  (index_value.getD j (0, 0)).2

/-- The value at rank `j` of a vector `index_value`. -/
def valueAt (index_value : List (ℚ × Nat)) (j : Nat) : ℚ :=
  (index_value.getD j (0, 0)).1

/-- Every entry of `index_value` has a non-negative value or a key that is not a letter. -/
def GoodKeys (pInfo : ProximityInfo) (index_value : List (ℚ × Nat)) : Prop :=
  ∀ e ∈ index_value, 0 ≤ e.1 ∨ isLetterKey pInfo e.2 = false

/-- The specification of `trim` in its own words: the string without its maximal leading
run and without its maximal trailing run of whitespace characters. -/
def trimSpec (s : List Char) : List Char :=
  (s.dropWhile isspace).rdropWhile isspace

/-- The specification of the blend in its own words: component `i` of the embedding is
the sum, over the slots of the mix whose weight is at least `EPS`, of the weight times
component `i` of the embedding-table row of the token of the slot. -/
def blendSpec (model : LanguageModel) (mix : TokenMix) : List ℚ :=
  (List.range model.n_embd).map (fun i =>
    ((mix.mixes.filter (fun t => decide (EPS ≤ t.weight))).map
      (fun t => t.weight * model.embeddings.getD (t.token * model.n_embd + i) 0)).sum)

/-- The llama context after the prompt step of `DecodePromptAndMixes`, when the forward
pass over the prompt batch (if there is one) succeeds: nothing is added for an empty
fast-forward suffix; otherwise slot 0 is removed from `n_past` on and the prompt batch is
evaluated. -/
def promptStepCtx (st : LanguageModelState) (model : LanguageModel) (prompt : List Nat)
    (mixes : List TokenMix) : List Event :=
  if (model.transformer_context_fastforward st.active_context prompt (!mixes.isEmpty)).1 = []
  then st.ctx
  else
    Event.decode (promptBatch
        (model.transformer_context_fastforward st.active_context prompt (!mixes.isEmpty)) mixes) ::
      Event.kv_cache_seq_rm 0
        (model.transformer_context_fastforward st.active_context prompt (!mixes.isEmpty)).2 (-1) ::
      st.ctx

/-- The number of mix positions that `DecodePromptAndMixes` reuses: the value of `n_past`
when the loop over the embeddings starts. -/
def reusedMixes (st : LanguageModelState) (model : LanguageModel) (prompt : List Nat)
    (mixes : List TokenMix) : Nat :=
  if (model.transformer_context_fastforward st.active_context prompt (!mixes.isEmpty)).1 = []
  then st.GetCachedMixAmount mixes
  else 0

/-- The forward pass over the embedding of mix number `h`: the embedding alone, at
position `|prompt| + h` in slot 0, without logits. -/
def embeddingPass (model : LanguageModel) (prompt : List Nat) (mixes : List TokenMix)
    (h : Nat) : Event :=
  Event.decode_embd (mixEmbedding model (mixes.getD h { x := 0, y := 0, mixes := [] })).1
    ((prompt.length : Int) + h) 0 false

/-! ## Concrete inputs

A small vocabulary of 40 ids used for the evaluations below: the banned ids `0..3`
(`1` is the BOS id that `PredictNextWord` puts in front), `XBU = 4`, `XBC = 5`,
`XEC = 6`, `XC0 = 7`, the letters `8..33`, `SPACE = 34`, the word pieces
`35 = "a"`, `36 = "b"`, `37 = "c▁"`, `38 = "d▁"`, and `39`, the token of every context.

`expf x = 1 + x` and `logf s = (s - 1) / 40` make `softmax` return its input whenever the
input is a probability vector over the 40 ids, so the rows of the evaluator below are
directly the distributions after `softmax`.  Every row is strictly positive, as an exact
softmax output is; with the real `expf` and `logf` the same distributions are the softmax
of the logarithms of the rows. -/

/-- The special tokens of the concrete inputs. -/
def demoTokens : SpecialTokens :=
  { SPACE := 34, SAMPLING_BAD_TOKENS := [0, 1, 2, 3], XBU := 4, XBC := 5, XEC := 6,
    XC0_SWIPE_MODE := 7, LETTERS_TO_IDS := (List.range 26).map (fun i => 8 + i) }

/-- The token texts of the concrete inputs, as bytes; `E2 96 81` is the word boundary. -/
def demoText (t : Nat) : List Nat :=
  if t = 34 then [0xe2, 0x96, 0x81]
  else if t = 35 then [0x61]
  else if t = 36 then [0x62]
  else if t = 37 then [0x63, 0xe2, 0x96, 0x81]
  else if t = 38 then [0x64, 0xe2, 0x96, 0x81]
  else [0x3f]

/-- A distribution over the 40 ids: `1/100` on every id plus the listed extra mass
(which has to add up to `60/100`). -/
def demoRow (extra : List (Nat × ℚ)) (i : Nat) : ℚ :=
  1 / 100 + (extra.lookup i).getD 0

/-- The next-token distributions of the concrete evaluator, by the token fed last:
after `"a"` the best continuations are `"c▁"` (41/100) and `"d▁"` (21/100), after `"b"`
they are `"d▁"` (46/100) and `"c▁"` (16/100), and after anything else `"a"` (46/100),
`"c▁"` (15/100) and `"b"` (2/100). -/
def demoBigram (t : Nat) : Nat → ℚ :=
  if t = 35 then demoRow [(37, 40 / 100), (38, 20 / 100)]
  else if t = 36 then demoRow [(38, 45 / 100), (37, 15 / 100)]
  else demoRow [(35, 45 / 100), (37, 14 / 100), (36, 1 / 100)]

/-- The token batch of the newest `llama_decode` of a history. -/
def lastBatch : List Event → List BatchEntry
  | [] => []
  | Event.decode batch :: _ => batch
  | _ :: rest => lastBatch rest

/-- A model over the 40 ids: `llama_decode` returns `status` of the history, and logits
row `i` holds the distribution `demoBigram` of the token at position `i` of the newest
token batch (of the BOS id when there is none).  The tokenizer returns the one token `39`
and the fast-forward helper recomputes the whole prompt; there is no learned encoder and
every entry of the embedding table is `1/4`. -/
def demoModel (status : List Event → Int) : LanguageModel :=
  { n_vocab := 40, n_embd := 2,
    getToken := demoText,
    tokenize := fun _ => [39],
    decode := fun ts => ts.map (fun t => Char.ofNat (t + 62)),
    llama_decode := status,
    llama_get_logits_ith := fun tr row =>
      demoBigram
        ((lastBatch tr).getD row.toNat
          { token := 1, pos := 0, seq_id := 0, logits := false }).token,
    expf := fun x => 1 + x,
    logf := fun s => (s - 1) / 40,
    encoder_weight := [], encoder_bias := [], embeddings := List.replicate 80 (1 / 4),
    transformer_context_fastforward := fun _ next _ => (next, 0),
    transformer_context_apply := fun _ ff => ff.1 }

/-- The evaluator status of a run in which every forward pass succeeds. -/
def statusOk : List Event → Int := fun _ => 0

/-- The evaluator status of a run in which every forward pass fails. -/
def statusFail : List Event → Int := fun _ => 1

/-- The evaluator status of a run in which the first token batch (the prompt) succeeds and
every later token batch (the `XBC` token, the expansion steps of `Sample`) fails. -/
def statusFailLater : List Event → Int :=
  fun tr => if 2 ≤ (tr.filter isDecode).length then 1 else 0

/-- The evaluator status of a run in which exactly the forward passes over an embedding
fail. -/
def statusFailEmbd : List Event → Int
  | Event.decode_embd _ _ _ _ :: _ => 1
  | _ => 0

/-- The state of a freshly loaded model with the special tokens of the concrete inputs. -/
def demoState : LanguageModelState :=
  { specialTokens := demoTokens, past_mixes := [], active_context := [], ctx := [] }

/-- A touch point in the middle of the keyboard whose one candidate is the letter `a`. -/
def demoMix : TokenMix :=
  { x := 1 / 2, y := 1 / 2,
    mixes := [{ weight := 1, token := 8 }, { weight := 0, token := 8 },
      { weight := 0, token := 8 }, { weight := 0, token := 8 }] }

/-- The prompt that `PredictNextWord` builds for the context `"hi"`: the BOS id and the one
token of the tokenizer. -/
def demoPrompt : List Nat := [1, 39]

/-- The result of `DecodePromptAndMixes` on that prompt in a freshly loaded model, and the
state it leaves: what `PredictNextWord` hands to `Sample`. -/
def demoDecoded : DecodeResult × LanguageModelState :=
  demoState.DecodePromptAndMixes (demoModel statusOk) demoPrompt []

/-- The result of `DecodePromptAndMixes` on the prompt of `PredictCorrection` for the
context `"hi"` (BOS, the context token, `XBU`) with one touch point, and the state it
leaves: what `PredictCorrection` hands to `Sample`. -/
def demoCorrection : DecodeResult × LanguageModelState :=
  demoState.DecodePromptAndMixes (demoModel statusOk) [1, 39, 4] [demoMix]

/-- The live hypotheses of pass 0 of `Sample` when `PredictNextWord` calls it for the
context `"hi"`. -/
def demoLive : List potential_sequence :=
  stepLive (demoModel statusOk) demoTokens
    (sampleInit (demoModel statusOk) demoTokens demoDecoded.2.ctx demoDecoded.1 3)

/-- The llama context of that call when the expansion of pass 0 starts. -/
def demoCtx : List Event :=
  Event.decode (stepBatch demoDecoded.1 demoLive) ::
    (sampleInit (demoModel statusOk) demoTokens demoDecoded.2.ctx demoDecoded.1 3).ctx

/-- The concrete model with every token text replaced by `"?"`, so that no token ends a
word. -/
def demoModelNoEnd : LanguageModel :=
  { demoModel statusOk with getToken := fun _ => [0x3f] }

/-- The result of `DecodePromptAndMixes` on the prompt of `PredictNextWord` for the context
`"hi"` in that model. -/
def demoDecodedNoEnd : DecodeResult × LanguageModelState :=
  demoState.DecodePromptAndMixes demoModelNoEnd demoPrompt []

/-- The next-token distributions of a second concrete evaluator, by the token fed last:
after `35` the two best continuations `36` and `38` are equally likely (31/100 each),
after `37` all the extra mass lies on the per-letter id `8`, which `transform_logits`
masks, and after anything else the best continuations are `35` (46/100), `36` (15/100) and
`37` (2/100). -/
def demoBigramCollide (t : Nat) : Nat → ℚ :=
  if t = 35 then demoRow [(36, 30 / 100), (38, 30 / 100)]
  else if t = 37 then demoRow [(8, 60 / 100)]
  else demoRow [(35, 45 / 100), (36, 14 / 100), (37, 1 / 100)]

/-- The concrete model without word ends, with the rows of `demoBigramCollide`. -/
def demoModelCollide : LanguageModel :=
  { demoModelNoEnd with
    llama_get_logits_ith := fun tr row =>
      demoBigramCollide
        ((lastBatch tr).getD row.toNat
          { token := 1, pos := 0, seq_id := 0, logits := false }).token }

/-- The result of `DecodePromptAndMixes` on the prompt of `PredictNextWord` for the context
`"hi"` in that model. -/
def demoDecodedCollide : DecodeResult × LanguageModelState :=
  demoState.DecodePromptAndMixes demoModelCollide demoPrompt []

/-- The state of `Sample` at the head of pass 0 when it is called with that result for
three results. -/
def demoInitCollide : SampleState :=
  sampleInit demoModelCollide demoTokens demoDecodedCollide.2.ctx demoDecodedCollide.1 3

/-- A keyboard of the eight keys `a b c d , . ; /`, 100 wide and 50 high.  A tap at `x = 10`
lies between the letters and the symbols (`a` 0.30, `b` 0.25, `,` 0.15, `.` 0.12, `;` 0.10,
`/` 0.08), a tap at `x = 20` lies on the symbols only, and any other tap lies on the
letters (`a` 0.40, `b` 0.30, `c` 0.20, `d` 0.06, `,` 0.04). -/
def demoKeyboard : ProximityInfo :=
  { decomposeTapPosition := fun x _ =>
      if x = 10 then [30 / 100, 25 / 100, 0, 0, 15 / 100, 12 / 100, 10 / 100, 8 / 100]
      else if x = 20 then [0, 0, 0, 0, 40 / 100, 30 / 100, 20 / 100, 10 / 100]
      else [40 / 100, 30 / 100, 20 / 100, 6 / 100, 4 / 100, 0, 0, 0],
    getKeyCodePoint := fun k => [97, 98, 99, 100, 44, 46, 59, 47].getD k 0,
    getKeyboardWidth := 100, getKeyboardHeight := 50 }

/-- A keyboard of the 26 keys `a..z` on which every tap is equally far from all keys: each
key gets the proportion `1/26`, which is below the threshold `0.05`. -/
def demoLetterKeyboard : ProximityInfo :=
  { decomposeTapPosition := fun _ _ => List.replicate 26 (1 / 26),
    getKeyCodePoint := fun k => 97 + (k : Int),
    getKeyboardWidth := 100, getKeyboardHeight := 50 }

/-- A vocabulary in which every special token resolves except `<XBU>`: `tokenToId`
returns 0 for it. -/
def demoTokenToId (s : String) : Nat :=
  if s = "<XBC>" then 5 else if s = "<XEC>" then 6 else if s = "<XC0>" then 7
  else if s = "<CHAR_A>" then 8 else if s = ".▁" then 131 else if s = "." then 132
  else if s = "0" then 134 else if s = ":" then 140 else if s = "~" then 141 else 0

/-- The same vocabulary with `<XBU>` resolved to 4 and `<XC0>` unresolved. -/
def demoTokenToIdNoSwipe (s : String) : Nat :=
  if s = "<XBU>" then 4 else if s = "<XC0>" then 0 else demoTokenToId s

/-- The concrete model with the fast-forward helpers as the spec describes them. -/
def demoModelFastForward : LanguageModel :=
  { demoModel statusOk with
    transformer_context_fastforward := transformer_context_fastforward,
    transformer_context_apply := transformer_context_apply }

/-- The state that the call `PredictNextWord("hi")` leaves in a freshly loaded model with
the fast-forward helpers of the spec. -/
def demoAfterFirstCall : LanguageModelState :=
  (demoState.PredictNextWord demoModelFastForward ['h', 'i']).2

/-- The concrete model with embedding dimension 0. -/
def demoModelNoEmbd : LanguageModel :=
  { demoModel statusOk with n_embd := 0 }

/-- The state that `DecodePromptAndMixes` leaves after the prompt `[1, 39, 4]` with one
touch point, in a freshly loaded model with the fast-forward helpers of the spec. -/
def demoAfterCorrection : LanguageModelState :=
  (demoState.DecodePromptAndMixes demoModelFastForward [1, 39, 4] [demoMix]).2

theorem insertDescending_perm {T : Type} (a : ℚ × T) (l : List (ℚ × T)) :
    (insertDescending a l).Perm (a :: l) := by
  induction l with
  | nil => exact List.Perm.refl _
  | cons b l ih =>
    unfold insertDescending
    split_ifs with h
    · exact (List.Perm.cons b ih).trans (List.Perm.swap a b l)
    · exact List.Perm.refl _

theorem sortDescending_perm {T : Type} (vec : List (ℚ × T)) (middle : Nat) :
    (sortProbabilityPairVectorDescending vec middle).Perm vec := by
  unfold sortProbabilityPairVectorDescending
  induction vec with
  | nil => exact List.Perm.refl _
  | cons a l ih =>
    rw [List.foldr_cons]
    exact (insertDescending_perm a _).trans (List.Perm.cons a ih)

theorem sortDescending_length {T : Type} (vec : List (ℚ × T)) (middle : Nat) :
    (sortProbabilityPairVectorDescending vec middle).length = vec.length :=
  (sortDescending_perm vec middle).length_eq

theorem insertDescending_pairwise {T : Type} (a : ℚ × T) (l : List (ℚ × T))
    (h : l.Pairwise (fun x y => y.1 ≤ x.1)) :
    (insertDescending a l).Pairwise (fun x y => y.1 ≤ x.1) := by
  induction l with
  | nil => simp [insertDescending]
  | cons b l ih =>
    unfold insertDescending
    rw [List.pairwise_cons] at h
    split_ifs with hb
    · rw [List.pairwise_cons]
      refine ⟨?_, ih h.2⟩
      intro y hy
      rcases List.mem_cons.mp ((insertDescending_perm a l).mem_iff.mp hy) with hy1 | hy1
      · rw [hy1]
        exact le_of_lt hb
      · exact h.1 y hy1
    · have hab : b.1 ≤ a.1 := not_lt.mp hb
      rw [List.pairwise_cons]
      refine ⟨?_, List.pairwise_cons.mpr h⟩
      intro y hy
      rcases List.mem_cons.mp hy with hy1 | hy1
      · rw [hy1]; exact hab
      · exact le_trans (h.1 y hy1) hab

theorem sortDescending_pairwise {T : Type} (vec : List (ℚ × T)) (middle : Nat) :
    (sortProbabilityPairVectorDescending vec middle).Pairwise (fun x y => y.1 ≤ x.1) := by
  unfold sortProbabilityPairVectorDescending
  induction vec with
  | nil => simp
  | cons a l ih =>
    rw [List.foldr_cons]
    exact insertDescending_pairwise a _ ih

/-! ## The structure of one pass -/

theorem filter_filterMap_length {α β : Type} (f : α → Option β) (l : List α) :
    (l.filter (fun q => (f q).isNone)).length + (l.filterMap f).length = l.length := by
  induction l with
  | nil => rfl
  | cons a l ih =>
    cases hfa : f a with
    | none =>
      rw [List.filter_cons_of_pos (by simp [hfa]), List.filterMap_cons_none hfa,
        List.length_cons, List.length_cons]
      omega
    | some b =>
      rw [List.filter_cons_of_neg (by simp [hfa]), List.filterMap_cons_some hfa,
        List.length_cons, List.length_cons]
      omega

theorem stepLive_length (model : LanguageModel) (sp : SpecialTokens) (s : SampleState) :
    (stepLive model sp s).length + (stepOutputs model sp s).length =
      s.sequences.length + s.outputs.length := by
  unfold stepLive stepOutputs
  rw [List.length_append]
  have h := filter_filterMap_length (finished model sp) s.sequences
  omega

theorem expandParent_fold_length (model : LanguageModel) (sp : SpecialTokens) (allow : Bool)
    (sequences : List potential_sequence) (rc : Nat) (L : List Nat) :
    ∀ acc : List potential_sequence × List Event,
      ((L.foldl (expandParent model sp allow sequences rc) acc).1).length =
        acc.1.length + L.length * rc := by
  induction L with
  | nil => intro acc; simp
  | cons a L ih =>
    intro acc
    rw [List.foldl_cons, ih]
    simp only [expandParent, List.length_append, List.length_map, List.length_range,
      List.length_cons]
    ring

theorem expandAll_length (model : LanguageModel) (sp : SpecialTokens) (allow : Bool)
    (sequences : List potential_sequence) (rc : Nat) (ctx : List Event) :
    (expandAll model sp allow sequences rc ctx).1.length = rc * rc := by
  unfold expandAll
  rw [expandParent_fold_length]
  simp

theorem expandParent_fold_mem (model : LanguageModel) (sp : SpecialTokens) (allow : Bool)
    (sequences : List potential_sequence) (rc : Nat) (L : List Nat) :
    ∀ (acc : List potential_sequence × List Event) (c : potential_sequence),
      c ∈ (L.foldl (expandParent model sp allow sequences rc) acc).1 →
        c ∈ acc.1 ∨ ∃ seq ∈ L, ∃ i, i < rc ∧ ∃ ctx1 : List Event,
          c = child sequences (sequences.getD seq potential_sequence_zero)
            (rankRow model sp ctx1 (seq : Int) true allow rc) i := by
  induction L with
  | nil => intro acc c hc; exact Or.inl hc
  | cons a L ih =>
    intro acc c hc
    rw [List.foldl_cons] at hc
    rcases ih _ c hc with h | ⟨seq, hseq, i, hi, ctx1, hceq⟩
    · simp only [expandParent] at h
      rcases List.mem_append.mp h with h1 | h1
      · exact Or.inl h1
      · right
        obtain ⟨i, hi, hci⟩ := List.mem_map.mp h1
        exact ⟨a, List.mem_cons_self a L, i, List.mem_range.mp hi, acc.2, hci.symm⟩
    · exact Or.inr ⟨seq, List.mem_cons_of_mem a hseq, i, hi, ctx1, hceq⟩

theorem expandAll_mem (model : LanguageModel) (sp : SpecialTokens) (allow : Bool)
    (sequences : List potential_sequence) (rc : Nat) (ctx : List Event)
    (c : potential_sequence) (hc : c ∈ (expandAll model sp allow sequences rc ctx).1) :
    ∃ seq, seq < rc ∧ ∃ i, i < rc ∧ ∃ ctx1 : List Event,
      c = child sequences (sequences.getD seq potential_sequence_zero)
        (rankRow model sp ctx1 (seq : Int) true allow rc) i := by
  unfold expandAll at hc
  rcases expandParent_fold_mem model sp allow sequences rc _ _ c hc with h | h
  · simp at h
  · obtain ⟨seq, hseq, rest⟩ := h
    exact ⟨seq, List.mem_range.mp hseq, rest⟩

theorem resolveCollisions_map (n_results : Nat) (size : Int) :
    ∀ (l : List potential_sequence) (count : List Nat) (ctx : List Event)
      (r : List potential_sequence) (ctx1 : List Event),
      resolveCollisions n_results size l count ctx = (some r, ctx1) →
        r.map (fun q => (q.1, q.2.tokens)) = l.map (fun q => (q.1, q.2.tokens)) := by
  intro l
  induction l with
  | nil =>
    intro count ctx r ctx1 h
    simp only [resolveCollisions, Prod.mk.injEq, Option.some.injEq] at h
    rw [← h.1]
  | cons q l ih =>
    intro count ctx r ctx1 h
    unfold resolveCollisions at h
    split_ifs at h with hq
    · simp only at h
      split at h
      · simp at h
      · rename_i new_seq_id hfind
        split at h
        · simp at h
        · rename_i rest1 ctx2 hrec
          simp only [Prod.mk.injEq, Option.some.injEq] at h
          rw [← h.1, List.map_cons, List.map_cons, ih _ _ _ _ hrec]
    · split at h
      · simp at h
      · rename_i rest1 ctx2 hrec
        simp only [Prod.mk.injEq, Option.some.injEq] at h
        rw [← h.1, List.map_cons, List.map_cons, ih _ _ _ _ hrec]

theorem resize_length {α : Type} (v : List α) (n : Nat) (zero : α) :
    (resize v n zero).length = n := by
  unfold resize
  rw [List.length_append, List.length_take, List.length_replicate]
  omega

theorem resize_of_le {α : Type} (v : List α) (n : Nat) (zero : α) (h : n ≤ v.length) :
    resize v n zero = v.take n := by
  unfold resize
  rw [Nat.sub_eq_zero_of_le h]
  simp

theorem sampleStep_proceed {model : LanguageModel} {sp : SpecialTokens} {dr : DecodeResult}
    {n : Nat} {s s1 : SampleState}
    (h : sampleStep model sp dr n s = StepOutcome.proceed s1) :
    s1.outputs = stepOutputs model sp s ∧ stepLive model sp s ≠ [] ∧
      ∃ ctx1 : List Event, s1.sequences.map (fun q => (q.1, q.2.tokens)) =
        (stepNext model sp dr n s ctx1).map (fun q => (q.1, q.2.tokens)) := by
  unfold sampleStep at h
  simp only at h
  split_ifs at h with hb
  split at h
  · simp at h
  · rename_i resolved ctx2 hres
    simp only [StepOutcome.proceed.injEq] at h
    subst h
    refine ⟨rfl, ?_, _, resolveCollisions_map n dr.size _ _ _ _ _ hres⟩
    intro hlive
    apply hb
    simp [stepBatch, hlive]

theorem sampleStep_stop {model : LanguageModel} {sp : SpecialTokens} {dr : DecodeResult}
    {n : Nat} {s s1 : SampleState}
    (h : sampleStep model sp dr n s = StepOutcome.stop s1) :
    s1.outputs = stepOutputs model sp s ∧ s1.sequences = stepLive model sp s ∧
      stepLive model sp s = [] := by
  unfold sampleStep at h
  simp only at h
  split_ifs at h with hb
  · simp only [StepOutcome.stop.injEq] at h
    subst h
    refine ⟨rfl, rfl, ?_⟩
    simpa [stepBatch] using hb
  · split at h <;> simp at h

/-! ## The loop -/

theorem sampleIter_succ (model : LanguageModel) (sp : SpecialTokens) (dr : DecodeResult)
    (n : Nat) : ∀ (k : Nat) (s : SampleState),
      sampleIter model sp dr n (k + 1) s =
        match sampleIter model sp dr n k s with
        | none => none
        | some s1 =>
          match sampleStep model sp dr n s1 with
          | StepOutcome.proceed s2 => some s2
          | _ => none := by
  intro k
  induction k with
  | zero =>
    intro s
    simp only [sampleIter]
  | succ k ih =>
    intro s
    rw [sampleIter]
    cases hstep : sampleStep model sp dr n s with
    | proceed s1 =>
      simp only
      rw [ih s1]
      conv_rhs => rw [sampleIter, hstep]
    | stop s1 =>
      simp only
      conv_rhs => rw [sampleIter, hstep]
    | returnEmpty c =>
      simp only
      conv_rhs => rw [sampleIter, hstep]

theorem sampleStateAt_succ_some {model : LanguageModel} {sp : SpecialTokens}
    {ctx : List Event} {dr : DecodeResult} {n tok : Nat} {s1 : SampleState}
    (h : sampleStateAt model sp ctx dr n (tok + 1) = some s1) :
    ∃ s, sampleStateAt model sp ctx dr n tok = some s ∧
      sampleStep model sp dr n s = StepOutcome.proceed s1 := by
  unfold sampleStateAt at h ⊢
  rw [sampleIter_succ] at h
  cases hk : sampleIter model sp dr n tok (sampleInit model sp ctx dr n) with
  | none => rw [hk] at h; simp at h
  | some s =>
    rw [hk] at h
    simp only at h
    cases hstep : sampleStep model sp dr n s with
    | proceed s2 =>
      rw [hstep] at h
      simp only [Option.some.injEq] at h
      exact ⟨s, rfl, by rw [← h]; exact hstep⟩
    | stop s2 => rw [hstep] at h; simp at h
    | returnEmpty c => rw [hstep] at h; simp at h

theorem sampleStateAt_succ_of {model : LanguageModel} {sp : SpecialTokens}
    {ctx : List Event} {dr : DecodeResult} {n tok : Nat} {s s1 : SampleState}
    (h : sampleStateAt model sp ctx dr n tok = some s)
    (hstep : sampleStep model sp dr n s = StepOutcome.proceed s1) :
    sampleStateAt model sp ctx dr n (tok + 1) = some s1 := by
  unfold sampleStateAt at h ⊢
  rw [sampleIter_succ, h]
  simp only [hstep]

theorem sampleStateAt_none_after {model : LanguageModel} {sp : SpecialTokens}
    {ctx : List Event} {dr : DecodeResult} {n tok : Nat}
    (h : sampleStateAt model sp ctx dr n tok = none) :
    ∀ k, tok ≤ k → sampleStateAt model sp ctx dr n k = none := by
  intro k hk
  induction k with
  | zero =>
    have : tok = 0 := by omega
    rw [← this]; exact h
  | succ k ih =>
    rcases Nat.eq_or_lt_of_le hk with heq | hlt
    · rw [← heq]; exact h
    · have hprev := ih (by omega)
      unfold sampleStateAt at hprev ⊢
      rw [sampleIter_succ, hprev]

theorem sampleStateAt_none_of_stop {model : LanguageModel} {sp : SpecialTokens}
    {ctx : List Event} {dr : DecodeResult} {n tok : Nat} {s s1 : SampleState}
    (h : sampleStateAt model sp ctx dr n tok = some s)
    (hstep : sampleStep model sp dr n s = StepOutcome.stop s1) :
    ∀ k, tok < k → sampleStateAt model sp ctx dr n k = none := by
  intro k hk
  apply sampleStateAt_none_after _ k hk
  unfold sampleStateAt at h ⊢
  rw [sampleIter_succ, h]
  simp only [hstep]

theorem sampleLoop_finished (model : LanguageModel) (sp : SpecialTokens) (dr : DecodeResult)
    (n : Nat) : ∀ (f : Nat) (s s1 : SampleState),
      sampleLoop model sp dr n f s = LoopExit.finished s1 →
        sampleIter model sp dr n f s = some s1 ∨
          ∃ j, j < f ∧ ∃ sj, sampleIter model sp dr n j s = some sj ∧
            sampleStep model sp dr n sj = StepOutcome.stop s1 := by
  intro f
  induction f with
  | zero =>
    intro s s1 h
    simp only [sampleLoop, LoopExit.finished.injEq] at h
    left
    simp [sampleIter, h]
  | succ f ih =>
    intro s s1 h
    rw [sampleLoop] at h
    cases hstep : sampleStep model sp dr n s with
    | proceed s2 =>
      rw [hstep] at h
      simp only at h
      rcases ih s2 s1 h with h1 | ⟨j, hj, sj, hsj, hstop⟩
      · left
        rw [sampleIter, hstep]
        exact h1
      · right
        refine ⟨j + 1, by omega, sj, ?_, hstop⟩
        rw [sampleIter, hstep]
        exact hsj
    | stop s2 =>
      rw [hstep] at h
      simp only [LoopExit.finished.injEq] at h
      right
      refine ⟨0, by omega, s, by simp [sampleIter], ?_⟩
      rw [hstep, h]
    | returnEmpty c =>
      rw [hstep] at h
      simp at h

/-- The three ways in which `Sample` returns: empty from the collision loop, after the
tenth pass, or by `break` at the head of a pass that finds no live hypothesis. -/
theorem Sample_outputs (st : LanguageModelState) (model : LanguageModel) (dr : DecodeResult)
    (n : Nat) :
    (st.Sample model dr n).1 = [] ∨
      (∃ s, sampleStateAt model st.specialTokens st.ctx dr n 10 = some s ∧
        (st.Sample model dr n).1 = s.outputs) ∨
      (∃ j, j < 10 ∧ ∃ sj, sampleStateAt model st.specialTokens st.ctx dr n j = some sj ∧
        stepLive model st.specialTokens sj = [] ∧
        (st.Sample model dr n).1 = stepOutputs model st.specialTokens sj ∧
        ∀ k, j < k → sampleStateAt model st.specialTokens st.ctx dr n k = none) := by
  unfold LanguageModelState.Sample
  cases hloop : sampleLoop model st.specialTokens dr n 10
      (sampleInit model st.specialTokens st.ctx dr n) with
  | failed c => left; rfl
  | finished s1 =>
    right
    rcases sampleLoop_finished model st.specialTokens dr n 10 _ s1 hloop with
      h | ⟨j, hj, sj, hsj, hstop⟩
    · left
      exact ⟨s1, h, rfl⟩
    · right
      have hs := sampleStep_stop hstop
      refine ⟨j, hj, sj, hsj, hs.2.2, hs.1, ?_⟩
      exact sampleStateAt_none_of_stop hsj hstop

/-! ## Invariants of the loop -/

theorem sampleStateAt_zero (model : LanguageModel) (sp : SpecialTokens) (ctx : List Event)
    (dr : DecodeResult) (n : Nat) :
    sampleStateAt model sp ctx dr n 0 = some (sampleInit model sp ctx dr n) := rfl

theorem sampleStateAt_induction {model : LanguageModel} {sp : SpecialTokens}
    {ctx : List Event} {dr : DecodeResult} {n : Nat} (P : Nat → SampleState → Prop)
    (h0 : P 0 (sampleInit model sp ctx dr n))
    (hstep : ∀ k s s1, sampleStateAt model sp ctx dr n k = some s → P k s →
      sampleStep model sp dr n s = StepOutcome.proceed s1 → P (k + 1) s1) :
    ∀ tok s, sampleStateAt model sp ctx dr n tok = some s → P tok s := by
  intro tok
  induction tok with
  | zero =>
    intro s hs
    rw [sampleStateAt_zero] at hs
    simp only [Option.some.injEq] at hs
    rw [← hs]; exact h0
  | succ k ih =>
    intro s1 hs1
    obtain ⟨s, hs, hst⟩ := sampleStateAt_succ_some hs1
    exact hstep k s s1 hs (ih s hs) hst

theorem sampleInit_sequences_length (model : LanguageModel) (sp : SpecialTokens)
    (ctx : List Event) (dr : DecodeResult) (n : Nat) :
    (sampleInit model sp ctx dr n).sequences.length = n := by
  simp [sampleInit]

theorem sampleInit_outputs (model : LanguageModel) (sp : SpecialTokens)
    (ctx : List Event) (dr : DecodeResult) (n : Nat) :
    (sampleInit model sp ctx dr n).outputs = [] := rfl

theorem remaining_eq_live {model : LanguageModel} {sp : SpecialTokens} {n : Nat}
    {s : SampleState} (hlen : s.sequences.length + s.outputs.length = n) :
    n - (stepOutputs model sp s).length = (stepLive model sp s).length := by
  have h := stepLive_length model sp s
  omega

theorem stepNext_length (model : LanguageModel) (sp : SpecialTokens) (dr : DecodeResult)
    (n : Nat) (s : SampleState) (ctx1 : List Event) :
    (stepNext model sp dr n s ctx1).length = n - (stepOutputs model sp s).length := by
  unfold stepNext
  exact resize_length _ _ _

theorem stepNext_eq_take (model : LanguageModel) (sp : SpecialTokens) (dr : DecodeResult)
    (n : Nat) (s : SampleState) (ctx1 : List Event) :
    stepNext model sp dr n s ctx1 =
      (sortProbabilityPairVectorDescending
        (expandAll model sp (decide (dr.logits_head = 0)) (stepLive model sp s)
          (n - (stepOutputs model sp s).length) ctx1).1
        (n - (stepOutputs model sp s).length)).take (n - (stepOutputs model sp s).length) := by
  unfold stepNext
  apply resize_of_le
  rw [sortDescending_length, expandAll_length]
  exact Nat.le_mul_self _

theorem sampleStep_proceed_length {model : LanguageModel} {sp : SpecialTokens}
    {dr : DecodeResult} {n : Nat} {s s1 : SampleState}
    (hlen : s.sequences.length + s.outputs.length = n)
    (h : sampleStep model sp dr n s = StepOutcome.proceed s1) :
    s1.sequences.length + s1.outputs.length = n := by
  obtain ⟨hout, _, ctx1, hmap⟩ := sampleStep_proceed h
  have h1 : s1.sequences.length = (stepNext model sp dr n s ctx1).length := by
    have := congrArg List.length hmap
    simpa using this
  rw [h1, stepNext_length, hout]
  have h2 := stepLive_length model sp s
  omega

theorem sampleStateAt_length {model : LanguageModel} {sp : SpecialTokens}
    {ctx : List Event} {dr : DecodeResult} {n : Nat} :
    ∀ tok s, sampleStateAt model sp ctx dr n tok = some s →
      s.sequences.length + s.outputs.length = n := by
  apply sampleStateAt_induction (fun _ s => s.sequences.length + s.outputs.length = n)
  · rw [sampleInit_sequences_length, sampleInit_outputs]; rfl
  · intro k s s1 _ hP hst
    exact sampleStep_proceed_length hP hst

theorem getD_mem_of_lt {α : Type} (l : List α) (i : Nat) (d : α) (h : i < l.length) :
    l.getD i d ∈ l := by
  rw [List.getD_eq_getElem l d h]
  exact List.getElem_mem h

/-- Every entry of `next_sequences` is a child of a live parent: its tokens are the
parent's with one ranked token appended, and its probability is the ranked value times the
probability of the live hypothesis at the rank's index. -/
theorem stepNext_mem {model : LanguageModel} {sp : SpecialTokens} {dr : DecodeResult}
    {n : Nat} {s : SampleState} {ctx1 : List Event} {c : potential_sequence}
    (hlen : s.sequences.length + s.outputs.length = n)
    (hc : c ∈ stepNext model sp dr n s ctx1) :
    ∃ parent ∈ stepLive model sp s, ∃ ranked ∈ stepLive model sp s,
      ∃ (i : Nat) (seq : Nat) (ctx2 : List Event), i < (stepLive model sp s).length ∧
        c.1 = ((rankRow model sp ctx2 (seq : Int) true (decide (dr.logits_head = 0))
          (stepLive model sp s).length).getD i (0, 0)).1 * ranked.1 ∧
        c.2.tokens = parent.2.tokens ++
          [((rankRow model sp ctx2 (seq : Int) true (decide (dr.logits_head = 0))
            (stepLive model sp s).length).getD i (0, 0)).2] ∧
        c.2.seq_id = parent.2.seq_id := by
  rw [stepNext_eq_take] at hc
  have hc1 := (sortDescending_perm _ _).mem_iff.mp (List.mem_of_mem_take hc)
  obtain ⟨seq, hseq, i, hi, ctx2, hceq⟩ := expandAll_mem _ _ _ _ _ _ c hc1
  rw [remaining_eq_live hlen] at hseq hi hceq
  refine ⟨_, getD_mem_of_lt _ seq potential_sequence_zero hseq,
    _, getD_mem_of_lt _ i potential_sequence_zero hi, i, seq, ctx2, hi, ?_, ?_, ?_⟩
  · rw [hceq]; rfl
  · rw [hceq]; rfl
  · rw [hceq]; rfl

theorem sampleStep_proceed_mem {model : LanguageModel} {sp : SpecialTokens}
    {dr : DecodeResult} {n : Nat} {s s1 : SampleState} {q : potential_sequence}
    (hlen : s.sequences.length + s.outputs.length = n)
    (h : sampleStep model sp dr n s = StepOutcome.proceed s1) (hq : q ∈ s1.sequences) :
    ∃ parent ∈ stepLive model sp s, ∃ ranked ∈ stepLive model sp s,
      ∃ (i : Nat) (seq : Nat) (ctx2 : List Event), i < (stepLive model sp s).length ∧
        q.1 = ((rankRow model sp ctx2 (seq : Int) true (decide (dr.logits_head = 0))
          (stepLive model sp s).length).getD i (0, 0)).1 * ranked.1 ∧
        q.2.tokens = parent.2.tokens ++
          [((rankRow model sp ctx2 (seq : Int) true (decide (dr.logits_head = 0))
            (stepLive model sp s).length).getD i (0, 0)).2] := by
  obtain ⟨_, _, ctx1, hmap⟩ := sampleStep_proceed h
  have hq1 : (q.1, q.2.tokens) ∈ s1.sequences.map (fun q => (q.1, q.2.tokens)) :=
    List.mem_map.mpr ⟨q, hq, rfl⟩
  rw [hmap] at hq1
  obtain ⟨c, hc, hcq⟩ := List.mem_map.mp hq1
  obtain ⟨parent, hp, ranked, hr, i, seq, ctx2, hi, h1, h2, _⟩ := stepNext_mem hlen hc
  simp only [Prod.mk.injEq] at hcq
  exact ⟨parent, hp, ranked, hr, i, seq, ctx2, hi, by rw [← hcq.1, h1], by rw [← hcq.2, h2]⟩

theorem stepLive_subset (model : LanguageModel) (sp : SpecialTokens) (s : SampleState)
    (q : potential_sequence) (hq : q ∈ stepLive model sp s) :
    q ∈ s.sequences ∧ finished model sp q = none := by
  unfold stepLive at hq
  rw [List.mem_filter] at hq
  exact ⟨hq.1, by simpa using hq.2⟩

theorem stepOutputs_mem (model : LanguageModel) (sp : SpecialTokens) (s : SampleState)
    (o : ℚ × List Nat) (ho : o ∈ stepOutputs model sp s) :
    o ∈ s.outputs ∨ ∃ q ∈ s.sequences, finished model sp q = some o := by
  unfold stepOutputs at ho
  rcases List.mem_append.mp ho with h | h
  · exact Or.inl h
  · right
    obtain ⟨q, hq, hqo⟩ := List.mem_filterMap.mp h
    exact ⟨q, hq, hqo⟩

/-! ## Order of the live hypotheses and of the output -/

theorem finished_fst {model : LanguageModel} {sp : SpecialTokens} {q : potential_sequence}
    {o : ℚ × List Nat} (h : finished model sp q = some o) : o.1 = q.1 := by
  unfold finished at h
  simp only at h
  split_ifs at h <;> simp only [Option.some.injEq] at h <;> rw [← h]

theorem pairwise_fst_of_map {l l1 : List potential_sequence}
    (hmap : l.map (fun q => (q.1, q.2.tokens)) = l1.map (fun q => (q.1, q.2.tokens)))
    (h : l1.Pairwise (fun a b => b.1 ≤ a.1)) : l.Pairwise (fun a b => b.1 ≤ a.1) := by
  have h1 : (l1.map (fun q => (q.1, q.2.tokens))).Pairwise
      (fun a b : ℚ × List Nat => b.1 ≤ a.1) := List.pairwise_map.mpr h
  rw [← hmap] at h1
  exact List.pairwise_map.mp h1

theorem sampleInit_sorted (model : LanguageModel) (sp : SpecialTokens) (ctx : List Event)
    (dr : DecodeResult) (n : Nat) (hv : n ≤ model.n_vocab) :
    (sampleInit model sp ctx dr n).sequences.Pairwise (fun a b => b.1 ≤ a.1) := by
  simp only [sampleInit]
  rw [List.pairwise_map]
  have hsorted := sortDescending_pairwise
    ((List.range model.n_vocab).map (fun i =>
      (sp.transform_logits model.expf model.logf
        (model.llama_get_logits_ith ctx dr.logits_head) model.n_vocab false
        (decide (dr.logits_head = 0)) i, i))) n
  have hlen := sortDescending_length
    ((List.range model.n_vocab).map (fun i =>
      (sp.transform_logits model.expf model.logf
        (model.llama_get_logits_ith ctx dr.logits_head) model.n_vocab false
        (decide (dr.logits_head = 0)) i, i))) n
  rw [List.length_map, List.length_range] at hlen
  rw [List.pairwise_iff_getElem] at hsorted
  refine (List.Pairwise.and_mem.mp (List.pairwise_lt_range n)).imp ?_
  intro i j hij
  obtain ⟨hi, hj, hlt⟩ := hij
  rw [List.mem_range] at hi hj
  simp only [rankRow]
  rw [List.getD_eq_getElem _ _ (by omega), List.getD_eq_getElem _ _ (by omega)]
  exact hsorted i j (by omega) (by omega) hlt

theorem sampleStateAt_sorted {model : LanguageModel} {sp : SpecialTokens}
    {ctx : List Event} {dr : DecodeResult} {n : Nat} (hv : n ≤ model.n_vocab) :
    ∀ tok s, sampleStateAt model sp ctx dr n tok = some s →
      s.sequences.Pairwise (fun a b => b.1 ≤ a.1) := by
  apply sampleStateAt_induction (fun _ s => s.sequences.Pairwise (fun a b => b.1 ≤ a.1))
  · exact sampleInit_sorted model sp ctx dr n hv
  · intro k s s1 _ _ hst
    obtain ⟨_, _, ctx1, hmap⟩ := sampleStep_proceed hst
    apply pairwise_fst_of_map hmap
    rw [stepNext_eq_take]
    exact (sortDescending_pairwise _ _).take

theorem emittedAt_of_some {model : LanguageModel} {sp : SpecialTokens}
    {ctx : List Event} {dr : DecodeResult} {n tok : Nat} {s : SampleState}
    (h : sampleStateAt model sp ctx dr n tok = some s) :
    emittedAt model sp ctx dr n tok = s.sequences.filterMap (finished model sp) := by
  unfold emittedAt
  rw [h]

theorem emittedAt_of_none {model : LanguageModel} {sp : SpecialTokens}
    {ctx : List Event} {dr : DecodeResult} {n tok : Nat}
    (h : sampleStateAt model sp ctx dr n tok = none) :
    emittedAt model sp ctx dr n tok = [] := by
  unfold emittedAt
  rw [h]

theorem emittedAt_sorted {model : LanguageModel} {sp : SpecialTokens}
    {ctx : List Event} {dr : DecodeResult} {n : Nat} (hv : n ≤ model.n_vocab) (tok : Nat) :
    (emittedAt model sp ctx dr n tok).Pairwise (fun a b => b.1 ≤ a.1) := by
  cases hs : sampleStateAt model sp ctx dr n tok with
  | none => rw [emittedAt_of_none hs]; exact List.Pairwise.nil
  | some s =>
    rw [emittedAt_of_some hs]
    refine (sampleStateAt_sorted hv tok s hs).filterMap (finished model sp) ?_
    intro a a1 haa b hb b1 hb1
    rw [finished_fst (Option.mem_def.mp hb), finished_fst (Option.mem_def.mp hb1)]
    exact haa

theorem sampleStateAt_outputs {model : LanguageModel} {sp : SpecialTokens}
    {ctx : List Event} {dr : DecodeResult} {n : Nat} :
    ∀ tok s, sampleStateAt model sp ctx dr n tok = some s →
      s.outputs = ((List.range tok).map (emittedAt model sp ctx dr n)).flatten := by
  apply sampleStateAt_induction
    (fun tok s => s.outputs = ((List.range tok).map (emittedAt model sp ctx dr n)).flatten)
  · rfl
  · intro k s s1 hs hP hst
    obtain ⟨hout, _, _⟩ := sampleStep_proceed hst
    rw [hout, List.range_succ, List.map_append, List.flatten_append, ← hP,
      List.map_singleton, List.flatten_singleton, emittedAt_of_some hs]
    rfl

theorem flatten_range_of_empty_tail {α : Type} (e : Nat → List α) (j : Nat)
    (h : ∀ k, j ≤ k → e k = []) :
    ∀ m, j ≤ m → ((List.range m).map e).flatten = ((List.range j).map e).flatten := by
  intro m hm
  induction m with
  | zero =>
    have : j = 0 := by omega
    rw [this]
  | succ m ih =>
    rcases Nat.eq_or_lt_of_le hm with heq | hlt
    · rw [heq]
    · rw [List.range_succ, List.map_append, List.flatten_append, ih (by omega),
        List.map_singleton, List.flatten_singleton, h m (by omega), List.append_nil]

theorem Sample_outputs_eq_flatten (st : LanguageModelState) (model : LanguageModel)
    (dr : DecodeResult) (n : Nat) :
    (st.Sample model dr n).1 = [] ∨
      (st.Sample model dr n).1 =
        ((List.range 10).map (emittedAt model st.specialTokens st.ctx dr n)).flatten := by
  rcases Sample_outputs st model dr n with h | ⟨s, hs, hout⟩ | ⟨j, hj, sj, hsj, _, hout, hnone⟩
  · exact Or.inl h
  · right
    rw [hout]
    exact sampleStateAt_outputs 10 s hs
  · right
    rw [hout]
    rw [flatten_range_of_empty_tail _ (j + 1)
      (fun k hk => emittedAt_of_none (hnone k (by omega))) 10 (by omega)]
    rw [List.range_succ, List.map_append, List.flatten_append,
      ← sampleStateAt_outputs j sj hsj, List.map_singleton, List.flatten_singleton,
      emittedAt_of_some hsj]
    rfl

/-! ## The logit transform -/

theorem transform_letters_apply (L : List Nat) :
    ∀ (l : Nat → ℚ) (t : Nat),
      transform_letters L l t = if t ∈ L then MASKED else l t := by
  induction L with
  | nil => intro l t; simp [transform_letters]
  | cons x L ih =>
    intro l t
    rw [transform_letters, ih]
    by_cases htL : t ∈ L
    · simp [htL]
    · by_cases htx : t = x
      · subst htx
        simp [htL]
      · simp [htL, htx, Function.update_noteq htx]

theorem transform_bad_tokens_apply (SPACE : Nat) (B : List Nat) :
    ∀ (l : Nat → ℚ) (t : Nat), t ≠ SPACE →
      transform_bad_tokens SPACE B l t = if t ∈ B then MASKED else l t := by
  induction B with
  | nil => intro l t _; simp [transform_bad_tokens]
  | cons x B ih =>
    intro l t ht
    rw [transform_bad_tokens]
    rw [ih _ t ht]
    by_cases htB : t ∈ B
    · simp [htB]
    · by_cases htx : t = x
      · subst htx
        simp [htB]
      · simp [htB, htx, Function.update_noteq htx, Function.update_noteq ht]

theorem max_zero_MASKED : max (0 : ℚ) MASKED = 0 := by
  unfold MASKED
  norm_num

theorem transform_bad_tokens_space (SPACE : Nat) (B : List Nat) :
    ∀ (l : Nat → ℚ), SPACE ∉ B →
      transform_bad_tokens SPACE B l SPACE = l SPACE + ∑ t in B.toFinset, max 0 (l t) := by
  induction B with
  | nil => intro l _; simp [transform_bad_tokens]
  | cons x B ih =>
    intro l hS
    have hxS : SPACE ≠ x := fun h => hS (h ▸ List.mem_cons_self _ _)
    have hSB : SPACE ∉ B := fun h => hS (List.mem_cons_of_mem _ h)
    rw [transform_bad_tokens]
    rw [ih _ hSB, Function.update_noteq hxS, Function.update_same]
    have hsum : ∑ t in B.toFinset,
        max 0 (Function.update (Function.update l SPACE (l SPACE + max 0 (l x))) x MASKED t) =
        ∑ t in B.toFinset.erase x, max 0 (l t) := by
      rw [← Finset.sum_erase B.toFinset
        (show max 0 (Function.update (Function.update l SPACE (l SPACE + max 0 (l x))) x MASKED x)
          = 0 by rw [Function.update_same]; exact max_zero_MASKED)]
      apply Finset.sum_congr rfl
      intro t ht
      have htx : t ≠ x := Finset.ne_of_mem_erase ht
      have htS : t ≠ SPACE := by
        intro h
        apply hSB
        rw [← h]
        exact List.mem_toFinset.mp (Finset.mem_of_mem_erase ht)
      rw [Function.update_noteq htx, Function.update_noteq htS]
    have hins : insert x B.toFinset = insert x (B.toFinset.erase x) := by
      ext t
      by_cases h : t = x <;> simp [h]
    rw [hsum, List.toFinset_cons, hins,
      Finset.sum_insert (Finset.not_mem_erase x B.toFinset)]
    ring

theorem controlMasked_false_iff (sp : SpecialTokens) (c : Bool) (t : Nat) :
    sp.controlMasked c t = false ↔
      t ≠ sp.XBU ∧ t ≠ sp.XBC ∧ (c = false → t ≠ sp.XEC) ∧ t ∉ sp.LETTERS_TO_IDS := by
  unfold SpecialTokens.controlMasked
  cases c <;> simp [and_assoc]

/-- The buffer of `transform_logits` when the loop over the banned tokens starts. -/
theorem transform_logits_eq (sp : SpecialTokens) (expf logf : ℚ → ℚ) (logits : Nat → ℚ)
    (n_vocab : Nat) (a c : Bool) :
    ∃ l4 : Nat → ℚ,
      (∀ t, l4 t = if sp.controlMasked c t = true then MASKED
        else softmax expf logf logits n_vocab t) ∧
      sp.transform_logits expf logf logits n_vocab a c =
        if a = true then transform_bad_tokens sp.SPACE sp.SAMPLING_BAD_TOKENS l4
        else Function.update (transform_bad_tokens sp.SPACE sp.SAMPLING_BAD_TOKENS l4)
          sp.SPACE MASKED := by
  refine ⟨transform_letters sp.LETTERS_TO_IDS
    (if (!c) = true then
      Function.update (Function.update (Function.update (softmax expf logf logits n_vocab)
        sp.XBU MASKED) sp.XBC MASKED) sp.XEC MASKED
     else Function.update (Function.update (softmax expf logf logits n_vocab)
        sp.XBU MASKED) sp.XBC MASKED), ?_, ?_⟩
  · intro t
    rw [transform_letters_apply]
    cases c
    all_goals simp only [SpecialTokens.controlMasked, Bool.not_false, Bool.not_true, if_true,
      Bool.false_eq_true, if_false, Function.update_apply]
    all_goals split_ifs <;> simp_all
  · unfold SpecialTokens.transform_logits
    cases a <;> simp

theorem transform_logits_masked (sp : SpecialTokens) (expf logf : ℚ → ℚ) (logits : Nat → ℚ)
    (n_vocab : Nat) (a c : Bool) (t : Nat)
    (hmask : t ∈ sp.SAMPLING_BAD_TOKENS ∨ sp.controlMasked c t = true)
    (hspace : t ≠ sp.SPACE) :
    sp.transform_logits expf logf logits n_vocab a c t = MASKED := by
  obtain ⟨l4, hl4, heq⟩ := transform_logits_eq sp expf logf logits n_vocab a c
  have hbad : transform_bad_tokens sp.SPACE sp.SAMPLING_BAD_TOKENS l4 t = MASKED := by
    rw [transform_bad_tokens_apply _ _ _ _ hspace]
    by_cases hB : t ∈ sp.SAMPLING_BAD_TOKENS
    · rw [if_pos hB]
    · rw [if_neg hB, hl4]
      rcases hmask with h | h
      · exact absurd h hB
      · rw [if_pos h]
  rw [heq]
  cases a
  · simp only [Bool.false_eq_true, if_false]
    rw [Function.update_noteq hspace, hbad]
  · simp only [if_true]
    exact hbad

theorem transform_logits_unmasked (sp : SpecialTokens) (expf logf : ℚ → ℚ)
    (logits : Nat → ℚ) (n_vocab : Nat) (a c : Bool) (t : Nat)
    (hB : t ∉ sp.SAMPLING_BAD_TOKENS) (hc : sp.controlMasked c t = false)
    (hspace : t ≠ sp.SPACE) :
    sp.transform_logits expf logf logits n_vocab a c t = softmax expf logf logits n_vocab t := by
  obtain ⟨l4, hl4, heq⟩ := transform_logits_eq sp expf logf logits n_vocab a c
  have hbad : transform_bad_tokens sp.SPACE sp.SAMPLING_BAD_TOKENS l4 t =
      softmax expf logf logits n_vocab t := by
    rw [transform_bad_tokens_apply _ _ _ _ hspace, if_neg hB, hl4, hc]
    simp
  rw [heq]
  cases a
  · simp only [Bool.false_eq_true, if_false]
    rw [Function.update_noteq hspace, hbad]
  · simp only [if_true]
    exact hbad

theorem transform_logits_space_sum (sp : SpecialTokens) (expf logf : ℚ → ℚ)
    (logits : Nat → ℚ) (n_vocab : Nat) (c : Bool)
    (hnn : ∀ i, i < n_vocab → 0 ≤ softmax expf logf logits n_vocab i)
    (hB : ∀ t ∈ sp.SAMPLING_BAD_TOKENS, t < n_vocab)
    (hS : sp.SPACE ∉ sp.SAMPLING_BAD_TOKENS) (hc : sp.controlMasked c sp.SPACE = false) :
    sp.transform_logits expf logf logits n_vocab true c sp.SPACE =
      softmax expf logf logits n_vocab sp.SPACE +
        ∑ t in sp.SAMPLING_BAD_TOKENS.toFinset.filter (fun t => sp.controlMasked c t = false),
          softmax expf logf logits n_vocab t := by
  obtain ⟨l4, hl4, heq⟩ := transform_logits_eq sp expf logf logits n_vocab true c
  rw [heq]
  simp only [if_true]
  rw [transform_bad_tokens_space _ _ _ hS, hl4, hc, Finset.sum_filter]
  simp only [Bool.false_eq_true, if_false]
  congr 1
  apply Finset.sum_congr rfl
  intro t ht
  rw [hl4]
  by_cases hct : sp.controlMasked c t = true
  · rw [if_pos hct, max_zero_MASKED, if_neg (by simp [hct])]
  · rw [if_neg hct, if_pos (by simpa using hct)]
    exact max_eq_right (hnn t (hB t (List.mem_toFinset.mp ht)))

/-! ## Mass of the transformed buffer -/

theorem bufferMass_update_masked (n : Nat) (l : Nat → ℚ) (x : Nat) :
    bufferMass n (Function.update l x MASKED) ≤ bufferMass n l := by
  unfold bufferMass
  apply Finset.sum_le_sum
  intro i _
  by_cases hix : i = x
  · rw [hix, Function.update_same, max_zero_MASKED]
    exact le_max_left _ _
  · rw [Function.update_noteq hix]

theorem bufferMass_move (n : Nat) (l : Nat → ℚ) (S x : Nat) (hx : x < n) :
    bufferMass n (Function.update (Function.update l S (l S + max 0 (l x))) x MASKED) ≤
      bufferMass n l := by
  by_cases hxS : x = S
  · rw [hxS, Function.update_idem]
    exact bufferMass_update_masked n l S
  · by_cases hS : S < n
    · unfold bufferMass
      have hxm : x ∈ Finset.range n := Finset.mem_range.mpr hx
      have hSm : S ∈ (Finset.range n).erase x :=
        Finset.mem_erase.mpr ⟨fun h => hxS h.symm, Finset.mem_range.mpr hS⟩
      rw [← Finset.add_sum_erase _ _ hxm, ← Finset.add_sum_erase _ _ hSm,
        ← Finset.add_sum_erase (Finset.range n) (fun i => max 0 (l i)) hxm,
        ← Finset.add_sum_erase ((Finset.range n).erase x) (fun i => max 0 (l i)) hSm]
      have hrest : ∑ i in ((Finset.range n).erase x).erase S,
          max 0 (Function.update (Function.update l S (l S + max 0 (l x))) x MASKED i) =
          ∑ i in ((Finset.range n).erase x).erase S, max 0 (l i) := by
        apply Finset.sum_congr rfl
        intro i hi
        have hiS : i ≠ S := Finset.ne_of_mem_erase hi
        have hix : i ≠ x := Finset.ne_of_mem_erase (Finset.mem_of_mem_erase hi)
        rw [Function.update_noteq hix, Function.update_noteq hiS]
      rw [hrest, Function.update_same, max_zero_MASKED,
        Function.update_noteq (fun h => hxS h.symm), Function.update_same]
      have h1 : max 0 (l S + max 0 (l x)) ≤ max 0 (l S) + max 0 (l x) := by
        apply max_le
        · exact add_nonneg (le_max_left _ _) (le_max_left _ _)
        · exact add_le_add_right (le_max_right _ _) _
      linarith
    · have heq : bufferMass n
          (Function.update (Function.update l S (l S + max 0 (l x))) x MASKED) =
          bufferMass n (Function.update l x MASKED) := by
        unfold bufferMass
        apply Finset.sum_congr rfl
        intro i hi
        have hiS : i ≠ S := fun h => hS (h ▸ Finset.mem_range.mp hi)
        by_cases hix : i = x
        · rw [hix, Function.update_same, Function.update_same]
        · rw [Function.update_noteq hix, Function.update_noteq hix,
            Function.update_noteq hiS]
      rw [heq]
      exact bufferMass_update_masked n l x

theorem bufferMass_bad_tokens (n S : Nat) (B : List Nat) :
    ∀ (l : Nat → ℚ), (∀ x ∈ B, x < n) →
      bufferMass n (transform_bad_tokens S B l) ≤ bufferMass n l := by
  induction B with
  | nil => intro l _; exact le_refl _
  | cons x B ih =>
    intro l hB
    rw [transform_bad_tokens]
    exact le_trans (ih _ (fun y hy => hB y (List.mem_cons_of_mem _ hy)))
      (bufferMass_move n l S x (hB x (List.mem_cons_self _ _)))

theorem bufferMass_letters (n : Nat) (L : List Nat) :
    ∀ (l : Nat → ℚ), bufferMass n (transform_letters L l) ≤ bufferMass n l := by
  induction L with
  | nil => intro l; exact le_refl _
  | cons x L ih =>
    intro l
    rw [transform_letters]
    exact le_trans (ih _) (bufferMass_update_masked n l x)

theorem bufferMass_transform_logits (sp : SpecialTokens) (expf logf : ℚ → ℚ)
    (logits : Nat → ℚ) (n_vocab : Nat) (a c : Bool)
    (hB : ∀ t ∈ sp.SAMPLING_BAD_TOKENS, t < n_vocab) :
    bufferMass n_vocab (sp.transform_logits expf logf logits n_vocab a c) ≤
      bufferMass n_vocab (softmax expf logf logits n_vocab) := by
  have h12 : bufferMass n_vocab (Function.update (Function.update
      (softmax expf logf logits n_vocab) sp.XBU MASKED) sp.XBC MASKED) ≤
      bufferMass n_vocab (softmax expf logf logits n_vocab) :=
    le_trans (bufferMass_update_masked _ _ _) (bufferMass_update_masked _ _ _)
  have hbl : ∀ l : Nat → ℚ, bufferMass n_vocab
      (transform_bad_tokens sp.SPACE sp.SAMPLING_BAD_TOKENS
        (transform_letters sp.LETTERS_TO_IDS l)) ≤ bufferMass n_vocab l := fun l =>
    le_trans (bufferMass_bad_tokens n_vocab sp.SPACE sp.SAMPLING_BAD_TOKENS _ hB)
      (bufferMass_letters n_vocab sp.LETTERS_TO_IDS l)
  unfold SpecialTokens.transform_logits
  cases c <;> cases a <;>
    simp only [Bool.not_true, Bool.not_false, if_true, Bool.false_eq_true, if_false]
  · exact le_trans (bufferMass_update_masked _ _ _)
      (le_trans (hbl _) (le_trans (bufferMass_update_masked _ _ _) h12))
  · exact le_trans (hbl _) (le_trans (bufferMass_update_masked _ _ _) h12)
  · exact le_trans (bufferMass_update_masked _ _ _) (le_trans (hbl _) h12)
  · exact le_trans (hbl _) h12

theorem bufferMass_of_distribution {n : Nat} {p : Nat → ℚ} (h : IsDistribution n p) :
    bufferMass n p = 1 := by
  unfold bufferMass
  rw [← h.2]
  apply Finset.sum_congr rfl
  intro i hi
  exact max_eq_right (h.1 i (Finset.mem_range.mp hi))

theorem le_bufferMass (n : Nat) (l : Nat → ℚ) (t : Nat) (ht : t < n) :
    l t ≤ bufferMass n l := by
  unfold bufferMass
  have h1 : max 0 (l t) ≤ ∑ i in Finset.range n, max 0 (l i) :=
    @Finset.single_le_sum _ _ _ (fun i => max 0 (l i)) _ (fun i _ => le_max_left _ _) _
      (Finset.mem_range.mpr ht)
  exact le_trans (le_max_right _ _) h1

/-- With an exact softmax and banned ids inside the vocabulary, no entry of the transformed
row exceeds one. -/
theorem transform_logits_le_one (sp : SpecialTokens) (expf logf : ℚ → ℚ)
    (logits : Nat → ℚ) (n_vocab : Nat) (a c : Bool)
    (hdist : IsDistribution n_vocab (softmax expf logf logits n_vocab))
    (hB : ∀ t ∈ sp.SAMPLING_BAD_TOKENS, t < n_vocab) (t : Nat) (ht : t < n_vocab) :
    sp.transform_logits expf logf logits n_vocab a c t ≤ 1 := by
  rw [← bufferMass_of_distribution hdist]
  exact le_trans (le_bufferMass n_vocab _ t ht)
    (bufferMass_transform_logits sp expf logf logits n_vocab a c hB)

theorem masked_false_iff (sp : SpecialTokens) (a c : Bool) (t : Nat) :
    sp.masked a c t = false ↔
      sp.controlMasked c t = false ∧ t ∉ sp.SAMPLING_BAD_TOKENS ∧
        (a = false → t ≠ sp.SPACE) := by
  unfold SpecialTokens.masked
  cases a <;> simp [and_assoc]

/-- With an exact softmax and banned ids inside the vocabulary, every unmasked entry of the
transformed row is non-negative. -/
theorem transform_logits_nonneg (sp : SpecialTokens) (expf logf : ℚ → ℚ)
    (logits : Nat → ℚ) (n_vocab : Nat) (a c : Bool)
    (hdist : IsDistribution n_vocab (softmax expf logf logits n_vocab))
    (hB : ∀ t ∈ sp.SAMPLING_BAD_TOKENS, t < n_vocab) (t : Nat) (ht : t < n_vocab)
    (hun : sp.masked a c t = false) :
    0 ≤ sp.transform_logits expf logf logits n_vocab a c t := by
  obtain ⟨hc, htB, hsp⟩ := (masked_false_iff sp a c t).mp hun
  by_cases hts : t = sp.SPACE
  · have ha : a = true := by
      cases a
      · exact absurd hts (hsp rfl)
      · rfl
    subst ha
    rw [hts] at hc htB ht ⊢
    rw [transform_logits_space_sum sp expf logf logits n_vocab c hdist.1 hB htB hc]
    apply add_nonneg (hdist.1 _ ht)
    apply Finset.sum_nonneg
    intro i hi
    exact hdist.1 i (hB i (List.mem_toFinset.mp (Finset.mem_filter.mp hi).1))
  · rw [transform_logits_unmasked sp expf logf logits n_vocab a c t htB hc hts]
    exact hdist.1 t ht

/-! ## The leading entries of a ranking -/

theorem sorted_top_nonneg {T : Type} (l : List (ℚ × T))
    (hs : l.Pairwise (fun a b => b.1 ≤ a.1)) (k : Nat)
    (hk : k ≤ l.countP (fun e => decide (0 ≤ e.1))) (i : Nat) (hi : i < k)
    (hil : i < l.length) : 0 ≤ l[i].1 := by
  by_contra hneg
  have hneg1 : l[i].1 < 0 := not_le.mp hneg
  have hdrop : (l.drop i).Pairwise (fun a b => b.1 ≤ a.1) :=
    hs.sublist (List.drop_sublist i l)
  rw [List.drop_eq_getElem_cons hil, List.pairwise_cons] at hdrop
  have hzero : (l.drop i).countP (fun e => decide (0 ≤ e.1)) = 0 := by
    rw [List.countP_eq_zero]
    intro e he
    rw [List.drop_eq_getElem_cons hil] at he
    rcases List.mem_cons.mp he with h | h
    · rw [h]; simpa using hneg1
    · have := hdrop.1 e h
      simp only [decide_eq_true_eq, not_le]
      exact lt_of_le_of_lt this hneg1
  have hsplit : l.countP (fun e => decide (0 ≤ e.1)) =
      (l.take i).countP (fun e => decide (0 ≤ e.1)) +
        (l.drop i).countP (fun e => decide (0 ≤ e.1)) := by
    rw [← List.countP_append, List.take_append_drop]
  have htake : (l.take i).countP (fun e => decide (0 ≤ e.1)) ≤ i :=
    le_trans (List.countP_le_length _) (by rw [List.length_take]; omega)
  omega

theorem rankRow_length (model : LanguageModel) (sp : SpecialTokens) (ctx : List Event)
    (row : Int) (a c : Bool) (m : Nat) :
    (rankRow model sp ctx row a c m).length = model.n_vocab := by
  simp [rankRow, sortDescending_length]

theorem rankRow_pairwise (model : LanguageModel) (sp : SpecialTokens) (ctx : List Event)
    (row : Int) (a c : Bool) (m : Nat) :
    (rankRow model sp ctx row a c m).Pairwise (fun x y => y.1 ≤ x.1) := by
  unfold rankRow
  exact sortDescending_pairwise _ _

theorem rankRow_mem (model : LanguageModel) (sp : SpecialTokens) (ctx : List Event)
    (row : Int) (a c : Bool) (m : Nat) (e : ℚ × Nat)
    (he : e ∈ rankRow model sp ctx row a c m) :
    e.2 < model.n_vocab ∧
      e.1 = sp.transform_logits model.expf model.logf (model.llama_get_logits_ith ctx row)
        model.n_vocab a c e.2 := by
  simp only [rankRow] at he
  have h := (sortDescending_perm _ _).mem_iff.mp he
  obtain ⟨i, hi, hie⟩ := List.mem_map.mp h
  rw [← hie]
  exact ⟨List.mem_range.mp hi, rfl⟩

/-- With an exact softmax, banned ids inside the vocabulary and at least `k` unmasked ids,
the `k` leading entries of a ranking are probabilities. -/
theorem rankRow_top (model : LanguageModel) (sp : SpecialTokens) (ctx : List Event)
    (row : Int) (a c : Bool) (m k : Nat)
    (hdist : IsDistribution model.n_vocab
      (softmax model.expf model.logf (model.llama_get_logits_ith ctx row) model.n_vocab))
    (hB : ∀ t ∈ sp.SAMPLING_BAD_TOKENS, t < model.n_vocab)
    (hk : k ≤ sp.unmaskedCount model.n_vocab a c) (i : Nat) (hi : i < k) :
    0 ≤ ((rankRow model sp ctx row a c m).getD i (0, 0)).1 ∧
      ((rankRow model sp ctx row a c m).getD i (0, 0)).1 ≤ 1 := by
  have hcount : sp.unmaskedCount model.n_vocab a c ≤
      (rankRow model sp ctx row a c m).countP (fun e => decide (0 ≤ e.1)) := by
    unfold SpecialTokens.unmaskedCount
    rw [← List.countP_eq_length_filter]
    simp only [rankRow]
    rw [(sortDescending_perm _ _).countP_eq, List.countP_map]
    apply List.countP_mono_left
    intro t ht hun
    simp only [Function.comp_apply, decide_eq_true_eq]
    apply transform_logits_nonneg sp _ _ _ _ a c hdist hB t (List.mem_range.mp ht)
    simpa using hun
  have hlen : i < (rankRow model sp ctx row a c m).length :=
    lt_of_lt_of_le hi (le_trans hk (le_trans hcount (List.countP_le_length _)))
  rw [List.getD_eq_getElem _ _ hlen]
  refine ⟨sorted_top_nonneg _ (rankRow_pairwise model sp ctx row a c m) k
    (le_trans hk hcount) i hi hlen, ?_⟩
  obtain ⟨h1, h2⟩ := rankRow_mem model sp ctx row a c m _ (List.getElem_mem hlen)
  rw [h2]
  exact transform_logits_le_one sp _ _ _ _ a c hdist hB _ h1

/-! ## Probabilities of the hypotheses -/

theorem unit_mul_unit {a b : ℚ} (ha : 0 ≤ a ∧ a ≤ 1) (hb : 0 ≤ b ∧ b ≤ 1) :
    0 ≤ a * b ∧ a * b ≤ 1 := by
  refine ⟨mul_nonneg ha.1 hb.1, ?_⟩
  calc a * b ≤ 1 * 1 := mul_le_mul ha.2 hb.2 hb.1 (by norm_num)
    _ = 1 := by norm_num

theorem sampleInit_unit (model : LanguageModel) (sp : SpecialTokens) (ctx : List Event)
    (dr : DecodeResult) (n : Nat)
    (hsoft : ∀ tr row, IsDistribution model.n_vocab
      (softmax model.expf model.logf (model.llama_get_logits_ith tr row) model.n_vocab))
    (hB : ∀ t ∈ sp.SAMPLING_BAD_TOKENS, t < model.n_vocab)
    (hun : ∀ a, n ≤ sp.unmaskedCount model.n_vocab a (decide (dr.logits_head = 0))) :
    ∀ q ∈ (sampleInit model sp ctx dr n).sequences, 0 ≤ q.1 ∧ q.1 ≤ 1 := by
  intro q hq
  simp only [sampleInit] at hq
  obtain ⟨i, hi, hiq⟩ := List.mem_map.mp hq
  rw [← hiq]
  exact rankRow_top model sp ctx dr.logits_head false _ n n (hsoft _ _) hB (hun false) i
    (List.mem_range.mp hi)

theorem expandAll_unit {model : LanguageModel} {sp : SpecialTokens} {dr : DecodeResult}
    {n : Nat} {s : SampleState}
    (hsoft : ∀ tr row, IsDistribution model.n_vocab
      (softmax model.expf model.logf (model.llama_get_logits_ith tr row) model.n_vocab))
    (hB : ∀ t ∈ sp.SAMPLING_BAD_TOKENS, t < model.n_vocab)
    (hun : ∀ a, n ≤ sp.unmaskedCount model.n_vocab a (decide (dr.logits_head = 0)))
    (hlen : s.sequences.length + s.outputs.length = n)
    (hseq : ∀ q ∈ s.sequences, 0 ≤ q.1 ∧ q.1 ≤ 1) (ctx1 : List Event) :
    ∀ c ∈ (expandAll model sp (decide (dr.logits_head = 0)) (stepLive model sp s)
      (n - (stepOutputs model sp s).length) ctx1).1, 0 ≤ c.1 ∧ c.1 ≤ 1 := by
  intro c hc
  obtain ⟨seq, _, i, hi, ctx2, hceq⟩ := expandAll_mem _ _ _ _ _ _ c hc
  have hrc := @remaining_eq_live model sp n s hlen
  have hle : n - (stepOutputs model sp s).length ≤ n := Nat.sub_le _ _
  rw [hceq]
  simp only [child]
  apply unit_mul_unit
  · exact rankRow_top model sp ctx2 seq true _ _ _ (hsoft _ _) hB
      (le_trans hle (hun true)) i hi
  · rw [hrc] at hi
    exact hseq _ (stepLive_subset model sp s _
      (getD_mem_of_lt _ i potential_sequence_zero hi)).1

theorem sampleStateAt_unit {model : LanguageModel} {sp : SpecialTokens}
    {ctx : List Event} {dr : DecodeResult} {n : Nat}
    (hsoft : ∀ tr row, IsDistribution model.n_vocab
      (softmax model.expf model.logf (model.llama_get_logits_ith tr row) model.n_vocab))
    (hB : ∀ t ∈ sp.SAMPLING_BAD_TOKENS, t < model.n_vocab)
    (hun : ∀ a, n ≤ sp.unmaskedCount model.n_vocab a (decide (dr.logits_head = 0))) :
    ∀ tok s, sampleStateAt model sp ctx dr n tok = some s →
      (∀ q ∈ s.sequences, 0 ≤ q.1 ∧ q.1 ≤ 1) ∧ (∀ o ∈ s.outputs, 0 ≤ o.1 ∧ o.1 ≤ 1) := by
  apply sampleStateAt_induction (fun _ s =>
    (∀ q ∈ s.sequences, 0 ≤ q.1 ∧ q.1 ≤ 1) ∧ (∀ o ∈ s.outputs, 0 ≤ o.1 ∧ o.1 ≤ 1))
  · refine ⟨sampleInit_unit model sp ctx dr n hsoft hB hun, ?_⟩
    intro o ho
    rw [sampleInit_outputs] at ho
    simp at ho
  · intro k s s1 hs hP hst
    have hlen := sampleStateAt_length k s hs
    obtain ⟨hout, _, ctx1, hmap⟩ := sampleStep_proceed hst
    constructor
    · intro q hq
      have hq1 : (q.1, q.2.tokens) ∈ s1.sequences.map (fun q => (q.1, q.2.tokens)) :=
        List.mem_map.mpr ⟨q, hq, rfl⟩
      rw [hmap, stepNext_eq_take] at hq1
      obtain ⟨c, hc, hcq⟩ := List.mem_map.mp hq1
      have hc1 := (sortDescending_perm _ _).mem_iff.mp (List.mem_of_mem_take hc)
      have := expandAll_unit hsoft hB hun hlen hP.1 ctx1 c hc1
      simp only [Prod.mk.injEq] at hcq
      rw [← hcq.1]
      exact this
    · intro o ho
      rw [hout] at ho
      rcases stepOutputs_mem model sp s o ho with h | ⟨q, hq, hqo⟩
      · exact hP.2 o h
      · rw [finished_fst hqo]
        exact hP.1 q hq

theorem stepOutputs_unit {model : LanguageModel} {sp : SpecialTokens} {s : SampleState}
    (hseq : ∀ q ∈ s.sequences, 0 ≤ q.1 ∧ q.1 ≤ 1)
    (hout : ∀ o ∈ s.outputs, 0 ≤ o.1 ∧ o.1 ≤ 1) :
    ∀ o ∈ stepOutputs model sp s, 0 ≤ o.1 ∧ o.1 ≤ 1 := by
  intro o ho
  rcases stepOutputs_mem model sp s o ho with h | ⟨q, hq, hqo⟩
  · exact hout o h
  · rw [finished_fst hqo]
    exact hseq q hq

theorem Sample_unit (st : LanguageModelState) (model : LanguageModel) (dr : DecodeResult)
    (n : Nat)
    (hsoft : ∀ tr row, IsDistribution model.n_vocab
      (softmax model.expf model.logf (model.llama_get_logits_ith tr row) model.n_vocab))
    (hB : ∀ t ∈ st.specialTokens.SAMPLING_BAD_TOKENS, t < model.n_vocab)
    (hun : ∀ a, n ≤ st.specialTokens.unmaskedCount model.n_vocab a
      (decide (dr.logits_head = 0))) :
    ∀ o ∈ (st.Sample model dr n).1, 0 ≤ o.1 ∧ o.1 ≤ 1 := by
  intro o ho
  rcases Sample_outputs st model dr n with h | ⟨s, hs, hout⟩ | ⟨j, _, sj, hsj, _, hout, _⟩
  · rw [h] at ho
    simp at ho
  · rw [hout] at ho
    exact (sampleStateAt_unit hsoft hB hun 10 s hs).2 o ho
  · rw [hout] at ho
    have h := sampleStateAt_unit hsoft hB hun j sj hsj
    exact stepOutputs_unit h.1 h.2 o ho

/-! ## Tokens of the hypotheses -/

theorem getD_concat_last (body : List Nat) (last d : Nat) :
    (body ++ [last]).getD ((body ++ [last]).length - 1) d = last := by
  simp [List.getD_eq_getElem?_getD]

theorem take_concat_last (body : List Nat) (last : Nat) :
    (body ++ [last]).take ((body ++ [last]).length - 1) = body := by
  simp

theorem finished_some {model : LanguageModel} {sp : SpecialTokens} {q : potential_sequence}
    {o : ℚ × List Nat} (h : finished model sp q = some o) (hne : q.2.tokens ≠ []) :
    ∃ body last, q.2.tokens = body ++ [last] ∧
      ((last = sp.XEC ∧ o.2 = body) ∨
        (last ≠ sp.XEC ∧ endsWord (model.getToken last) = true ∧ o.2 = q.2.tokens)) := by
  rcases List.eq_nil_or_concat q.2.tokens with h0 | ⟨body, last, hbl⟩
  · exact absurd h0 hne
  · rw [List.concat_eq_append] at hbl
    refine ⟨body, last, hbl, ?_⟩
    unfold finished at h
    simp only at h
    rw [hbl, getD_concat_last, take_concat_last] at h
    split_ifs at h with h1 h2
    · left
      simp only [Option.some.injEq] at h
      exact ⟨h1, by rw [← h]⟩
    · right
      simp only [Option.some.injEq] at h
      exact ⟨h1, h2, by rw [← h, hbl]⟩

theorem finished_none {model : LanguageModel} {sp : SpecialTokens} {q : potential_sequence}
    (h : finished model sp q = none) (hne : q.2.tokens ≠ []) :
    ∃ body last, q.2.tokens = body ++ [last] ∧ last ≠ sp.XEC ∧
      endsWord (model.getToken last) = false := by
  rcases List.eq_nil_or_concat q.2.tokens with h0 | ⟨body, last, hbl⟩
  · exact absurd h0 hne
  · rw [List.concat_eq_append] at hbl
    refine ⟨body, last, hbl, ?_⟩
    unfold finished at h
    simp only at h
    rw [hbl, getD_concat_last] at h
    split_ifs at h with h1 h2
    exact ⟨h1, by simpa using h2⟩

theorem sampleStateAt_token_count {model : LanguageModel} {sp : SpecialTokens}
    {ctx : List Event} {dr : DecodeResult} {n : Nat} :
    ∀ tok s, sampleStateAt model sp ctx dr n tok = some s →
      (∀ q ∈ s.sequences, q.2.tokens.length = tok + 1) ∧
        (∀ o ∈ s.outputs, o.2.length ≤ tok) := by
  apply sampleStateAt_induction (fun tok s =>
    (∀ q ∈ s.sequences, q.2.tokens.length = tok + 1) ∧ (∀ o ∈ s.outputs, o.2.length ≤ tok))
  · constructor
    · intro q hq
      simp only [sampleInit] at hq
      obtain ⟨i, _, hiq⟩ := List.mem_map.mp hq
      rw [← hiq]
      rfl
    · intro o ho
      rw [sampleInit_outputs] at ho
      simp at ho
  · intro k s s1 hs hP hst
    have hlen := sampleStateAt_length k s hs
    constructor
    · intro q hq
      obtain ⟨parent, hp, _, _, i, seq, ctx2, _, _, htok⟩ := sampleStep_proceed_mem hlen hst hq
      rw [htok, List.length_append, hP.1 parent (stepLive_subset model sp s parent hp).1]
      rfl
    · intro o ho
      rw [(sampleStep_proceed hst).1] at ho
      rcases stepOutputs_mem model sp s o ho with h | ⟨q, hq, hqo⟩
      · exact le_trans (hP.2 o h) (Nat.le_succ k)
      · have hqlen := hP.1 q hq
        have hne : q.2.tokens ≠ [] := by
          intro h0
          rw [h0] at hqlen
          simp at hqlen
        obtain ⟨body, last, hbl, hcase⟩ := finished_some hqo hne
        rw [hbl, List.length_append] at hqlen
        simp only [List.length_singleton] at hqlen
        rcases hcase with ⟨_, ho2⟩ | ⟨_, _, ho2⟩
        · rw [ho2]; omega
        · rw [ho2, hbl, List.length_append]
          simp only [List.length_singleton]
          omega

theorem sampleStateAt_clean {model : LanguageModel} {sp : SpecialTokens}
    {ctx : List Event} {dr : DecodeResult} {n : Nat} :
    ∀ tok s, sampleStateAt model sp ctx dr n tok = some s →
      ∀ q ∈ s.sequences, ∃ body last, q.2.tokens = body ++ [last] ∧
        ∀ t ∈ body, cleanToken model sp t := by
  apply sampleStateAt_induction (fun _ s =>
    ∀ q ∈ s.sequences, ∃ body last, q.2.tokens = body ++ [last] ∧
      ∀ t ∈ body, cleanToken model sp t)
  · intro q hq
    simp only [sampleInit] at hq
    obtain ⟨i, _, hiq⟩ := List.mem_map.mp hq
    rw [← hiq]
    exact ⟨[], _, rfl, by simp⟩
  · intro k s s1 hs hP hst q hq
    have hlen := sampleStateAt_length k s hs
    obtain ⟨parent, hp, _, _, i, seq, ctx2, _, _, htok⟩ := sampleStep_proceed_mem hlen hst hq
    obtain ⟨hps, hpf⟩ := stepLive_subset model sp s parent hp
    obtain ⟨body, last, hbl, hclean⟩ := hP parent hps
    have hne : parent.2.tokens ≠ [] := by rw [hbl]; simp
    obtain ⟨body1, last1, hbl1, h1, h2⟩ := finished_none hpf hne
    refine ⟨parent.2.tokens, _, htok, ?_⟩
    intro t ht
    rw [hbl] at ht hbl1
    obtain ⟨hb, hl⟩ := List.append_inj' hbl1 rfl
    rcases List.mem_append.mp ht with h | h
    · exact hclean t h
    · simp only [List.mem_singleton] at h
      simp only [List.cons.injEq, and_true] at hl
      rw [h, hl]
      exact ⟨h1, h2⟩

theorem emitted_of_finished {model : LanguageModel} {sp : SpecialTokens}
    {q : potential_sequence} {o : ℚ × List Nat}
    (hq : ∃ body last, q.2.tokens = body ++ [last] ∧ ∀ t ∈ body, cleanToken model sp t)
    (h : finished model sp q = some o) :
    EmittedFrom model sp q o ∧ sp.XEC ∉ o.2 ∧
      ∀ t ∈ o.2.dropLast, endsWord (model.getToken t) = false := by
  obtain ⟨body, last, hbl, hclean⟩ := hq
  have hne : q.2.tokens ≠ [] := by rw [hbl]; simp
  obtain ⟨body1, last1, hbl1, hcase⟩ := finished_some h hne
  rw [hbl] at hbl1
  obtain ⟨hb, hl⟩ := List.append_inj' hbl1 rfl
  simp only [List.cons.injEq, and_true] at hl
  subst hb hl
  rcases hcase with ⟨hx, ho2⟩ | ⟨hx, hw, ho2⟩
  · refine ⟨⟨finished_fst h, Or.inl ?_⟩, ?_, ?_⟩
    · rw [hbl, ho2, hx]
    · rw [ho2]
      exact fun hmem => (hclean _ hmem).1 rfl
    · intro t ht
      rw [ho2] at ht
      exact (hclean t (List.mem_of_mem_dropLast ht)).2
  · refine ⟨⟨finished_fst h, Or.inr ⟨ho2.symm, body, last, by rw [ho2, hbl], hw⟩⟩, ?_, ?_⟩
    · rw [ho2, hbl]
      intro hmem
      rcases List.mem_append.mp hmem with h1 | h1
      · exact (hclean _ h1).1 rfl
      · simp only [List.mem_singleton] at h1
        exact hx h1.symm
    · intro t ht
      rw [ho2, hbl, List.dropLast_concat] at ht
      exact (hclean t ht).2

theorem sampleStateAt_emitted {model : LanguageModel} {sp : SpecialTokens}
    {ctx : List Event} {dr : DecodeResult} {n : Nat} :
    ∀ tok s, sampleStateAt model sp ctx dr n tok = some s →
      ∀ o ∈ s.outputs,
        (∃ j sj q, j < tok ∧ sampleStateAt model sp ctx dr n j = some sj ∧
          q ∈ sj.sequences ∧ EmittedFrom model sp q o) ∧
        sp.XEC ∉ o.2 ∧ ∀ t ∈ o.2.dropLast, endsWord (model.getToken t) = false := by
  apply sampleStateAt_induction (fun tok s =>
    ∀ o ∈ s.outputs,
      (∃ j sj q, j < tok ∧ sampleStateAt model sp ctx dr n j = some sj ∧
        q ∈ sj.sequences ∧ EmittedFrom model sp q o) ∧
      sp.XEC ∉ o.2 ∧ ∀ t ∈ o.2.dropLast, endsWord (model.getToken t) = false)
  · intro o ho
    rw [sampleInit_outputs] at ho
    simp at ho
  · intro k s s1 hs hP hst o ho
    rw [(sampleStep_proceed hst).1] at ho
    rcases stepOutputs_mem model sp s o ho with h | ⟨q, hq, hqo⟩
    · obtain ⟨⟨j, sj, q, hj, hsj, hq, hem⟩, h2⟩ := hP o h
      exact ⟨⟨j, sj, q, by omega, hsj, hq, hem⟩, h2⟩
    · obtain ⟨hem, h2⟩ := emitted_of_finished (sampleStateAt_clean k s hs q hq) hqo
      exact ⟨⟨k, s, q, by omega, hs, hq, hem⟩, h2⟩

/-! ## The calls made on the llama context -/

theorem Extends.refl (Q : Event → Prop) (k : Nat) (l : List Event) : Extends Q k l l :=
  ⟨[], rfl, by simp, by simp⟩

theorem Extends.mono {Q : Event → Prop} {k k1 : Nat} {new old : List Event}
    (h : Extends Q k new old) (hk : k ≤ k1) : Extends Q k1 new old := by
  obtain ⟨added, h1, h2, h3⟩ := h
  exact ⟨added, h1, h2, le_trans h3 hk⟩

theorem Extends.cons {Q : Event → Prop} {k : Nat} {new old : List Event} (e : Event)
    (h : Extends Q k new old) (hQ : Q e) (hd : isDecode e = false) :
    Extends Q k (e :: new) old := by
  obtain ⟨added, h1, h2, h3⟩ := h
  refine ⟨e :: added, by rw [h1]; rfl, ?_, ?_⟩
  · intro x hx
    rcases List.mem_cons.mp hx with h | h
    · rw [h]; exact hQ
    · exact h2 x h
  · rw [List.filter_cons_of_neg (by simp [hd])]
    exact h3

theorem Extends.cons_decode {Q : Event → Prop} {k : Nat} {new old : List Event} (e : Event)
    (h : Extends Q k new old) (hQ : Q e) : Extends Q (k + 1) (e :: new) old := by
  obtain ⟨added, h1, h2, h3⟩ := h
  refine ⟨e :: added, by rw [h1]; rfl, ?_, ?_⟩
  · intro x hx
    rcases List.mem_cons.mp hx with h | h
    · rw [h]; exact hQ
    · exact h2 x h
  · have := List.length_filter_le isDecode (e :: added)
    by_cases hd : isDecode e = true
    · rw [List.filter_cons_of_pos hd, List.length_cons]
      omega
    · rw [List.filter_cons_of_neg hd]
      omega

theorem Extends.trans {Q : Event → Prop} {k1 k2 : Nat} {a b c : List Event}
    (h1 : Extends Q k1 b a) (h2 : Extends Q k2 c b) : Extends Q (k1 + k2) c a := by
  obtain ⟨add1, e1, q1, c1⟩ := h1
  obtain ⟨add2, e2, q2, c2⟩ := h2
  refine ⟨add2 ++ add1, by rw [e2, e1, List.append_assoc], ?_, ?_⟩
  · intro x hx
    rcases List.mem_append.mp hx with h | h
    · exact q2 x h
    · exact q1 x h
  · rw [List.filter_append, List.length_append]
    omega

theorem Extends.foldl_cons {Q : Event → Prop} {α : Type} (f : α → Event) (L : List α)
    (hQ : ∀ x ∈ L, Q (f x)) (hd : ∀ x ∈ L, isDecode (f x) = false) :
    ∀ ctx : List Event, Extends Q 0 (L.foldl (fun c x => f x :: c) ctx) ctx := by
  induction L with
  | nil => intro ctx; exact Extends.refl Q 0 ctx
  | cons x L ih =>
    intro ctx
    rw [List.foldl_cons]
    have h1 : Extends Q 0 (f x :: ctx) ctx :=
      (Extends.refl Q 0 ctx).cons (f x) (hQ x (List.mem_cons_self _ _))
        (hd x (List.mem_cons_self _ _))
    exact (h1.trans (ih (fun y hy => hQ y (List.mem_cons_of_mem _ hy))
      (fun y hy => hd y (List.mem_cons_of_mem _ hy)) (f x :: ctx)))

theorem sampleInit_extends (model : LanguageModel) (sp : SpecialTokens) (ctx : List Event)
    (dr : DecodeResult) (n : Nat) :
    Extends (SampleEvent dr) 0 (sampleInit model sp ctx dr n).ctx
      (Event.transform_logits dr.logits_head false (decide (dr.logits_head = 0)) :: ctx) := by
  simp only [sampleInit]
  exact Extends.foldl_cons
    (fun s : potential_sequence => Event.kv_cache_seq_cp 0 s.2.seq_id 0 dr.size) _
    (fun _ _ => trivial) (fun _ _ => rfl) _

theorem expandParent_fold_extends (model : LanguageModel) (sp : SpecialTokens)
    (dr : DecodeResult) (sequences : List potential_sequence) (rc : Nat) (L : List Nat) :
    ∀ acc : List potential_sequence × List Event,
      Extends (SampleEvent dr) 0
        (L.foldl (expandParent model sp (decide (dr.logits_head = 0)) sequences rc) acc).2
        acc.2 := by
  induction L with
  | nil => intro acc; exact Extends.refl _ 0 _
  | cons x L ih =>
    intro acc
    rw [List.foldl_cons]
    have h1 : Extends (SampleEvent dr) 0
        (expandParent model sp (decide (dr.logits_head = 0)) sequences rc acc x).2 acc.2 :=
      (Extends.refl _ 0 acc.2).cons _ rfl rfl
    exact h1.trans (ih _)

theorem expandAll_extends (model : LanguageModel) (sp : SpecialTokens) (dr : DecodeResult)
    (sequences : List potential_sequence) (rc : Nat) (ctx : List Event) :
    Extends (SampleEvent dr) 0
      (expandAll model sp (decide (dr.logits_head = 0)) sequences rc ctx).2 ctx :=
  expandParent_fold_extends model sp dr sequences rc _ ([], ctx)

theorem resolveCollisions_extends (dr : DecodeResult) (n : Nat) (size : Int) :
    ∀ (l : List potential_sequence) (count : List Nat) (ctx : List Event),
      Extends (SampleEvent dr) 0 (resolveCollisions n size l count ctx).2 ctx := by
  intro l
  induction l with
  | nil => intro count ctx; exact Extends.refl _ 0 _
  | cons q l ih =>
    intro count ctx
    unfold resolveCollisions
    split_ifs with hq
    · simp only
      split
      · exact Extends.refl _ 0 _
      · rename_i new_seq_id hfind
        split
        · rename_i ctx2 hrec
          have h := ih (((count.set q.2.seq_id (count.getD q.2.seq_id 0 - 1))).set new_seq_id
            (((count.set q.2.seq_id (count.getD q.2.seq_id 0 - 1))).getD new_seq_id 0 + 1))
            (Event.kv_cache_seq_cp q.2.seq_id new_seq_id 0
              (size + ((q.2.tokens.length : Int) - 1)) :: ctx)
          rw [hrec] at h
          exact ((Extends.refl _ 0 ctx).cons (Event.kv_cache_seq_cp q.2.seq_id new_seq_id 0
            (size + ((q.2.tokens.length : Int) - 1))) trivial rfl).trans h
        · rename_i rest1 ctx2 hrec
          have h := ih (((count.set q.2.seq_id (count.getD q.2.seq_id 0 - 1))).set new_seq_id
            (((count.set q.2.seq_id (count.getD q.2.seq_id 0 - 1))).getD new_seq_id 0 + 1))
            (Event.kv_cache_seq_cp q.2.seq_id new_seq_id 0
              (size + ((q.2.tokens.length : Int) - 1)) :: ctx)
          rw [hrec] at h
          exact ((Extends.refl _ 0 ctx).cons (Event.kv_cache_seq_cp q.2.seq_id new_seq_id 0
            (size + ((q.2.tokens.length : Int) - 1))) trivial rfl).trans h
    · split
      · rename_i ctx2 hrec
        have h := ih count ctx
        rw [hrec] at h
        exact h
      · rename_i rest1 ctx2 hrec
        have h := ih count ctx
        rw [hrec] at h
        exact h

theorem assertBatch_extends (dr : DecodeResult) (a b : Nat) (ctx : List Event) :
    Extends (SampleEvent dr) 0 (assertBatch a b ctx) ctx := by
  unfold assertBatch
  split_ifs
  · exact Extends.refl _ 0 _
  · exact (Extends.refl _ 0 ctx).cons _ trivial rfl

theorem sampleStep_extends (model : LanguageModel) (sp : SpecialTokens) (dr : DecodeResult)
    (n : Nat) (s : SampleState) :
    Extends (SampleEvent dr) 1 (sampleStep model sp dr n s).ctx s.ctx := by
  unfold sampleStep
  simp only
  split_ifs with hb
  · exact (assertBatch_extends dr _ _ s.ctx).mono (by omega)
  · have h1 := (assertBatch_extends dr (stepBatch dr (stepLive model sp s)).length
      (n - (stepOutputs model sp s).length) s.ctx).cons_decode
      (Event.decode (stepBatch dr (stepLive model sp s))) trivial
    have h2 := h1.trans (expandAll_extends model sp dr (stepLive model sp s)
      (n - (stepOutputs model sp s).length) _)
    have h3 := h2.trans (resolveCollisions_extends dr n dr.size
      (stepNext model sp dr n s (Event.decode (stepBatch dr (stepLive model sp s)) ::
        assertBatch (stepBatch dr (stepLive model sp s)).length
          (n - (stepOutputs model sp s).length) s.ctx))
      (countSeqIds n (stepNext model sp dr n s
        (Event.decode (stepBatch dr (stepLive model sp s)) ::
          assertBatch (stepBatch dr (stepLive model sp s)).length
            (n - (stepOutputs model sp s).length) s.ctx)))
      _)
    split
    · rename_i ctx2 hres
      rw [hres] at h3
      exact h3
    · rename_i resolved ctx2 hres
      rw [hres] at h3
      exact h3

theorem sampleLoop_extends (model : LanguageModel) (sp : SpecialTokens) (dr : DecodeResult)
    (n : Nat) : ∀ (f : Nat) (s : SampleState),
      Extends (SampleEvent dr) f (sampleLoop model sp dr n f s).ctx s.ctx := by
  intro f
  induction f with
  | zero => intro s; exact Extends.refl _ 0 _
  | succ f ih =>
    intro s
    have hstep := sampleStep_extends model sp dr n s
    rw [sampleLoop]
    cases hs : sampleStep model sp dr n s with
    | proceed s1 =>
      rw [hs] at hstep
      simp only
      have := hstep.trans (ih s1)
      rw [Nat.add_comm] at this
      exact this
    | stop s1 =>
      rw [hs] at hstep
      exact hstep.mono (by omega)
    | returnEmpty c =>
      rw [hs] at hstep
      exact hstep.mono (by omega)

theorem sampleCleanup_extends (dr : DecodeResult) (n : Nat) (ctx : List Event) :
    Extends (SampleEvent dr) 0 (sampleCleanup n ctx) ctx :=
  Extends.foldl_cons (fun i : Nat => Event.kv_cache_seq_rm i 0 (-1)) _
    (fun _ _ => trivial) (fun _ _ => rfl) ctx

theorem Sample_extends (st : LanguageModelState) (model : LanguageModel) (dr : DecodeResult)
    (n : Nat) : Extends (SampleEvent dr) 10 (st.Sample model dr n).2.ctx
      (Event.transform_logits dr.logits_head false (decide (dr.logits_head = 0)) :: st.ctx) := by
  have h0 := sampleInit_extends model st.specialTokens st.ctx dr n
  have h1 := h0.trans (sampleLoop_extends model st.specialTokens dr n 10
    (sampleInit model st.specialTokens st.ctx dr n))
  unfold LanguageModelState.Sample
  cases hl : sampleLoop model st.specialTokens dr n 10
      (sampleInit model st.specialTokens st.ctx dr n) with
  | finished s =>
    rw [hl] at h1
    exact (h1.trans (sampleCleanup_extends dr n s.ctx)).mono (by omega)
  | failed c =>
    rw [hl] at h1
    exact h1.mono (by omega)

/-- The events that `Sample` adds to the llama context: the first is the transform of the
row at `logits_head` without space, every transform carries the flag `logits_head == 0`,
and at most ten are forward passes. -/
theorem Sample_added_events (st : LanguageModelState) (model : LanguageModel)
    (dr : DecodeResult) (n : Nat) :
    ∃ added, (st.Sample model dr n).2.ctx = added ++ st.ctx ∧
      Event.transform_logits dr.logits_head false (decide (dr.logits_head = 0)) ∈ added ∧
      (∀ e ∈ added, SampleEvent dr e) ∧ (added.filter isDecode).length ≤ 10 := by
  obtain ⟨added, h1, h2, h3⟩ := Sample_extends st model dr n
  refine ⟨added ++ [Event.transform_logits dr.logits_head false (decide (dr.logits_head = 0))],
    ?_, ?_, ?_, ?_⟩
  · rw [h1, List.append_assoc]
    rfl
  · simp
  · intro e he
    rcases List.mem_append.mp he with h | h
    · exact h2 e h
    · simp only [List.mem_singleton] at h
      rw [h]
      rfl
  · rw [List.filter_append, List.length_append]
    have : (List.filter isDecode
        [Event.transform_logits dr.logits_head false (decide (dr.logits_head = 0))]).length = 0 :=
      rfl
    omega

/-! ## Facts about the concrete inputs -/

theorem demoBigram_distribution (t : Nat) :
    IsDistribution 40 (softmax (fun x => 1 + x) (fun s => (s - 1) / 40) (demoBigram t) 40) := by
  unfold demoBigram
  split_ifs
  · exact ⟨by decide!, by decide!⟩
  · exact ⟨by decide!, by decide!⟩
  · exact ⟨by decide!, by decide!⟩

theorem demoModel_distribution (status : List Event → Int) (tr : List Event) (row : Int) :
    IsDistribution (demoModel status).n_vocab
      (softmax (demoModel status).expf (demoModel status).logf
        ((demoModel status).llama_get_logits_ith tr row) (demoModel status).n_vocab) :=
  demoBigram_distribution _

theorem demoTokens_unmasked (a c : Bool) : 3 ≤ demoTokens.unmaskedCount 40 a c := by
  cases a <;> cases c <;> decide!

theorem Sample_length_le (st : LanguageModelState) (model : LanguageModel)
    (dr : DecodeResult) (n : Nat) : (st.Sample model dr n).1.length ≤ n := by
  rcases Sample_outputs st model dr n with h | ⟨s, hs, hout⟩ | ⟨j, _, sj, hsj, _, hout, _⟩
  · rw [h]; exact Nat.zero_le n
  · rw [hout]
    have := sampleStateAt_length 10 s hs
    omega
  · rw [hout]
    have h1 := sampleStateAt_length j sj hsj
    have h2 := stepLive_length model st.specialTokens sj
    omega

theorem sampleLoop_of_iter (model : LanguageModel) (sp : SpecialTokens) (dr : DecodeResult)
    (n : Nat) : ∀ (f : Nat) (s s1 : SampleState),
      sampleIter model sp dr n f s = some s1 →
        sampleLoop model sp dr n f s = LoopExit.finished s1 := by
  intro f
  induction f with
  | zero =>
    intro s s1 h
    simp only [sampleIter, Option.some.injEq] at h
    rw [sampleLoop, h]
  | succ f ih =>
    intro s s1 h
    rw [sampleIter] at h
    rw [sampleLoop]
    cases hs : sampleStep model sp dr n s with
    | proceed s2 =>
      rw [hs] at h
      exact ih s2 s1 h
    | stop s2 => rw [hs] at h; simp at h
    | returnEmpty c => rw [hs] at h; simp at h

theorem Sample_of_ten_passes (st : LanguageModelState) (model : LanguageModel)
    (dr : DecodeResult) (n : Nat) (s : SampleState)
    (hs : sampleStateAt model st.specialTokens st.ctx dr n 10 = some s) :
    (st.Sample model dr n).1 = s.outputs := by
  unfold LanguageModelState.Sample
  rw [sampleLoop_of_iter model st.specialTokens dr n 10 _ s hs]

theorem Sample_tokens_le (st : LanguageModelState) (model : LanguageModel)
    (dr : DecodeResult) (n : Nat) : ∀ o ∈ (st.Sample model dr n).1, o.2.length ≤ 10 := by
  intro o ho
  rcases Sample_outputs st model dr n with h | ⟨s, hs, hout⟩ | ⟨j, hj, sj, hsj, _, hout, _⟩
  · rw [h] at ho; simp at ho
  · rw [hout] at ho
    exact (sampleStateAt_token_count 10 s hs).2 o ho
  · rw [hout] at ho
    have hP := sampleStateAt_token_count j sj hsj
    rcases stepOutputs_mem model st.specialTokens sj o ho with h | ⟨q, hq, hqo⟩
    · exact le_trans (hP.2 o h) (by omega)
    · have hqlen := hP.1 q hq
      have hne : q.2.tokens ≠ [] := by
        intro h0
        rw [h0] at hqlen
        simp at hqlen
      obtain ⟨body, last, hbl, hcase⟩ := finished_some hqo hne
      rw [hbl, List.length_append] at hqlen
      simp only [List.length_singleton] at hqlen
      rcases hcase with ⟨_, ho2⟩ | ⟨_, _, ho2⟩
      · rw [ho2]; omega
      · rw [ho2, hbl, List.length_append]
        simp only [List.length_singleton]
        omega

theorem Sample_emitted (st : LanguageModelState) (model : LanguageModel)
    (dr : DecodeResult) (n : Nat) (o : ℚ × List Nat) (ho : o ∈ (st.Sample model dr n).1) :
    (∃ tok s q, sampleStateAt model st.specialTokens st.ctx dr n tok = some s ∧
        q ∈ s.sequences ∧ EmittedFrom model st.specialTokens q o) ∧
      st.specialTokens.XEC ∉ o.2 ∧
      ∀ t ∈ o.2.dropLast, endsWord (model.getToken t) = false := by
  rcases Sample_outputs st model dr n with h | ⟨s, hs, hout⟩ | ⟨j, hj, sj, hsj, _, hout, _⟩
  · rw [h] at ho; simp at ho
  · rw [hout] at ho
    obtain ⟨⟨j, sj, q, _, hsj, hq, hem⟩, h2⟩ := sampleStateAt_emitted 10 s hs o ho
    exact ⟨⟨j, sj, q, hsj, hq, hem⟩, h2⟩
  · rw [hout] at ho
    rcases stepOutputs_mem model st.specialTokens sj o ho with h | ⟨q, hq, hqo⟩
    · obtain ⟨⟨j1, sj1, q, _, hsj1, hq, hem⟩, h2⟩ := sampleStateAt_emitted j sj hsj o h
      exact ⟨⟨j1, sj1, q, hsj1, hq, hem⟩, h2⟩
    · obtain ⟨hem, h2⟩ := emitted_of_finished (sampleStateAt_clean j sj hsj q hq) hqo
      exact ⟨⟨j, sj, q, hsj, hq, hem⟩, h2⟩

theorem map_fst_decoded (g : List Nat → List Char) (l : List (ℚ × List Nat)) :
    (l.map (fun r => (r.1, g r.2))).map Prod.fst = l.map Prod.fst := by
  rw [List.map_map]
  rfl

/-! ## The claims -/

/-- C1, evaluated at a concrete input on which the code departs from the claim:
`PredictNextWord` for the context `"hi"`, whose prompt decodes to `{logits_head 1, size 2}`.
With three results asked for, pass 0 of `Sample` has the live parents `[35]` (probability
23/50) and `[36]` (probability 1/50).  The best token of parent `[36]` is `38` with
transformed value 23/50, so the claim gives the child `[36, 38]` the probability
`1/50 * 23/50 = 23/2500`.  The code multiplies by `sequences[i].first` with the rank
`i = 0`, the probability of the other parent, and builds the child with
`23/50 * 23/50 = 529/2500`; `Sample` returns it with that value, ranked above
`[35, 37]`. -/
theorem Sample_child_uses_probability_at_rank_index :
    demoDecoded.1 = { logits_head := 1, size := 2 } ∧
      demoLive = [(23 / 50, { tokens := [35], seq_id := 0 }),
        (1 / 50, { tokens := [36], seq_id := 2 })] ∧
      (rankRow (demoModel statusOk) demoTokens (Event.transform_logits 0 true false :: demoCtx)
        1 true false 2).take 2 = [(23 / 50, 38), (4 / 25, 37)] ∧
      (expandAll (demoModel statusOk) demoTokens false demoLive 2 demoCtx).1 =
        [(943 / 5000, { tokens := [35, 37], seq_id := 0 }),
          (21 / 5000, { tokens := [35, 38], seq_id := 0 }),
          (529 / 2500, { tokens := [36, 38], seq_id := 2 }),
          (2 / 625, { tokens := [36, 37], seq_id := 2 })] ∧
      (demoDecoded.2.Sample (demoModel statusOk) demoDecoded.1 3).1 =
        [(3 / 20, [37]), (529 / 2500, [36, 38]), (943 / 5000, [35, 37])] := by
  decide!

/-- C2, counterexample: called by `PredictNextWord` for the context `"hi"`, `Sample`
returns the probabilities `3/20, 529/2500, 943/5000` in this order, which is not
non-increasing: the hypothesis `[37]` ended in pass 0 and stands in front of the two that
ended in pass 1, and `3/20 < 943/5000` (the probability of `[35, 37]`, the best child of
the best parent). -/
theorem Sample_output_not_sorted :
    (demoDecoded.2.Sample (demoModel statusOk) demoDecoded.1 3).1.map Prod.fst =
        [3 / 20, 529 / 2500, 943 / 5000] ∧
      ¬ List.Pairwise (fun a b : ℚ × List Nat => b.1 ≤ a.1)
        (demoDecoded.2.Sample (demoModel statusOk) demoDecoded.1 3).1 := by
  decide!

/-- C2, amended: when `n_results` does not exceed the vocabulary size, the hypotheses that
one pass of the loop of `Sample` moves to the output are in non-increasing order of
probability, and the list that `Sample` returns is empty or the concatenation of these
groups in the order of the passes; the list is not sorted as a whole.  `PredictNextWord`
and `PredictCorrection` return the probabilities of a call of `Sample` with 3 results in
the same order. -/
theorem Sample_output_sorted_within_pass (st : LanguageModelState) (model : LanguageModel)
    (dr : DecodeResult) (n : Nat) (hv : n ≤ model.n_vocab) :
    (∀ tok, (emittedAt model st.specialTokens st.ctx dr n tok).Pairwise
        (fun a b => b.1 ≤ a.1)) ∧
      ((st.Sample model dr n).1 = [] ∨
        (st.Sample model dr n).1 =
          ((List.range 10).map (emittedAt model st.specialTokens st.ctx dr n)).flatten) ∧
      (∀ context, ∃ (st1 : LanguageModelState) (dr1 : DecodeResult),
        (st.PredictNextWord model context).1.map Prod.fst =
          (st1.Sample model dr1 3).1.map Prod.fst) ∧
      (∀ context word mixes swipe, ∃ (st1 : LanguageModelState) (dr1 : DecodeResult),
        (st.PredictCorrection model context word mixes swipe).1.map Prod.fst =
          (st1.Sample model dr1 3).1.map Prod.fst) := by
  refine ⟨fun tok => emittedAt_sorted hv tok, Sample_outputs_eq_flatten st model dr n, ?_, ?_⟩
  · intro context
    unfold LanguageModelState.PredictNextWord
    simp only [map_fst_decoded]
    exact ⟨_, _, rfl⟩
  · intro context word mixes swipe
    unfold LanguageModelState.PredictCorrection
    simp only [map_fst_decoded]
    exact ⟨_, _, rfl⟩

/-- C2, amended, at the concrete input: the vocabulary has 40 ids, 3 results are asked
for, and the returned list is the concatenation of the groups of the ten passes. -/
theorem Sample_output_sorted_within_pass_witness :
    3 ≤ (demoModel statusOk).n_vocab ∧
      ((demoDecoded.2.Sample (demoModel statusOk) demoDecoded.1 3).1 = [] ∨
        (demoDecoded.2.Sample (demoModel statusOk) demoDecoded.1 3).1 =
          ((List.range 10).map (emittedAt (demoModel statusOk) demoDecoded.2.specialTokens
            demoDecoded.2.ctx demoDecoded.1 3)).flatten) :=
  ⟨by decide, (Sample_output_sorted_within_pass demoDecoded.2 (demoModel statusOk)
    demoDecoded.1 3 (by decide)).2.1⟩

/-- C3: for `n_results >= 1` and a vocabulary of at least `n_results` ids, `Sample` returns
at most `n_results` entries; at the head of every pass of its loop the live hypotheses and
the outputs together number `n_results`, also after the termination checks, where the
batch has `remaining_count` positions (the assertion of the source) and `remaining_count`
does not exceed the vocabulary size.  With a vocabulary of at least 3 ids
`PredictNextWord` and `PredictCorrection` return at most 3 results. -/
theorem Sample_returns_at_most_n_results (st : LanguageModelState) (model : LanguageModel)
    (dr : DecodeResult) (n : Nat) (_h1 : 1 ≤ n) (hv : n ≤ model.n_vocab) :
    (st.Sample model dr n).1.length ≤ n ∧
      (∀ tok s, sampleStateAt model st.specialTokens st.ctx dr n tok = some s →
        s.sequences.length + s.outputs.length = n ∧
        (stepLive model st.specialTokens s).length +
          (stepOutputs model st.specialTokens s).length = n ∧
        (stepBatch dr (stepLive model st.specialTokens s)).length =
          n - (stepOutputs model st.specialTokens s).length ∧
        n - (stepOutputs model st.specialTokens s).length ≤ model.n_vocab) ∧
      (3 ≤ model.n_vocab → ∀ context,
        (st.PredictNextWord model context).1.length ≤ 3 ∧
        ∀ word mixes swipe,
          (st.PredictCorrection model context word mixes swipe).1.length ≤ 3) := by
  refine ⟨Sample_length_le st model dr n, ?_, ?_⟩
  · intro tok s hs
    have h1 := sampleStateAt_length tok s hs
    have h2 := stepLive_length model st.specialTokens s
    refine ⟨h1, by omega, ?_, by omega⟩
    simp only [stepBatch, List.length_map]
    omega
  · intro _ context
    constructor
    · simp only [LanguageModelState.PredictNextWord, List.length_map]
      exact Sample_length_le _ model _ 3
    · intro word mixes swipe
      simp only [LanguageModelState.PredictCorrection, List.length_map]
      exact Sample_length_le _ model _ 3

/-- C3 at the concrete input: 3 results from a vocabulary of 40 ids. -/
theorem Sample_returns_at_most_n_results_witness :
    (1 ≤ 3 ∧ 3 ≤ (demoModel statusOk).n_vocab) ∧
      (demoDecoded.2.Sample (demoModel statusOk) demoDecoded.1 3).1.length ≤ 3 :=
  ⟨⟨by decide, by decide⟩, (Sample_returns_at_most_n_results demoDecoded.2
    (demoModel statusOk) demoDecoded.1 3 (by decide) (by decide)).1⟩

/-- C4, evaluated at concrete inputs on which the code departs from the claim.  When every
forward pass fails, when only the forward passes of the expansion steps fail, when the
`XBC` forward pass fails and when the embedding forward pass fails, `PredictNextWord` and
`PredictCorrection` still return three results, the same as a run without failures:
`DecodePromptAndMixes` answers a failure with the result `{0, 0}`, which the callers pass
on to `Sample`, and `Sample` does not look at the status of its own `llama_decode`. -/
theorem Predict_returns_results_after_failed_decode :
    (∀ tr, (demoModel statusFail).llama_decode tr ≠ 0) ∧
      (demoState.PredictNextWord (demoModel statusFail) ['h', 'i']).1 =
        [(3 / 20, ['c']), (529 / 2500, ['b', 'd']), (943 / 5000, ['a', 'c'])] ∧
      (demoState.PredictNextWord (demoModel statusFailLater) ['h', 'i']).1 =
        [(3 / 20, ['c']), (529 / 2500, ['b', 'd']), (943 / 5000, ['a', 'c'])] ∧
      (demoState.PredictCorrection (demoModel statusFailLater) ['h', 'i'] ['a'] [demoMix]
          false).1 =
        [(3 / 20, ['c']), (529 / 2500, ['b', 'd']), (943 / 5000, ['a', 'c'])] ∧
      (demoState.PredictCorrection (demoModel statusFailEmbd) ['h', 'i'] ['a'] [demoMix]
          false).1 =
        [(3 / 20, ['c']), (529 / 2500, ['b', 'd']), (943 / 5000, ['a', 'c'])] ∧
      (demoState.PredictNextWord (demoModel statusOk) ['h', 'i']).1 =
        [(3 / 20, ['c']), (529 / 2500, ['b', 'd']), (943 / 5000, ['a', 'c'])] := by
  refine ⟨fun _ => ?_, ?_, ?_, ?_, ?_, ?_⟩
  · simp [demoModel, statusFail]
  all_goals decide!

/-- C5: with softmax modelled exactly (every row the evaluator can produce has a softmax of
non-negative entries that sum to 1), the banned ids being vocabulary ids, and at least
`n_results` vocabulary ids left unmasked by `transform_logits` at the first position
(space not allowed) and at the later ones (space allowed), every hypothesis of `Sample`
has a cumulative probability in `[0, 1]`: the returned ones, the live ones and the outputs
at the head of every pass, and every child that an expansion step creates, kept or not. -/
theorem Sample_probabilities_in_unit_interval (st : LanguageModelState)
    (model : LanguageModel) (dr : DecodeResult) (n : Nat)
    (hsoft : ∀ tr row, IsDistribution model.n_vocab
      (softmax model.expf model.logf (model.llama_get_logits_ith tr row) model.n_vocab))
    (hbad : ∀ t ∈ st.specialTokens.SAMPLING_BAD_TOKENS, t < model.n_vocab)
    (hun : ∀ allow_space, n ≤ st.specialTokens.unmaskedCount model.n_vocab allow_space
      (decide (dr.logits_head = 0))) :
    (∀ o ∈ (st.Sample model dr n).1, 0 ≤ o.1 ∧ o.1 ≤ 1) ∧
      ∀ tok s, sampleStateAt model st.specialTokens st.ctx dr n tok = some s →
        (∀ q ∈ s.sequences, 0 ≤ q.1 ∧ q.1 ≤ 1) ∧ (∀ o ∈ s.outputs, 0 ≤ o.1 ∧ o.1 ≤ 1) ∧
        ∀ ctx1, ∀ c ∈ (expandAll model st.specialTokens (decide (dr.logits_head = 0))
          (stepLive model st.specialTokens s)
          (n - (stepOutputs model st.specialTokens s).length) ctx1).1, 0 ≤ c.1 ∧ c.1 ≤ 1 := by
  refine ⟨Sample_unit st model dr n hsoft hbad hun, ?_⟩
  intro tok s hs
  have h := sampleStateAt_unit hsoft hbad hun tok s hs
  exact ⟨h.1, h.2, expandAll_unit hsoft hbad hun (sampleStateAt_length tok s hs) h.1⟩

/-- C5 at the concrete input: the rows of the evaluator are exact softmax outputs, the
banned ids `0..3` lie in the vocabulary of 40 ids, at least 3 ids are unmasked, and the
three returned probabilities lie in `[0, 1]`. -/
theorem Sample_probabilities_in_unit_interval_witness :
    ((∀ tr row, IsDistribution (demoModel statusOk).n_vocab
        (softmax (demoModel statusOk).expf (demoModel statusOk).logf
          ((demoModel statusOk).llama_get_logits_ith tr row) (demoModel statusOk).n_vocab)) ∧
      (∀ t ∈ demoDecoded.2.specialTokens.SAMPLING_BAD_TOKENS,
        t < (demoModel statusOk).n_vocab) ∧
      (∀ allow_space, 3 ≤ demoDecoded.2.specialTokens.unmaskedCount
        (demoModel statusOk).n_vocab allow_space (decide (demoDecoded.1.logits_head = 0)))) ∧
      ∀ o ∈ (demoDecoded.2.Sample (demoModel statusOk) demoDecoded.1 3).1,
        0 ≤ o.1 ∧ o.1 ≤ 1 :=
  ⟨⟨demoModel_distribution statusOk, by decide!, fun a => demoTokens_unmasked a _⟩,
    (Sample_probabilities_in_unit_interval demoDecoded.2 (demoModel statusOk)
      demoDecoded.1 3 (demoModel_distribution statusOk) (by decide!)
      (fun a => demoTokens_unmasked a _)).1⟩

/-- C6, counterexample: on the concrete input the transformed entries of the banned id `0`,
of `XBU = 4` and of the letter id `8` are `-999`, which is not within `EPS` of zero. -/
theorem transform_logits_masked_entry_not_zero :
    demoTokens.transform_logits (demoModel statusOk).expf (demoModel statusOk).logf
        (demoBigram 1) 40 true false 0 = -999 ∧
      demoTokens.transform_logits (demoModel statusOk).expf (demoModel statusOk).logf
        (demoBigram 1) 40 true false 4 = -999 ∧
      demoTokens.transform_logits (demoModel statusOk).expf (demoModel statusOk).logf
        (demoBigram 1) 40 true false 8 = -999 ∧
      ¬ |demoTokens.transform_logits (demoModel statusOk).expf (demoModel statusOk).logf
        (demoBigram 1) 40 true false 0| ≤ EPS := by
  decide!

/-- C6, amended: for every banned-token set and every logits vector, after
`transform_logits` the entry of every banned id other than the space id is exactly the
mask value `-999`, not a value near zero; the same holds for `XBU`, `XBC` and every
per-letter id other than the space id. -/
theorem transform_logits_masked_entry (sp : SpecialTokens) (expf logf : ℚ → ℚ)
    (logits : Nat → ℚ) (n_vocab : Nat) (allow_space allow_correction_token : Bool) (t : Nat)
    (hmask : t ∈ sp.SAMPLING_BAD_TOKENS ∨ t = sp.XBU ∨ t = sp.XBC ∨ t ∈ sp.LETTERS_TO_IDS)
    (hspace : t ≠ sp.SPACE) :
    sp.transform_logits expf logf logits n_vocab allow_space allow_correction_token t =
      -999 := by
  apply transform_logits_masked sp expf logf logits n_vocab allow_space
    allow_correction_token t _ hspace
  rcases hmask with h | h | h | h
  · exact Or.inl h
  · right
    simp [SpecialTokens.controlMasked, h]
  · right
    simp [SpecialTokens.controlMasked, h]
  · right
    simp [SpecialTokens.controlMasked, h]

/-- C6, amended, at the concrete input: the banned id `0` is not the space id `34`. -/
theorem transform_logits_masked_entry_witness :
    ((0 ∈ demoTokens.SAMPLING_BAD_TOKENS ∨ 0 = demoTokens.XBU ∨ 0 = demoTokens.XBC ∨
        0 ∈ demoTokens.LETTERS_TO_IDS) ∧ 0 ≠ demoTokens.SPACE) ∧
      demoTokens.transform_logits (fun x => 1 + x) (fun s => (s - 1) / 40) (demoBigram 1) 40
        true false 0 = -999 :=
  ⟨⟨by decide, by decide⟩,
    transform_logits_masked_entry demoTokens (fun x => 1 + x) (fun s => (s - 1) / 40)
      (demoBigram 1) 40 true false 0 (by decide) (by decide)⟩

/-- C7: with softmax modelled exactly (non-negative entries), banned ids inside the
vocabulary, space allowed, and the space id neither banned nor `XBU`, `XBC`, `XEC` nor a
per-letter id, the space entry after `transform_logits` is `softmax(L)[space]` plus the sum
of `softmax(L)[t]` over the set of banned ids `t` not already masked as `XBU`, `XBC`, a
disallowed `XEC` or a per-letter id; it is at least `softmax(L)[space]`.  The sum runs over
a set, so a banned id listed twice counts once. -/
theorem transform_logits_space_entry (sp : SpecialTokens) (expf logf : ℚ → ℚ)
    (logits : Nat → ℚ) (n_vocab : Nat) (allow_correction_token : Bool)
    (hnn : ∀ i, i < n_vocab → 0 ≤ softmax expf logf logits n_vocab i)
    (hbad : ∀ t ∈ sp.SAMPLING_BAD_TOKENS, t < n_vocab)
    (hS : sp.SPACE ∉ sp.SAMPLING_BAD_TOKENS) (h1 : sp.SPACE ≠ sp.XBU)
    (h2 : sp.SPACE ≠ sp.XBC) (h3 : sp.SPACE ≠ sp.XEC) (h4 : sp.SPACE ∉ sp.LETTERS_TO_IDS) :
    sp.transform_logits expf logf logits n_vocab true allow_correction_token sp.SPACE =
        softmax expf logf logits n_vocab sp.SPACE +
          ∑ t in sp.SAMPLING_BAD_TOKENS.toFinset.filter
              (fun t => sp.controlMasked allow_correction_token t = false),
            softmax expf logf logits n_vocab t ∧
      softmax expf logf logits n_vocab sp.SPACE ≤
        sp.transform_logits expf logf logits n_vocab true allow_correction_token sp.SPACE := by
  have hc : sp.controlMasked allow_correction_token sp.SPACE = false :=
    (controlMasked_false_iff sp allow_correction_token sp.SPACE).mpr
      ⟨h1, h2, fun _ => h3, h4⟩
  have hsum := transform_logits_space_sum sp expf logf logits n_vocab allow_correction_token
    hnn hbad hS hc
  refine ⟨hsum, ?_⟩
  rw [hsum]
  apply le_add_of_nonneg_right
  apply Finset.sum_nonneg
  intro i hi
  exact hnn i (hbad i (List.mem_toFinset.mp (Finset.mem_filter.mp hi).1))

/-- C7 at the concrete input: the space entry `34` of the row after `"a"` grows from its
softmax value `1/100` by the mass `4/100` of the banned ids `0..3`. -/
theorem transform_logits_space_entry_witness :
    ((∀ i, i < 40 → 0 ≤ softmax (fun x => 1 + x) (fun s => (s - 1) / 40) (demoBigram 35) 40 i) ∧
      (∀ t ∈ demoTokens.SAMPLING_BAD_TOKENS, t < 40) ∧
      demoTokens.SPACE ∉ demoTokens.SAMPLING_BAD_TOKENS ∧ demoTokens.SPACE ≠ demoTokens.XBU ∧
      demoTokens.SPACE ≠ demoTokens.XBC ∧ demoTokens.SPACE ≠ demoTokens.XEC ∧
      demoTokens.SPACE ∉ demoTokens.LETTERS_TO_IDS) ∧
      softmax (fun x => 1 + x) (fun s => (s - 1) / 40) (demoBigram 35) 40 demoTokens.SPACE ≤
        demoTokens.transform_logits (fun x => 1 + x) (fun s => (s - 1) / 40) (demoBigram 35)
          40 true false demoTokens.SPACE :=
  ⟨⟨by decide!, by decide!, by decide!, by decide!, by decide!, by decide!, by decide!⟩,
    (transform_logits_space_entry demoTokens (fun x => 1 + x) (fun s => (s - 1) / 40)
      (demoBigram 35) 40 false (by decide!) (by decide!) (by decide!) (by decide!)
      (by decide!) (by decide!) (by decide!)).2⟩

/-- C8, counterexample: `PredictCorrection` for the context `"hi"` with one touch point
hands `Sample` the result `{logits_head 0, size 5}`.  In that call the two
`transform_logits` calls of the expansion step (rows 0 and 1, space allowed) receive the
flag `true`, and the `XEC` entry `6` of the row of the first live parent keeps its softmax
value `1/100` instead of the mask value. -/
theorem Sample_expansion_allows_correction_token :
    demoCorrection.1 = { logits_head := 0, size := 5 } ∧
      (demoCorrection.2.Sample (demoModel statusOk) demoCorrection.1 3).2.ctx =
        [Event.kv_cache_seq_rm 2 0 (-1), Event.kv_cache_seq_rm 1 0 (-1),
          Event.transform_logits 1 true true, Event.transform_logits 0 true true,
          Event.decode [{ token := 35, pos := 5, seq_id := 0, logits := true },
            { token := 36, pos := 5, seq_id := 2, logits := true }],
          Event.kv_cache_seq_cp 0 2 0 5, Event.kv_cache_seq_cp 0 1 0 5,
          Event.transform_logits 0 false true] ++ demoCorrection.2.ctx ∧
      demoTokens.transform_logits (demoModel statusOk).expf (demoModel statusOk).logf
        ((demoModel statusOk).llama_get_logits_ith
          ([Event.decode [{ token := 35, pos := 5, seq_id := 0, logits := true },
            { token := 36, pos := 5, seq_id := 2, logits := true }],
            Event.kv_cache_seq_cp 0 2 0 5, Event.kv_cache_seq_cp 0 1 0 5,
            Event.transform_logits 0 false true] ++ demoCorrection.2.ctx) 0)
        40 true true 6 = 1 / 100 := by
  decide!

/-- C8, amended: in every call of `Sample` the allow-end-of-correction flag passed to
`transform_logits` is the same at the initial ranking (row `logits_head`, space not
allowed) and at every later expansion step: it is true exactly when `logits_head == 0`.
The flag does not tell the first generated position from the later ones. -/
theorem Sample_correction_flag_is_constant (st : LanguageModelState) (model : LanguageModel)
    (dr : DecodeResult) (n : Nat) :
    ∃ added, (st.Sample model dr n).2.ctx = added ++ st.ctx ∧
      Event.transform_logits dr.logits_head false (decide (dr.logits_head = 0)) ∈ added ∧
      ∀ row allow_space c, Event.transform_logits row allow_space c ∈ added →
        c = decide (dr.logits_head = 0) := by
  obtain ⟨added, h1, h2, h3, _⟩ := Sample_added_events st model dr n
  exact ⟨added, h1, h2, fun row a c hmem => h3 _ hmem⟩

/-- C9: every entry that `Sample` returns comes from a hypothesis `q` of some pass of the
loop, with the probability of `q`: its tokens are those of `q` in front of a trailing
`XEC`, or all tokens of `q`, whose newest token has a text ending in `E2 96 81`.  No
returned sequence contains `XEC`, and no token of it other than the last has a text ending
in `E2 96 81`. -/
theorem Sample_emits_terminated_hypotheses (st : LanguageModelState) (model : LanguageModel)
    (dr : DecodeResult) (n : Nat) (o : ℚ × List Nat) (ho : o ∈ (st.Sample model dr n).1) :
    (∃ tok s q, sampleStateAt model st.specialTokens st.ctx dr n tok = some s ∧
        q ∈ s.sequences ∧ EmittedFrom model st.specialTokens q o) ∧
      st.specialTokens.XEC ∉ o.2 ∧
      ∀ t ∈ o.2.dropLast, endsWord (model.getToken t) = false :=
  Sample_emitted st model dr n o ho

/-- C9 at the concrete input: the returned entry `(529/2500, [36, 38])`. -/
theorem Sample_emits_terminated_hypotheses_witness :
    ((529 / 2500, [36, 38]) ∈
        (demoDecoded.2.Sample (demoModel statusOk) demoDecoded.1 3).1) ∧
      demoDecoded.2.specialTokens.XEC ∉ ((529 / 2500, [36, 38]) : ℚ × List Nat).2 :=
  ⟨by decide!, (Sample_emits_terminated_hypotheses demoDecoded.2 (demoModel statusOk)
    demoDecoded.1 3 (529 / 2500, [36, 38]) (by decide!)).2.1⟩

/-- C10: `Sample` is a total function whose loop runs at most ten passes: it adds at most
ten `llama_decode` calls to the llama context; at the head of pass `tok` every live
hypothesis has `tok + 1` tokens; every returned sequence has at most 10 tokens; and when
the tenth pass ends with live hypotheses, these have 11 tokens and the returned list is
the output as it stood, without any of them. -/
theorem Sample_stops_after_ten_passes (st : LanguageModelState) (model : LanguageModel)
    (dr : DecodeResult) (n : Nat) :
    (∃ added, (st.Sample model dr n).2.ctx = added ++ st.ctx ∧
        (added.filter isDecode).length ≤ 10) ∧
      (∀ tok s, sampleStateAt model st.specialTokens st.ctx dr n tok = some s →
        ∀ q ∈ s.sequences, q.2.tokens.length = tok + 1) ∧
      (∀ o ∈ (st.Sample model dr n).1, o.2.length ≤ 10) ∧
      (∀ s, sampleStateAt model st.specialTokens st.ctx dr n 10 = some s →
        (st.Sample model dr n).1 = s.outputs ∧
        ∀ q ∈ s.sequences, q.2.tokens.length = 11 ∧
          ∀ o ∈ (st.Sample model dr n).1, o.2 ≠ q.2.tokens) := by
  refine ⟨?_, ?_, Sample_tokens_le st model dr n, ?_⟩
  · obtain ⟨added, h1, _, _, h4⟩ := Sample_added_events st model dr n
    exact ⟨added, h1, h4⟩
  · intro tok s hs
    exact (sampleStateAt_token_count tok s hs).1
  · intro s hs
    refine ⟨Sample_of_ten_passes st model dr n s hs, ?_⟩
    intro q hq
    have hlen := (sampleStateAt_token_count 10 s hs).1 q hq
    refine ⟨hlen, ?_⟩
    intro o ho heq
    have := Sample_tokens_le st model dr n o ho
    rw [heq, hlen] at this
    omega

/-- C10, illustrated: when no token text ends a word, the call of `Sample` for one
result made after the prompt of `PredictNextWord` for the context `"hi"` passes the head
of the loop ten times; after the tenth pass the one live hypothesis has 11 tokens and the
output is empty. -/
theorem Sample_cap_reached_example :
    (sampleStateAt demoModelNoEnd demoTokens demoDecodedNoEnd.2.ctx demoDecodedNoEnd.1 1
        10).map (fun s => (s.sequences.map (fun q => q.2.tokens), s.outputs)) =
      some ([[35, 37, 35, 37, 35, 37, 35, 37, 35, 37, 35]], []) := by
  decide!

/-! ## The slots of the hypotheses -/

theorem getD_set_nat (c : List Nat) (a v j : Nat) :
    (c.set a v).getD j 0 = if j = a ∧ a < c.length then v else c.getD j 0 := by
  rw [List.getD_eq_getElem?_getD, List.getD_eq_getElem?_getD, List.getElem?_set]
  by_cases hja : a = j
  · subst hja
    by_cases hlt : a < c.length
    · simp [hlt]
    · simp [hlt, List.getElem?_eq_none (Nat.le_of_not_lt hlt)]
  · have : ¬ (j = a ∧ a < c.length) := fun h => hja h.1.symm
    simp [hja, this]

theorem find_range_none (p : Nat → Bool) (n : Nat)
    (h : (List.range n).find? p = none) : ∀ i, i < n → p i = false := by
  intro i hi
  have := List.find?_eq_none.mp h i (List.mem_range.mpr hi)
  simpa using this

theorem find_range_some (p : Nat → Bool) : ∀ (n j : Nat),
    (List.range n).find? p = some j → j < n ∧ p j = true ∧ ∀ i, i < j → p i = false := by
  intro n
  induction n with
  | zero => intro j h; simp at h
  | succ n ih =>
    intro j h
    rw [List.range_succ, List.find?_append] at h
    cases hfind : (List.range n).find? p with
    | some k =>
      rw [hfind] at h
      simp only [Option.or, Option.some.injEq] at h
      subst h
      obtain ⟨h1, h2, h3⟩ := ih k hfind
      exact ⟨by omega, h2, h3⟩
    | none =>
      rw [hfind] at h
      simp only [Option.or] at h
      by_cases hp : p n = true
      · simp only [List.find?_cons, hp, Option.some.injEq] at h
        subst h
        exact ⟨by omega, hp, fun i hi => find_range_none p n hfind i hi⟩
      · simp [List.find?_cons, hp] at h

/-- Pigeonhole: among at most `n` slot ids below `n`, one of which occurs twice, some id
below `n` does not occur. -/
theorem exists_unused_slot (n : Nat) (used : List Nat)
    (hlen : used.length ≤ n) (x : Nat) (hx : 1 < used.count x) :
    ∃ j, j < n ∧ used.count j = 0 := by
  by_contra hno
  have hall : ∀ j, j < n → j ∈ used := by
    intro j hj
    by_contra hjn
    exact hno ⟨j, hj, List.count_eq_zero.mpr hjn⟩
  have hsub : List.range n ⊆ used := fun j hj => hall j (List.mem_range.mp hj)
  have hperm : List.Perm (List.range n) used :=
    (List.subperm_of_subset (List.nodup_range n) hsub).perm_of_length_le (by simpa using hlen)
  have hnd : used.Nodup := hperm.nodup_iff.mp (List.nodup_range n)
  have := List.nodup_iff_count_le_one.mp hnd x
  omega

theorem countSeqIds_fold (n : Nat) : ∀ (l : List potential_sequence) (c : List Nat),
    c.length = n → (∀ x ∈ slotIds l, x < n) →
      (l.foldl (fun c q => c.set q.2.seq_id (c.getD q.2.seq_id 0 + 1)) c).length = n ∧
      ∀ j, (l.foldl (fun c q => c.set q.2.seq_id (c.getD q.2.seq_id 0 + 1)) c).getD j 0 =
        c.getD j 0 + (slotIds l).count j := by
  intro l
  induction l with
  | nil => intro c hc _; simp [slotIds, hc]
  | cons q l ih =>
    intro c hc hlt
    have hq : q.2.seq_id < n := hlt _ (by simp [slotIds])
    have hl : ∀ x ∈ slotIds l, x < n := fun x hx => hlt x (by
      simp only [slotIds, List.map_cons, List.mem_cons] at hx ⊢
      exact Or.inr hx)
    obtain ⟨h1, h2⟩ := ih (c.set q.2.seq_id (c.getD q.2.seq_id 0 + 1))
      (by rw [List.length_set]; exact hc) hl
    rw [List.foldl_cons]
    refine ⟨h1, fun j => ?_⟩
    rw [h2 j, getD_set_nat]
    simp only [slotIds, List.map_cons, List.count_cons]
    by_cases hj : j = q.2.seq_id
    · subst hj
      simp [hc, hq]
      omega
    · have hj1 : ¬ (q.2.seq_id = j) := fun h => hj h.symm
      simp [hj, hj1]

theorem countSeqIds_spec (n : Nat) (l : List potential_sequence)
    (hlt : ∀ x ∈ slotIds l, x < n) :
    (countSeqIds n l).length = n ∧ ∀ j, j < n → (countSeqIds n l).getD j 0 = (slotIds l).count j := by
  obtain ⟨h1, h2⟩ := countSeqIds_fold n l (List.replicate n 0) (by simp) hlt
  refine ⟨h1, fun j hj => ?_⟩
  unfold countSeqIds
  rw [h2 j]
  simp [List.getD_eq_getElem?_getD, List.getElem?_replicate, hj]

theorem collisionCopies_cons_same (size : Int) (q r : potential_sequence)
    (next resolved : List potential_sequence) (h : q.2.seq_id = r.2.seq_id) :
    collisionCopies size (q :: next) (r :: resolved) = collisionCopies size next resolved := by
  simp [collisionCopies, h]

theorem collisionCopies_cons_rebound (size : Int) (q r : potential_sequence)
    (next resolved : List potential_sequence) (h : q.2.seq_id ≠ r.2.seq_id) :
    collisionCopies size (q :: next) (r :: resolved) =
      collisionCopies size next resolved ++
        [Event.kv_cache_seq_cp q.2.seq_id r.2.seq_id 0
          (size + ((q.2.tokens.length : Int) - 1))] := by
  simp [collisionCopies, h]

theorem slotsInUse_zero (next resolved : List potential_sequence) :
    slotsInUse next resolved 0 = slotIds next := by
  simp [slotsInUse, slotIds]

theorem slotsInUse_succ (q r : potential_sequence) (next resolved : List potential_sequence)
    (i : Nat) :
    slotsInUse (q :: next) (r :: resolved) (i + 1) = r.2.seq_id :: slotsInUse next resolved i := by
  simp [slotsInUse, slotIds]

theorem slotIds_cons (q : potential_sequence) (l : List potential_sequence) :
    slotIds (q :: l) = q.2.seq_id :: slotIds l := rfl

/-- What the collision loop computes, for the slots `pre` bound before it reaches the
list `l`. -/
theorem resolveCollisions_spec (n : Nat) (size : Int) :
    ∀ (l : List potential_sequence) (pre : List Nat) (c : List Nat) (ctx : List Event),
      c.length = n →
      (∀ j, j < n → c.getD j 0 = (pre ++ slotIds l).count j) →
      (∀ x ∈ pre ++ slotIds l, x < n) →
      (pre ++ slotIds l).length ≤ n →
      (∀ y ∈ pre, (pre ++ slotIds l).count y = 1) →
      ∃ r, resolveCollisions n size l c ctx = (some r, collisionCopies size l r ++ ctx) ∧
        r.length = l.length ∧
        (pre ++ slotIds r).Nodup ∧ (∀ x ∈ slotIds r, x < n) ∧
        (∀ x ∈ slotIds l, ∃ i, i < l.length ∧
          (l.getD i potential_sequence_zero).2.seq_id = x ∧
          (r.getD i potential_sequence_zero).2.seq_id = x) ∧
        (∀ i, i < l.length →
          (r.getD i potential_sequence_zero).1 = (l.getD i potential_sequence_zero).1 ∧
          (r.getD i potential_sequence_zero).2.tokens =
            (l.getD i potential_sequence_zero).2.tokens ∧
          ((r.getD i potential_sequence_zero).2.seq_id ≠
              (l.getD i potential_sequence_zero).2.seq_id →
            1 < (slotIds (l.drop i)).count (l.getD i potential_sequence_zero).2.seq_id ∧
            (r.getD i potential_sequence_zero).2.seq_id ∉ pre ++ slotsInUse l r i ∧
            ∀ j, j < (r.getD i potential_sequence_zero).2.seq_id →
              j ∈ pre ++ slotsInUse l r i)) := by
  intro l
  induction l with
  | nil =>
    intro pre c ctx _ _ _ _ h5
    refine ⟨[], by simp [resolveCollisions, collisionCopies], rfl, ?_, by simp [slotIds],
      by simp [slotIds], by simp⟩
    simp only [slotIds, List.map_nil, List.append_nil] at h5 ⊢
    exact List.nodup_iff_count_eq_one.mpr h5
  | cons q rest ih =>
    intro pre c ctx h1 h2 h3 h4 h5
    have hq : q.2.seq_id < n := h3 _ (by simp [slotIds_cons])
    have hcq := h2 _ hq
    rw [slotIds_cons] at h2 h3 h4 h5 hcq
    unfold resolveCollisions
    by_cases hgt : 1 < c.getD q.2.seq_id 0
    · rw [if_pos hgt]
      simp only
      -- the old slot is not among the slots bound before
      have hold : q.2.seq_id ∉ pre := by
        intro hmem
        have := h5 _ hmem
        omega
      obtain ⟨j0, hj0, hj0c⟩ := exists_unused_slot n (pre ++ q.2.seq_id :: slotIds rest) h4
        q.2.seq_id (by omega)
      cases hfind : (List.range n).find? (fun i => c.getD i 0 == 0) with
      | none =>
        have := find_range_none _ n hfind j0 hj0
        simp only [beq_eq_false_iff_ne, ne_eq] at this
        rw [h2 j0 hj0] at this
        exact absurd hj0c this
      | some new =>
        obtain ⟨hnew, hnew0, hbelow⟩ := find_range_some _ n new hfind
        simp only [beq_iff_eq] at hnew0
        have hnewc : (pre ++ q.2.seq_id :: slotIds rest).count new = 0 := by
          rw [← h2 new hnew]; exact hnew0
        have hnewmem : new ∉ pre ++ q.2.seq_id :: slotIds rest := List.count_eq_zero.mp hnewc
        have hne : new ≠ q.2.seq_id := by
          intro h; apply hnewmem; rw [h]; simp
        simp only
        obtain ⟨r, hr, hlen, hnd, hlt, hE, hI⟩ := ih (pre ++ [new])
          ((c.set q.2.seq_id (c.getD q.2.seq_id 0 - 1)).set new
            ((c.set q.2.seq_id (c.getD q.2.seq_id 0 - 1)).getD new 0 + 1))
          (Event.kv_cache_seq_cp q.2.seq_id new 0 (size + ((q.2.tokens.length : Int) - 1)) :: ctx)
          (by simp [h1])
          (by
            intro j hj
            rw [getD_set_nat, getD_set_nat, getD_set_nat, h2 j hj, h2 new hnew, hnewc]
            simp only [List.length_set, h1, hnew, hq, and_true, List.count_append,
              List.count_cons, List.count_nil, beq_iff_eq]
            by_cases hjn : j = new
            · subst hjn
              have : ¬ (j = q.2.seq_id) := hne
              simp only [List.count_append, List.count_cons, beq_iff_eq] at hnewc
              simp [this]
              omega
            · by_cases hjo : j = q.2.seq_id
              · rw [hjo] at hjn ⊢
                have hb1 : ¬ (new = q.2.seq_id) := fun h => hjn h.symm
                have hcq1 := hcq
                simp only [List.count_append, List.count_cons, beq_iff_eq] at hcq1
                simp only [if_true, List.getD_eq_getElem?_getD] at hcq1 hgt
                simp [hjn, hb1]
                omega
              · have hb1 : ¬ (new = j) := fun h => hjn h.symm
                have hb2 : ¬ (q.2.seq_id = j) := fun h => hjo h.symm
                simp [hjn, hjo, hb1, hb2])
          (by
            intro x hx
            simp only [List.append_assoc, List.singleton_append, List.mem_append,
              List.mem_cons] at hx
            rcases hx with hx | hx | hx
            · exact h3 x (by simp [hx])
            · rw [hx]; exact hnew
            · exact h3 x (by simp [hx]))
          (by simpa using h4)
          (by
            intro y hy
            simp only [List.mem_append, List.mem_singleton] at hy
            rcases hy with hy | hy
            · have hy1 := h5 y hy
              have hyo : y ≠ q.2.seq_id := by
                intro h
                rw [h, ← hcq] at hy1
                omega
              have hyn : y ≠ new := by
                intro h
                rw [h, hnewc] at hy1
                omega
              simp only [List.count_append, List.count_cons, List.count_nil, beq_iff_eq] at hy1 ⊢
              have hb1 : ¬ (new = y) := fun h => hyn h.symm
              have hb2 : ¬ (q.2.seq_id = y) := fun h => hyo h.symm
              simp [hb1, hb2] at hy1 ⊢
              omega
            · subst hy
              simp only [List.count_append, List.count_cons, List.count_nil, beq_iff_eq] at hnewc ⊢
              simp at hnewc ⊢
              omega)
        rw [hr]
        simp only
        refine ⟨(q.1, { tokens := q.2.tokens, seq_id := new }) :: r, ?_, by simp [hlen], ?_, ?_,
          ?_, ?_⟩
        · rw [collisionCopies_cons_rebound size q _ rest r (fun h => hne h.symm)]
          simp
        · rw [slotIds_cons]
          simpa using hnd
        · intro x hx
          rw [slotIds_cons] at hx
          rcases List.mem_cons.mp hx with hx | hx
          · rw [hx]; exact hnew
          · exact hlt x hx
        · intro x hx
          rw [slotIds_cons] at hx
          by_cases hxr : x ∈ slotIds rest
          · obtain ⟨i, hi, hi1, hi2⟩ := hE x hxr
            exact ⟨i + 1, by simp; omega, by simpa using hi1, by simpa using hi2⟩
          · exfalso
            rcases List.mem_cons.mp hx with hx | hx
            · subst hx
              rw [hcq] at hgt
              simp only [List.count_append, List.count_cons, beq_iff_eq] at hgt
              have ha := List.count_eq_zero.mpr hold
              have hb := List.count_eq_zero.mpr hxr
              simp at hgt
              omega
            · exact hxr hx
        · intro i hi
          cases i with
          | zero =>
            simp only [List.getD_cons_zero, List.drop_zero, slotsInUse_zero, slotIds_cons]
            refine ⟨trivial, trivial, fun _ => ⟨?_, hnewmem, ?_⟩⟩
            · rw [hcq] at hgt
              simp only [List.count_append] at hgt
              have ha := List.count_eq_zero.mpr hold
              omega
            · intro j hj
              have hjn := hbelow j hj
              simp only [beq_eq_false_iff_ne, ne_eq] at hjn
              rw [h2 j (by omega)] at hjn
              by_contra hmem
              exact hjn (List.count_eq_zero.mpr hmem)
          | succ i =>
            have := hI i (by simpa using hi)
            simp only [List.getD_cons_succ, List.drop_succ_cons, slotsInUse_succ]
            simpa using this
    · rw [if_neg hgt]
      have hc1 : (pre ++ q.2.seq_id :: slotIds rest).count q.2.seq_id = 1 := by
        have : 0 < (pre ++ q.2.seq_id :: slotIds rest).count q.2.seq_id :=
          List.count_pos_iff.mpr (by simp)
        omega
      obtain ⟨r, hr, hlen, hnd, hlt, hE, hI⟩ := ih (pre ++ [q.2.seq_id]) c ctx h1
        (by intro j hj; rw [h2 j hj]; simp)
        (by intro x hx; exact h3 x (by simpa using hx))
        (by simpa using h4)
        (by
          intro y hy
          simp only [List.mem_append, List.mem_singleton] at hy
          rcases hy with hy | hy
          · simpa using h5 y hy
          · subst hy; simpa using hc1)
      rw [hr]
      simp only
      refine ⟨q :: r, ?_, by simp [hlen], ?_, ?_, ?_, ?_⟩
      · rw [collisionCopies_cons_same size q q rest r rfl]
      · rw [slotIds_cons]
        simpa using hnd
      · intro x hx
        rw [slotIds_cons] at hx
        rcases List.mem_cons.mp hx with hx | hx
        · rw [hx]; exact hq
        · exact hlt x hx
      · intro x hx
        rw [slotIds_cons] at hx
        rcases List.mem_cons.mp hx with hx | hx
        · exact ⟨0, by simp, by simp [hx], by simp [hx]⟩
        · obtain ⟨i, hi, hi1, hi2⟩ := hE x hx
          exact ⟨i + 1, by simp; omega, by simpa using hi1, by simpa using hi2⟩
      · intro i hi
        cases i with
        | zero =>
          simp only [List.getD_cons_zero]
          exact ⟨trivial, trivial, fun h => absurd rfl h⟩
        | succ i =>
          have := hI i (by simpa using hi)
          simp only [List.getD_cons_succ, List.drop_succ_cons, slotsInUse_succ]
          simpa using this

theorem stepNext_slots {model : LanguageModel} {sp : SpecialTokens} {dr : DecodeResult}
    {n : Nat} {s : SampleState} (ctx1 : List Event)
    (hlen : s.sequences.length + s.outputs.length = n)
    (hslots : ∀ x ∈ slotIds s.sequences, x < n) :
    ∀ x ∈ slotIds (stepNext model sp dr n s ctx1), x < n := by
  intro x hx
  obtain ⟨c, hc, hcx⟩ := List.mem_map.mp hx
  obtain ⟨parent, hp, _, _, _, _, _, _, _, _, hslot⟩ := stepNext_mem hlen hc
  rw [← hcx, hslot]
  exact hslots _ (List.mem_map.mpr ⟨parent, (stepLive_subset model sp s parent hp).1, rfl⟩)

/-- A pass that finds a live hypothesis runs to its end: the collision loop finds a free
slot whenever it needs one.  The new state is described relative to `next_sequences`. -/
theorem sampleStep_of_live {model : LanguageModel} {sp : SpecialTokens} {dr : DecodeResult}
    {n : Nat} {s : SampleState}
    (hlen : s.sequences.length + s.outputs.length = n)
    (hslots : ∀ x ∈ slotIds s.sequences, x < n)
    (hlive : stepLive model sp s ≠ []) :
    ∃ s1, sampleStep model sp dr n s = StepOutcome.proceed s1 ∧
      s1.outputs = stepOutputs model sp s ∧
      s1.ctx = collisionCopies dr.size (stepNext model sp dr n s (stepCtx model sp dr n s))
        s1.sequences ++ stepExpandedCtx model sp dr n s ∧
      s1.sequences.length = (stepNext model sp dr n s (stepCtx model sp dr n s)).length ∧
      (slotIds s1.sequences).Nodup ∧ (∀ x ∈ slotIds s1.sequences, x < n) ∧
      (∀ x ∈ slotIds (stepNext model sp dr n s (stepCtx model sp dr n s)), ∃ i,
        i < (stepNext model sp dr n s (stepCtx model sp dr n s)).length ∧
        ((stepNext model sp dr n s (stepCtx model sp dr n s)).getD i
          potential_sequence_zero).2.seq_id = x ∧
        (s1.sequences.getD i potential_sequence_zero).2.seq_id = x) ∧
      (∀ i, i < (stepNext model sp dr n s (stepCtx model sp dr n s)).length →
        (s1.sequences.getD i potential_sequence_zero).1 =
          ((stepNext model sp dr n s (stepCtx model sp dr n s)).getD i
            potential_sequence_zero).1 ∧
        (s1.sequences.getD i potential_sequence_zero).2.tokens =
          ((stepNext model sp dr n s (stepCtx model sp dr n s)).getD i
            potential_sequence_zero).2.tokens ∧
        ((s1.sequences.getD i potential_sequence_zero).2.seq_id ≠
            ((stepNext model sp dr n s (stepCtx model sp dr n s)).getD i
              potential_sequence_zero).2.seq_id →
          1 < (slotIds ((stepNext model sp dr n s (stepCtx model sp dr n s)).drop i)).count
            ((stepNext model sp dr n s (stepCtx model sp dr n s)).getD i
              potential_sequence_zero).2.seq_id ∧
          (s1.sequences.getD i potential_sequence_zero).2.seq_id ∉
            slotsInUse (stepNext model sp dr n s (stepCtx model sp dr n s)) s1.sequences i ∧
          ∀ j, j < (s1.sequences.getD i potential_sequence_zero).2.seq_id →
            j ∈ slotsInUse (stepNext model sp dr n s (stepCtx model sp dr n s))
              s1.sequences i)) := by
  have hnext := @stepNext_slots model sp dr n s (stepCtx model sp dr n s) hlen hslots
  obtain ⟨hc1, hc2⟩ := countSeqIds_spec n _ hnext
  obtain ⟨r, hr, hrlen, hnd, hlt, hE, hI⟩ := resolveCollisions_spec n dr.size
    (stepNext model sp dr n s (stepCtx model sp dr n s)) []
    (countSeqIds n (stepNext model sp dr n s (stepCtx model sp dr n s)))
    (stepExpandedCtx model sp dr n s) hc1
    (by intro j hj; rw [hc2 j hj]; simp)
    (by simpa using hnext)
    (by simp only [List.nil_append, slotIds, List.length_map]; rw [stepNext_length]; omega)
    (by simp)
  have hb : ¬ (stepBatch dr (stepLive model sp s)).length = 0 := by
    simpa [stepBatch] using hlive
  refine ⟨{ sequences := r, outputs := stepOutputs model sp s,
            ctx := collisionCopies dr.size (stepNext model sp dr n s (stepCtx model sp dr n s))
              r ++ stepExpandedCtx model sp dr n s }, ?_, rfl, rfl, hrlen, by simpa using hnd,
    hlt, hE, ?_⟩
  · unfold sampleStep
    simp only [if_neg hb]
    have hr1 : resolveCollisions n dr.size
        (stepNext model sp dr n s
          (Event.decode (stepBatch dr (stepLive model sp s)) ::
            assertBatch (stepBatch dr (stepLive model sp s)).length
              (n - (stepOutputs model sp s).length) s.ctx))
        (countSeqIds n (stepNext model sp dr n s
          (Event.decode (stepBatch dr (stepLive model sp s)) ::
            assertBatch (stepBatch dr (stepLive model sp s)).length
              (n - (stepOutputs model sp s).length) s.ctx)))
        (expandAll model sp (decide (dr.logits_head = 0)) (stepLive model sp s)
          (n - (stepOutputs model sp s).length)
          (Event.decode (stepBatch dr (stepLive model sp s)) ::
            assertBatch (stepBatch dr (stepLive model sp s)).length
              (n - (stepOutputs model sp s).length) s.ctx)).2 = _ := hr
    rw [hr1]
  · intro i hi
    simpa using hI i hi

theorem slotIds_sampleInit (model : LanguageModel) (sp : SpecialTokens) (ctx : List Event)
    (dr : DecodeResult) (n : Nat) :
    slotIds (sampleInit model sp ctx dr n).sequences = List.range n := by
  simp only [slotIds, sampleInit, List.map_map]
  exact List.map_id _

/-- Every hypothesis at the head of a pass is bound to a slot below `n_results`. -/
theorem sampleStateAt_slots {model : LanguageModel} {sp : SpecialTokens}
    {ctx : List Event} {dr : DecodeResult} {n : Nat} :
    ∀ tok s, sampleStateAt model sp ctx dr n tok = some s →
      ∀ x ∈ slotIds s.sequences, x < n := by
  apply sampleStateAt_induction (fun _ s => ∀ x ∈ slotIds s.sequences, x < n)
  · intro x hx
    rw [slotIds_sampleInit] at hx
    exact List.mem_range.mp hx
  · intro k s s1 hs hP hst
    obtain ⟨_, hlive, _⟩ := sampleStep_proceed hst
    obtain ⟨s2, hs2, _, _, _, _, hlt, _⟩ :=
      @sampleStep_of_live model sp dr n s (sampleStateAt_length k s hs) hP hlive
    rw [hst] at hs2
    simp only [StepOutcome.proceed.injEq] at hs2
    rw [hs2]
    exact hlt

theorem sampleStep_of_empty {model : LanguageModel} {sp : SpecialTokens} {dr : DecodeResult}
    {n : Nat} {s : SampleState} (hlive : stepLive model sp s = []) :
    ∃ s1, sampleStep model sp dr n s = StepOutcome.stop s1 := by
  unfold sampleStep
  have hb : (stepBatch dr (stepLive model sp s)).length = 0 := by simp [stepBatch, hlive]
  simp only [if_pos hb]
  exact ⟨_, rfl⟩

/-- The loop of `Sample` is never left through `return {}`. -/
theorem sampleLoop_never_fails (model : LanguageModel) (sp : SpecialTokens) (dr : DecodeResult)
    (n : Nat) : ∀ (k : Nat) (s : SampleState),
      s.sequences.length + s.outputs.length = n → (∀ x ∈ slotIds s.sequences, x < n) →
        ∃ s1, sampleLoop model sp dr n k s = LoopExit.finished s1 := by
  intro k
  induction k with
  | zero => intro s _ _; exact ⟨s, rfl⟩
  | succ k ih =>
    intro s hlen hslots
    rw [sampleLoop]
    by_cases hlive : stepLive model sp s = []
    · obtain ⟨s1, hs1⟩ := @sampleStep_of_empty model sp dr n s hlive
      rw [hs1]
      exact ⟨s1, rfl⟩
    · obtain ⟨s1, hs1, _, _, _, _, hlt, _⟩ := @sampleStep_of_live model sp dr n s hlen hslots hlive
      rw [hs1]
      exact ih s1 (sampleStep_proceed_length hlen hs1) hlt

theorem sampleCleanup_eq (n : Nat) (ctx : List Event) :
    sampleCleanup n ctx =
      (((List.range n).filter (fun i => 1 ≤ i)).map
        (fun i => Event.kv_cache_seq_rm i 0 (-1))).reverse ++ ctx := by
  unfold sampleCleanup
  generalize (List.range n).filter (fun i => 1 ≤ i) = L
  induction L generalizing ctx with
  | nil => rfl
  | cons a L ih =>
    rw [List.foldl_cons, ih]
    simp

theorem evictedAfterLastWrite_removals (i : Nat) (L : List Nat) (ctx : List Event)
    (hi : i ∈ L) :
    evictedAfterLastWrite i (L.map (fun j => Event.kv_cache_seq_rm j 0 (-1)) ++ ctx) = true := by
  induction L with
  | nil => simp at hi
  | cons a L ih =>
    simp only [List.map_cons, List.cons_append, evictedAfterLastWrite, evictsSlot, writesSlot]
    by_cases ha : a = i
    · simp [ha]
    · have hmem : i ∈ L := by
        rcases List.mem_cons.mp hi with h | h
        · exact absurd h.symm ha
        · exact h
      simp [ha, ih hmem]

/-- After `Sample`, every slot `1..n_results-1` has been removed over its whole range
after the last write into it. -/
theorem Sample_cleanup (st : LanguageModelState) (model : LanguageModel) (dr : DecodeResult)
    (n : Nat) :
    (∃ s, sampleLoop model st.specialTokens dr n 10
        (sampleInit model st.specialTokens st.ctx dr n) = LoopExit.finished s ∧
      (st.Sample model dr n).2.ctx = sampleCleanup n s.ctx) ∧
    ∀ i, 1 ≤ i → i < n → evictedAfterLastWrite i (st.Sample model dr n).2.ctx = true := by
  obtain ⟨s, hs⟩ := sampleLoop_never_fails model st.specialTokens dr n 10
    (sampleInit model st.specialTokens st.ctx dr n)
    (by rw [sampleInit_sequences_length, sampleInit_outputs]; rfl)
    (by intro x hx; rw [slotIds_sampleInit] at hx; exact List.mem_range.mp hx)
  have hctx : (st.Sample model dr n).2.ctx = sampleCleanup n s.ctx := by
    unfold LanguageModelState.Sample
    rw [hs]
  refine ⟨⟨s, hs, hctx⟩, ?_⟩
  intro i h1 h2
  rw [hctx, sampleCleanup_eq, ← List.map_reverse]
  apply evictedAfterLastWrite_removals
  simp [h1, h2]

theorem sampleInit_adds {Q : Event → Prop} (hQ : LoopClosed Q) (model : LanguageModel)
    (sp : SpecialTokens) (ctx : List Event) (dr : DecodeResult) (n : Nat) :
    Extends Q 0 (sampleInit model sp ctx dr n).ctx ctx := by
  simp only [sampleInit]
  have h0 : Extends Q 0
      (Event.transform_logits dr.logits_head false (decide (dr.logits_head = 0)) :: ctx) ctx :=
    (Extends.refl Q 0 ctx).cons _ (hQ.1 _ _ _) rfl
  exact h0.trans (Extends.foldl_cons
    (fun s : potential_sequence => Event.kv_cache_seq_cp 0 s.2.seq_id 0 dr.size) _
    (fun _ _ => hQ.2.2.1 _ _ _ _) (fun _ _ => rfl) _)

theorem expandParent_fold_adds {Q : Event → Prop} (hQ : LoopClosed Q) (model : LanguageModel)
    (sp : SpecialTokens) (allow : Bool) (sequences : List potential_sequence) (rc : Nat)
    (L : List Nat) :
    ∀ acc : List potential_sequence × List Event,
      Extends Q 0 (L.foldl (expandParent model sp allow sequences rc) acc).2 acc.2 := by
  induction L with
  | nil => intro acc; exact Extends.refl _ 0 _
  | cons x L ih =>
    intro acc
    rw [List.foldl_cons]
    have h1 : Extends Q 0 (expandParent model sp allow sequences rc acc x).2 acc.2 :=
      (Extends.refl _ 0 acc.2).cons _ (hQ.1 _ _ _) rfl
    exact h1.trans (ih _)

theorem collisionCopies_adds {Q : Event → Prop} (hQ : LoopClosed Q) (size : Int)
    (next resolved : List potential_sequence) (ctx : List Event) :
    Extends Q 0 (collisionCopies size next resolved ++ ctx) ctx := by
  refine ⟨collisionCopies size next resolved, rfl, ?_, ?_⟩
  · intro e he
    unfold collisionCopies at he
    rw [List.mem_reverse, List.mem_filterMap] at he
    obtain ⟨p, _, hp⟩ := he
    split_ifs at hp
    simp only [Option.some.injEq] at hp
    rw [← hp]
    exact hQ.2.2.1 _ _ _ _
  · rw [Nat.le_zero, List.length_eq_zero, List.filter_eq_nil_iff]
    intro e he
    unfold collisionCopies at he
    rw [List.mem_reverse, List.mem_filterMap] at he
    obtain ⟨p, _, hp⟩ := he
    split_ifs at hp
    simp only [Option.some.injEq] at hp
    rw [← hp]
    simp [isDecode]

theorem assertBatch_adds {Q : Event → Prop} (hQ : LoopClosed Q) (a b : Nat)
    (ctx : List Event) : Extends Q 0 (assertBatch a b ctx) ctx := by
  unfold assertBatch
  split_ifs
  · exact Extends.refl _ 0 _
  · exact (Extends.refl _ 0 ctx).cons _ hQ.2.2.2 rfl

/-- The events of one pass that runs to its end. -/
theorem sampleStep_adds {Q : Event → Prop} (hQ : LoopClosed Q) {model : LanguageModel}
    {sp : SpecialTokens} {dr : DecodeResult} {n : Nat} {s : SampleState}
    (hlen : s.sequences.length + s.outputs.length = n)
    (hslots : ∀ x ∈ slotIds s.sequences, x < n) :
    Extends Q 1 (sampleStep model sp dr n s).ctx s.ctx := by
  by_cases hlive : stepLive model sp s = []
  · have hb : (stepBatch dr (stepLive model sp s)).length = 0 := by simp [stepBatch, hlive]
    unfold sampleStep
    simp only [if_pos hb]
    exact (assertBatch_adds hQ _ _ s.ctx).mono (by omega)
  · obtain ⟨s1, hs1, _, hctx, _⟩ := @sampleStep_of_live model sp dr n s hlen hslots hlive
    rw [hs1]
    simp only [StepOutcome.ctx]
    rw [hctx]
    have h1 := (assertBatch_adds hQ (stepBatch dr (stepLive model sp s)).length
      (n - (stepOutputs model sp s).length) s.ctx).cons_decode
      (Event.decode (stepBatch dr (stepLive model sp s))) (hQ.2.1 _)
    have h2 := h1.trans (expandParent_fold_adds hQ model sp (decide (dr.logits_head = 0))
      (stepLive model sp s) (n - (stepOutputs model sp s).length)
      (List.range (n - (stepOutputs model sp s).length)) ([], stepCtx model sp dr n s))
    exact h2.trans (collisionCopies_adds hQ dr.size _ _ _)

/-- The loop of `Sample` ends by `break` or after its last pass, in a state whose llama
context is the one of `sampleInit` with events of the loop in front. -/
theorem sampleLoop_adds {Q : Event → Prop} (hQ : LoopClosed Q) (model : LanguageModel)
    (sp : SpecialTokens) (dr : DecodeResult) (n : Nat) : ∀ (k : Nat) (s : SampleState),
      s.sequences.length + s.outputs.length = n → (∀ x ∈ slotIds s.sequences, x < n) →
        ∃ s1, sampleLoop model sp dr n k s = LoopExit.finished s1 ∧ Extends Q k s1.ctx s.ctx := by
  intro k
  induction k with
  | zero => intro s _ _; exact ⟨s, rfl, Extends.refl _ 0 _⟩
  | succ k ih =>
    intro s hlen hslots
    have hstep := @sampleStep_adds Q hQ model sp dr n s hlen hslots
    rw [sampleLoop]
    by_cases hlive : stepLive model sp s = []
    · obtain ⟨s1, hs1⟩ := @sampleStep_of_empty model sp dr n s hlive
      rw [hs1] at hstep ⊢
      exact ⟨s1, rfl, hstep.mono (by omega)⟩
    · obtain ⟨s1, hs1, _, _, _, _, hlt, _⟩ := @sampleStep_of_live model sp dr n s hlen hslots hlive
      rw [hs1] at hstep ⊢
      obtain ⟨s2, hs2, hext⟩ := ih s1 (sampleStep_proceed_length hlen hs1) hlt
      refine ⟨s2, hs2, ?_⟩
      have := hstep.trans hext
      rw [Nat.add_comm] at this
      exact this

theorem slotIds_getD (l : List potential_sequence) (i : Nat) :
    (slotIds l).getD i 0 = (l.getD i potential_sequence_zero).2.seq_id := by
  unfold slotIds
  exact List.getD_map l potential_sequence_zero (fun q : potential_sequence => q.2.seq_id)

theorem slot_index_unique {l : List potential_sequence} (hnd : (slotIds l).Nodup)
    {i j : Nat} (hi : i < l.length) (hj : j < l.length)
    (h : (l.getD i potential_sequence_zero).2.seq_id =
      (l.getD j potential_sequence_zero).2.seq_id) : i = j := by
  have hi1 : i < (slotIds l).length := by simpa [slotIds] using hi
  have hj1 : j < (slotIds l).length := by simpa [slotIds] using hj
  rw [← slotIds_getD, ← slotIds_getD, List.getD_eq_getElem _ _ hi1,
    List.getD_eq_getElem _ _ hj1] at h
  exact (hnd.getElem_inj_iff).mp h

/-! ## The mixes of `getSuggestions` -/

theorem keyAt_eq_getD_map (iv : List (ℚ × Nat)) (j : Nat) :
    keyAt iv j = (iv.map Prod.snd).getD j 0 := by
  unfold keyAt
  exact (List.getD_map iv (0, 0) Prod.snd).symm

theorem set_getD_self {α : Type} (l : List α) (d : α) :
    ∀ j : Nat, l.set j (l.getD j d) = l := by
  induction l with
  | nil => intro j; rfl
  | cons a l ih =>
    intro j
    cases j with
    | zero => rfl
    | succ j =>
      rw [List.getD_cons_succ, List.set_cons_succ, ih]

theorem markSymbol_letter {pInfo : ProximityInfo} {acc : SymbolLoopState} {j : Nat}
    (h : isLetterKey pInfo (keyAt acc.index_value j) = true) : markSymbol pInfo acc j = acc := by
  unfold isLetterKey keyAt at h
  unfold markSymbol
  simp only
  rcases Bool.or_eq_true_iff.mp h with h1 | h1
  · rw [if_pos h1]
  · by_cases h0 : isLowerLetter (keyChar pInfo (acc.index_value.getD j (0, 0)).2) = true
    · rw [if_pos h0]
    · rw [if_neg h0, if_pos h1]

theorem markSymbol_symbol {pInfo : ProximityInfo} {acc : SymbolLoopState} {j : Nat}
    (h : isLetterKey pInfo (keyAt acc.index_value j) = false) :
    markSymbol pInfo acc j =
      { index_value := acc.index_value.set j (-99999, keyAt acc.index_value j),
        needs_resorting := true, num_symbols := acc.num_symbols + 1 } := by
  unfold isLetterKey keyAt at h
  unfold markSymbol keyAt
  simp only
  obtain ⟨h1, h2⟩ := Bool.or_eq_false_iff.mp h
  rw [if_neg (by rw [h1]; simp), if_neg (by rw [h2]; simp)]

theorem markSymbol_keys (pInfo : ProximityInfo) (acc : SymbolLoopState) (j : Nat) :
    (markSymbol pInfo acc j).index_value.map Prod.snd = acc.index_value.map Prod.snd := by
  cases h : isLetterKey pInfo (keyAt acc.index_value j) with
  | true => rw [markSymbol_letter h]
  | false =>
    rw [markSymbol_symbol h]
    simp only [List.map_set]
    rw [keyAt_eq_getD_map]
    exact set_getD_self _ 0 j

theorem markSymbol_fold_keys (pInfo : ProximityInfo) (L : List Nat) :
    ∀ acc : SymbolLoopState,
      (L.foldl (markSymbol pInfo) acc).index_value.map Prod.snd =
        acc.index_value.map Prod.snd := by
  induction L with
  | nil => intro acc; rfl
  | cons j L ih => intro acc; rw [List.foldl_cons, ih, markSymbol_keys]

/-- The inner loop counts the ranks whose key is not a letter. -/
theorem markSymbol_fold_count (pInfo : ProximityInfo) (L : List Nat) :
    ∀ acc : SymbolLoopState,
      (L.foldl (markSymbol pInfo) acc).num_symbols =
        acc.num_symbols +
          (L.filter (fun j => !isLetterKey pInfo (keyAt acc.index_value j))).length := by
  induction L with
  | nil => intro acc; simp
  | cons j L ih =>
    intro acc
    rw [List.foldl_cons, ih]
    have hkeys : ∀ i, keyAt (markSymbol pInfo acc j).index_value i = keyAt acc.index_value i := by
      intro i
      rw [keyAt_eq_getD_map, keyAt_eq_getD_map, markSymbol_keys]
    simp only [hkeys]
    cases h : isLetterKey pInfo (keyAt acc.index_value j) with
    | true =>
      rw [markSymbol_letter h, List.filter_cons_of_neg (by simp [h])]
    | false =>
      rw [markSymbol_symbol h, List.filter_cons_of_pos (by simp [h]), List.length_cons]
      simp only
      omega

theorem filterMap_length_lt {α β : Type} (f : α → Option β) (l : List α) (a : α)
    (ha : a ∈ l) (hf : f a = none) : (l.filterMap f).length < l.length := by
  induction l with
  | nil => simp at ha
  | cons b l ih =>
    rcases List.mem_cons.mp ha with h | h
    · subst h
      rw [List.filterMap_cons_none hf, List.length_cons]
      exact Nat.lt_succ_of_le (List.length_filterMap_le f l)
    · have := ih h
      cases hb : f b with
      | none => rw [List.filterMap_cons_none hb, List.length_cons]; omega
      | some c => rw [List.filterMap_cons_some hb, List.length_cons, List.length_cons]; omega

/-- A touch point whose four highest-ranked keys are all non-alphabetic is skipped. -/
theorem pointMix_none_of_symbols (sp : SpecialTokens) (pInfo : ProximityInfo) (x y : Int)
    (h : ∀ j, j < NUM_TOKEN_MIX → isLetterKey pInfo (keyAt (rankedKeys pInfo x y) j) = false) :
    pointMix sp pInfo x y = none := by
  have hcount : ((List.range NUM_TOKEN_MIX).foldl (markSymbol pInfo)
      { index_value := rankedKeys pInfo x y, needs_resorting := false,
        num_symbols := 0 }).num_symbols = NUM_TOKEN_MIX := by
    rw [markSymbol_fold_count]
    simp only [Nat.zero_add]
    rw [List.filter_eq_self.mpr]
    · simp
    · intro j hj
      simp [h j (List.mem_range.mp hj)]
  have hsel : (selectKeys pInfo x y).num_symbols = NUM_TOKEN_MIX := by
    unfold selectKeys
    rw [show (100 : Nat) = 99 + 1 from rfl, symbolLoop]
    simp only [hcount, if_true]
  unfold pointMix
  simp only [hsel, if_true]

theorem markSymbol_good {pInfo : ProximityInfo} {acc : SymbolLoopState} (j : Nat)
    (h : GoodKeys pInfo acc.index_value) : GoodKeys pInfo (markSymbol pInfo acc j).index_value := by
  cases hk : isLetterKey pInfo (keyAt acc.index_value j) with
  | true => rw [markSymbol_letter hk]; exact h
  | false =>
    rw [markSymbol_symbol hk]
    intro e he
    rcases List.mem_or_eq_of_mem_set he with h1 | h1
    · exact h e h1
    · right; rw [h1]; exact hk

theorem markSymbol_fold_good {pInfo : ProximityInfo} (L : List Nat) :
    ∀ acc : SymbolLoopState, GoodKeys pInfo acc.index_value →
      GoodKeys pInfo (L.foldl (markSymbol pInfo) acc).index_value := by
  induction L with
  | nil => intro acc h; exact h
  | cons j L ih => intro acc h; rw [List.foldl_cons]; exact ih _ (markSymbol_good j h)

theorem markSymbol_unflagged {pInfo : ProximityInfo} {acc : SymbolLoopState} {j : Nat}
    (h : (markSymbol pInfo acc j).needs_resorting = false) : markSymbol pInfo acc j = acc := by
  cases hk : isLetterKey pInfo (keyAt acc.index_value j) with
  | true => exact markSymbol_letter hk
  | false => rw [markSymbol_symbol hk] at h; simp at h

theorem markSymbol_fold_unflagged {pInfo : ProximityInfo} (L : List Nat) :
    ∀ acc : SymbolLoopState, (L.foldl (markSymbol pInfo) acc).needs_resorting = false →
      L.foldl (markSymbol pInfo) acc = acc := by
  induction L with
  | nil => intro acc _; rfl
  | cons j L ih =>
    intro acc h
    rw [List.foldl_cons] at h ⊢
    have h1 := ih _ h
    rw [h1] at h ⊢
    exact markSymbol_unflagged h

/-- The symbol loop ends with `num_symbols == NUM_TOKEN_MIX`, or with a vector that is
ranked and in which every negative value belongs to a key that is not a letter. -/
theorem symbolLoop_ranked (pInfo : ProximityInfo) : ∀ (fuel : Nat) (acc : SymbolLoopState),
    acc.index_value.Pairwise (fun a b => b.1 ≤ a.1) → GoodKeys pInfo acc.index_value →
      (symbolLoop pInfo fuel acc).num_symbols = NUM_TOKEN_MIX ∨
        ((symbolLoop pInfo fuel acc).index_value.Pairwise (fun a b => b.1 ≤ a.1) ∧
          GoodKeys pInfo (symbolLoop pInfo fuel acc).index_value) := by
  intro fuel
  induction fuel with
  | zero => intro acc h1 h2; exact Or.inr ⟨h1, h2⟩
  | succ fuel ih =>
    intro acc h1 h2
    rw [symbolLoop]
    split_ifs with hn hf
    · exact Or.inl hn
    · right
      have hf1 : ((List.range NUM_TOKEN_MIX).foldl (markSymbol pInfo) acc).needs_resorting =
          false := by simpa using hf
      rw [markSymbol_fold_unflagged _ _ hf1]
      exact ⟨h1, h2⟩
    · apply ih
      · exact sortDescending_pairwise _ NUM_TOKEN_MIX
      · intro e he
        exact markSymbol_fold_good _ _ h2 e
          ((sortDescending_perm _ NUM_TOKEN_MIX).mem_iff.mp he)

theorem rankedKeys_good (pInfo : ProximityInfo) (x y : Int) :
    GoodKeys pInfo (rankedKeys pInfo x y) := by
  intro e he
  left
  unfold rankedKeys at he
  have he1 := (sortDescending_perm _ _).mem_iff.mp he
  obtain ⟨k, hk, hke⟩ := List.mem_map.mp he1
  rw [← hke]
  simp only
  have hk1 : k < ((pInfo.decomposeTapPosition x y).map
      (fun f => if f < 1 / 20 then 0 else f)).length := List.mem_range.mp hk
  have hmem := getD_mem_of_lt _ k (0 : ℚ) hk1
  obtain ⟨f, _, hf⟩ := List.mem_map.mp hmem
  rw [← hf]
  split_ifs with hlt
  · exact le_refl 0
  · have : (1 : ℚ) / 20 ≤ f := not_lt.mp hlt
    have h0 : (0 : ℚ) ≤ 1 / 20 := by norm_num
    exact le_trans h0 this

theorem rankedKeys_pairwise (pInfo : ProximityInfo) (x y : Int) :
    (rankedKeys pInfo x y).Pairwise (fun a b => b.1 ≤ a.1) := by
  unfold rankedKeys
  exact sortDescending_pairwise _ _

/-- The vector that the symbol loop leaves for a kept touch point. -/
theorem selectKeys_ranked (pInfo : ProximityInfo) (x y : Int)
    (hkept : (selectKeys pInfo x y).num_symbols ≠ NUM_TOKEN_MIX) :
    (selectKeys pInfo x y).index_value.Pairwise (fun a b => b.1 ≤ a.1) ∧
      GoodKeys pInfo (selectKeys pInfo x y).index_value := by
  unfold selectKeys at hkept ⊢
  rcases symbolLoop_ranked pInfo 100
    { index_value := rankedKeys pInfo x y, needs_resorting := false, num_symbols := 0 }
    (rankedKeys_pairwise pInfo x y) (rankedKeys_good pInfo x y) with h | h
  · exact absurd h hkept
  · exact h

theorem valueAt_nonneg {pInfo : ProximityInfo} {iv : List (ℚ × Nat)} (hg : GoodKeys pInfo iv)
    (j : Nat) (hl : isLetterKey pInfo (keyAt iv j) = true) : 0 ≤ valueAt iv j := by
  unfold valueAt
  unfold keyAt at hl
  by_cases hj : j < iv.length
  · rcases hg _ (getD_mem_of_lt iv j (0, 0) hj) with h | h
    · exact h
    · rw [h] at hl; exact absurd hl (by simp)
  · rw [List.getD_eq_default _ _ (Nat.le_of_not_lt hj)]

theorem valueAt_antitone {pInfo : ProximityInfo} {iv : List (ℚ × Nat)}
    (hs : iv.Pairwise (fun a b => b.1 ≤ a.1)) (hg : GoodKeys pInfo iv) (j k : Nat)
    (hjk : j < k) (hl : isLetterKey pInfo (keyAt iv j) = true) :
    valueAt iv k ≤ valueAt iv j := by
  by_cases hk : k < iv.length
  · unfold valueAt
    rw [List.getD_eq_getElem _ _ hk, List.getD_eq_getElem _ _ (lt_trans hjk hk)]
    exact List.pairwise_iff_getElem.mp hs j k (lt_trans hjk hk) hk hjk
  · have h0 : valueAt iv k = 0 := by
      unfold valueAt
      rw [List.getD_eq_default _ _ (Nat.le_of_not_lt hk)]
    rw [h0]
    exact valueAt_nonneg hg j hl

theorem letter_id_mem (sp : SpecialTokens) (h26 : sp.LETTERS_TO_IDS.length = 26) (c base : Int)
    (h1 : base ≤ c) (h2 : c ≤ base + 25) :
    sp.LETTERS_TO_IDS.getD (c - base).toNat 0 ∈ sp.LETTERS_TO_IDS := by
  apply getD_mem_of_lt
  rw [h26]
  omega

theorem mixEntry_letter (sp : SpecialTokens) (pInfo : ProximityInfo) (iv : List (ℚ × Nat))
    (j : Nat) (h26 : sp.LETTERS_TO_IDS.length = 26)
    (hl : isLetterKey pInfo (keyAt iv j) = true) :
    (mixEntry sp pInfo iv j).weight = valueAt iv j / totalSum iv ∧
      (mixEntry sp pInfo iv j).token ∈ sp.LETTERS_TO_IDS := by
  unfold isLetterKey keyAt at hl
  unfold mixEntry valueAt
  simp only
  by_cases h0 : isLowerLetter (keyChar pInfo (iv.getD j (0, 0)).2) = true
  · rw [if_pos h0]
    refine ⟨rfl, ?_⟩
    unfold isLowerLetter at h0
    simp only [Bool.and_eq_true, decide_eq_true_eq] at h0
    exact letter_id_mem sp h26 _ 97 h0.1 (by omega)
  · rw [if_neg h0]
    have h1 : isUpperLetter (keyChar pInfo (iv.getD j (0, 0)).2) = true := by
      rcases Bool.or_eq_true_iff.mp hl with h | h
      · exact absurd h h0
      · exact h
    rw [if_pos h1]
    refine ⟨rfl, ?_⟩
    unfold isUpperLetter at h1
    simp only [Bool.and_eq_true, decide_eq_true_eq] at h1
    exact letter_id_mem sp h26 _ 65 h1.1 (by omega)

theorem mixEntry_symbol (sp : SpecialTokens) (pInfo : ProximityInfo) (iv : List (ℚ × Nat))
    (j : Nat) (hl : isLetterKey pInfo (keyAt iv j) = false) :
    (mixEntry sp pInfo iv j).weight = 0 := by
  unfold isLetterKey keyAt at hl
  obtain ⟨h1, h2⟩ := Bool.or_eq_false_iff.mp hl
  unfold mixEntry
  simp only
  rw [if_neg (by rw [h1]; simp), if_neg (by rw [h2]; simp)]

theorem pointMix_some {sp : SpecialTokens} {pInfo : ProximityInfo} {x y : Int} {mix : TokenMix}
    (h : pointMix sp pInfo x y = some mix) :
    (selectKeys pInfo x y).num_symbols ≠ NUM_TOKEN_MIX ∧
      mix.mixes = [mixEntry sp pInfo (selectKeys pInfo x y).index_value 0,
        mixEntry sp pInfo (selectKeys pInfo x y).index_value 1,
        mixEntry sp pInfo (selectKeys pInfo x y).index_value 2,
        mixEntry sp pInfo (selectKeys pInfo x y).index_value 3] := by
  unfold pointMix at h
  simp only at h
  split_ifs at h with hn
  simp only [Option.some.injEq] at h
  refine ⟨hn, ?_⟩
  rw [← h]
  rfl

theorem totalSum_eq (iv : List (ℚ × Nat)) :
    totalSum iv = valueAt iv 0 + valueAt iv 1 + valueAt iv 2 + valueAt iv 3 := by
  unfold totalSum valueAt
  simp [NUM_TOKEN_MIX, List.range_succ]
  ring

/-! ## The prompt step of `DecodePromptAndMixes` -/

theorem commonPrefixLength_append (old tail : List Nat) :
    commonPrefixLength old (old ++ tail) = old.length := by
  induction old with
  | nil => cases tail <;> rfl
  | cons a old ih => simp [commonPrefixLength, ih]

theorem fastforward_of_prefix (old tail : List Nat) (flag : Bool) :
    transformer_context_fastforward old (old ++ tail) flag = (tail, old.length) := by
  unfold transformer_context_fastforward
  rw [commonPrefixLength_append]
  simp

theorem suffix_cons_right {l1 l2 : List Event} (a : Event) (h : List.IsSuffix l1 l2) :
    List.IsSuffix l1 (a :: l2) :=
  h.trans (List.suffix_cons a l2)

theorem decodeEmbeds_suffix {model : LanguageModel} {embeds : List ℚ} {prompt_size : Nat} :
    ∀ {L : List Nat} {ctx : List Event} {ok : Bool} {ctx4 : List Event},
      decodeEmbeds model embeds prompt_size L ctx = (ok, ctx4) → List.IsSuffix ctx ctx4 := by
  intro L
  induction L with
  | nil =>
    intro ctx ok ctx4 h
    simp only [decodeEmbeds, Prod.mk.injEq] at h
    rw [← h.2]
  | cons h L ih =>
    intro ctx ok ctx4 hd
    unfold decodeEmbeds at hd
    simp only at hd
    split_ifs at hd with hs
    · simp only [Prod.mk.injEq] at hd
      rw [← hd.2]
      exact List.suffix_cons _ _
    · exact (List.suffix_cons _ _).trans (ih hd)

theorem assert_fold_suffix {α : Type} (L : List α) :
    ∀ ctx : List Event,
      List.IsSuffix ctx (L.foldl (fun c _ => Event.assert_failed :: c) ctx) := by
  induction L with
  | nil => intro ctx; exact List.suffix_refl _
  | cons a L ih =>
    intro ctx
    rw [List.foldl_cons]
    exact (List.suffix_cons _ _).trans (ih _)

/-- The llama context that `DecodePromptAndMixes` leaves ends with the events of its prompt
step: when the fast-forward suffix is not empty, the removal of slot 0 from `n_past` on and
the forward pass over the prompt batch, on top of the context before the call. -/
theorem DecodePromptAndMixes_prompt_step (st : LanguageModelState) (model : LanguageModel)
    (prompt : List Nat) (mixes : List TokenMix)
    (hne : (model.transformer_context_fastforward st.active_context prompt
      (!mixes.isEmpty)).1 ≠ []) :
    List.IsSuffix
      (Event.decode (promptBatch (model.transformer_context_fastforward st.active_context
          prompt (!mixes.isEmpty)) mixes) ::
        Event.kv_cache_seq_rm 0
          (model.transformer_context_fastforward st.active_context prompt
            (!mixes.isEmpty)).2 (-1) :: st.ctx)
      (st.DecodePromptAndMixes model prompt mixes).2.ctx := by
  have hlen : 0 < (model.transformer_context_fastforward st.active_context prompt
      (!mixes.isEmpty)).1.length := List.length_pos.mpr hne
  have hA := fun ctx1 => assert_fold_suffix
    ((mixes.map (mixEmbedding model)).filter (fun e => e.2 = 0)) ctx1
  unfold LanguageModelState.DecodePromptAndMixes promptBatch ASSERT
  simp only [List.length_map, List.length_range, hlen, if_true, true_and]
  split_ifs
  all_goals first
    | exact List.suffix_refl _
    | exact suffix_cons_right _ (suffix_cons_right _ (hA _))
    | exact suffix_cons_right _ (suffix_cons_right _ (suffix_cons_right _ (hA _)))
    | exact suffix_cons_right _ (suffix_cons_right _ (suffix_cons_right _
        (suffix_cons_right _ (hA _))))
    | skip
  all_goals split
  all_goals rename_i ctx4 hdec
  all_goals have h4 := (hA _).trans ((List.suffix_cons _ _).trans (decodeEmbeds_suffix hdec))
  all_goals try split_ifs
  all_goals first
    | exact h4
    | exact suffix_cons_right _ h4
    | exact suffix_cons_right _ (suffix_cons_right _ h4)
    | exact suffix_cons_right _ (suffix_cons_right _ (suffix_cons_right _ h4))

theorem blendMix_length (model : LanguageModel) :
    ∀ (l : List TokenMixEntry) (acc : List ℚ × Nat), acc.1.length = model.n_embd →
      (blendMix model l acc).1.length = model.n_embd := by
  intro l
  induction l with
  | nil => intro acc h; exact h
  | cons t l ih =>
    intro acc h
    unfold blendMix
    split_ifs
    · exact h
    · exact ih _ (by simp)

theorem mixEmbedding_length (model : LanguageModel) (mix : TokenMix) :
    (mixEmbedding model mix).1.length = model.n_embd := by
  unfold mixEmbedding
  split_ifs
  · simp [encodeMix]
  · exact blendMix_length model _ _ (by simp)

theorem embeds_not_empty (model : LanguageModel) (mixes : List TokenMix) (hm : mixes ≠ [])
    (hembd : 0 < model.n_embd) :
    ((mixes.map (mixEmbedding model)).map (fun e => e.1)).flatten.isEmpty = false := by
  cases mixes with
  | nil => exact absurd rfl hm
  | cons m ms =>
    have h := mixEmbedding_length model m
    cases hm1 : (mixEmbedding model m).1 with
    | nil => rw [hm1] at h; simp at h; omega
    | cons a l => simp [hm1]

/-- C11: at every pass of the loop of `Sample` that finds a live hypothesis, the collision
loop runs to its end (it finds a free slot whenever it needs one), and afterwards: the slot
ids of the hypotheses are pairwise distinct and below `n_results`; for every slot that
`next_sequences` came with, exactly one of the hypotheses that came with it keeps it; every
hypothesis keeps its probability and tokens; a hypothesis whose slot changes shared its old
slot with another one and gets the lowest slot that is not in use at that moment; and the
llama context gains exactly one `llama_kv_cache_seq_cp` per such hypothesis, from the old
slot into the new one over the positions `[0, decodeResult.size + (tokens.size() - 1))`. -/
theorem Sample_collision_resolution (model : LanguageModel) (sp : SpecialTokens)
    (ctx : List Event) (dr : DecodeResult) (n tok : Nat) (s : SampleState)
    (hs : sampleStateAt model sp ctx dr n tok = some s) (hlive : stepLive model sp s ≠ []) :
    ∃ s1, sampleStep model sp dr n s = StepOutcome.proceed s1 ∧
      (slotIds s1.sequences).Nodup ∧ (∀ x ∈ slotIds s1.sequences, x < n) ∧
      s1.sequences.length = (stepNextSequences model sp dr n s).length ∧
      (∀ x ∈ slotIds (stepNextSequences model sp dr n s),
        ∃! i, i < (stepNextSequences model sp dr n s).length ∧
          ((stepNextSequences model sp dr n s).getD i potential_sequence_zero).2.seq_id = x ∧
          (s1.sequences.getD i potential_sequence_zero).2.seq_id = x) ∧
      (∀ i, i < (stepNextSequences model sp dr n s).length →
        (s1.sequences.getD i potential_sequence_zero).1 =
          ((stepNextSequences model sp dr n s).getD i potential_sequence_zero).1 ∧
        (s1.sequences.getD i potential_sequence_zero).2.tokens =
          ((stepNextSequences model sp dr n s).getD i potential_sequence_zero).2.tokens ∧
        ((s1.sequences.getD i potential_sequence_zero).2.seq_id ≠
            ((stepNextSequences model sp dr n s).getD i potential_sequence_zero).2.seq_id →
          1 < (slotIds (stepNextSequences model sp dr n s)).count
            ((stepNextSequences model sp dr n s).getD i potential_sequence_zero).2.seq_id ∧
          (s1.sequences.getD i potential_sequence_zero).2.seq_id ∉
            slotsInUse (stepNextSequences model sp dr n s) s1.sequences i ∧
          ∀ j, j < (s1.sequences.getD i potential_sequence_zero).2.seq_id →
            j ∈ slotsInUse (stepNextSequences model sp dr n s) s1.sequences i)) ∧
      s1.ctx = collisionCopies dr.size (stepNextSequences model sp dr n s) s1.sequences ++
        stepExpandedCtx model sp dr n s := by
  obtain ⟨s1, h1, _, hctx, hlen, hnd, hlt, hE, hI⟩ :=
    @sampleStep_of_live model sp dr n s (sampleStateAt_length tok s hs)
      (sampleStateAt_slots tok s hs) hlive
  refine ⟨s1, h1, hnd, hlt, hlen, ?_, ?_, hctx⟩
  · intro x hx
    obtain ⟨i, hi, hi1, hi2⟩ := hE x hx
    refine ⟨i, ⟨hi, hi1, hi2⟩, ?_⟩
    rintro j ⟨hj, _, hj2⟩
    exact slot_index_unique hnd (by rw [hlen]; exact hj) (by rw [hlen]; exact hi)
      (by rw [hj2, hi2])
  · intro i hi
    obtain ⟨a, b, c⟩ := hI i hi
    refine ⟨a, b, fun hne => ?_⟩
    obtain ⟨c1, c2, c3⟩ := c hne
    refine ⟨lt_of_lt_of_le c1 ?_, c2, c3⟩
    exact List.Sublist.count_le (List.Sublist.map _ (List.drop_sublist i _)) _

/-- C11 at the concrete input: in pass 0 the three kept children come with the slots
`1, 0, 0`; the first child of slot 0 moves to the free slot 2 and the other keeps slot 0. -/
theorem Sample_collision_resolution_witness :
    (sampleStateAt demoModelCollide demoTokens demoDecodedCollide.2.ctx demoDecodedCollide.1
        3 0 = some demoInitCollide ∧
      stepLive demoModelCollide demoTokens demoInitCollide ≠ []) ∧
      slotIds (stepNextSequences demoModelCollide demoTokens demoDecodedCollide.1 3
        demoInitCollide) = [1, 0, 0] ∧
      ∃ s1, sampleStep demoModelCollide demoTokens demoDecodedCollide.1 3 demoInitCollide =
          StepOutcome.proceed s1 ∧ (slotIds s1.sequences).Nodup ∧
        ∀ x ∈ slotIds s1.sequences, x < 3 :=
  ⟨⟨rfl, by decide!⟩, by decide!,
    (Sample_collision_resolution demoModelCollide demoTokens demoDecodedCollide.2.ctx
      demoDecodedCollide.1 3 0 demoInitCollide rfl (by decide!)).imp
      (fun _ h => ⟨h.1, h.2.1, h.2.2.1⟩)⟩

/-- C12, counterexample: in the concrete call of `Sample` for three results the initial
hypotheses are bound to the slots `0, 1, 2` in rank order, so the top-ranked hypothesis
`[35]` is bound to slot 0, and the batch of pass 0 evaluates its generated token `35` at
position 2 in slot 0.  The three initial probabilities are distinct. -/
theorem Sample_binds_hypothesis_to_slot_zero :
    demoInitCollide.sequences.map (fun q => (q.2.tokens, q.2.seq_id)) =
        [([35], 0), ([36], 1), ([37], 2)] ∧
      (demoInitCollide.sequences.map (fun q => q.1)).Pairwise (fun a b => a > b) ∧
      stepBatch demoDecodedCollide.1 (stepLive demoModelCollide demoTokens demoInitCollide) =
        [{ token := 35, pos := 2, seq_id := 0, logits := true },
          { token := 36, pos := 2, seq_id := 1, logits := true },
          { token := 37, pos := 2, seq_id := 2, logits := true }] := by
  decide!

/-- C12, amended: during `Sample` the hypotheses use the slots `0..n_results-1`, slot 0
included.  The initial hypotheses are bound to the slots `0, 1, .., n_results-1` in rank
order, so the top-ranked one is bound to slot 0; at the head of every pass every
hypothesis is bound to a slot below `n_results`; and the batch of the pass evaluates the
newest token of every live hypothesis in the slot of that hypothesis. -/
theorem Sample_slots_below_n_results (model : LanguageModel) (sp : SpecialTokens)
    (ctx : List Event) (dr : DecodeResult) (n : Nat) :
    slotIds (sampleInit model sp ctx dr n).sequences = List.range n ∧
      ∀ tok s, sampleStateAt model sp ctx dr n tok = some s →
        (∀ x ∈ slotIds s.sequences, x < n) ∧
        (stepBatch dr (stepLive model sp s)).map (fun b => b.seq_id) =
          slotIds (stepLive model sp s) := by
  refine ⟨slotIds_sampleInit model sp ctx dr n, fun tok s hs =>
    ⟨sampleStateAt_slots tok s hs, ?_⟩⟩
  simp only [stepBatch, slotIds, List.map_map]
  rfl

/-- C13: `Sample` never returns through the `return {}` of its collision loop: its loop
ends by `break` or after the tenth pass, and the llama context it leaves is the one of the
end of the loop followed by the cleanup.  In that context every slot `1..n_results-1` has
been removed over its whole position range (`llama_kv_cache_seq_rm(ctx, i, 0, -1)`) after
the last forward pass or copy that wrote into it. -/
theorem Sample_evicts_scratch_slots (st : LanguageModelState) (model : LanguageModel)
    (dr : DecodeResult) (n : Nat) :
    (∃ s, sampleLoop model st.specialTokens dr n 10
        (sampleInit model st.specialTokens st.ctx dr n) = LoopExit.finished s ∧
      (st.Sample model dr n).2.ctx =
        (((List.range n).filter (fun i => 1 ≤ i)).map
          (fun i => Event.kv_cache_seq_rm i 0 (-1))).reverse ++ s.ctx) ∧
    ∀ i, 1 ≤ i → i < n → evictedAfterLastWrite i (st.Sample model dr n).2.ctx = true := by
  obtain ⟨⟨s, hs, hctx⟩, h2⟩ := Sample_cleanup st model dr n
  exact ⟨⟨s, hs, by rw [hctx, sampleCleanup_eq]⟩, h2⟩

/-- C14: `getSuggestions` never builds more mixes than it processes touch points, and a
processed touch point whose four highest-ranked keys (after the proportions below `0.05`
are set to zero) are all non-alphabetic adds no `TokenMix`, so that the number of mixes is
then strictly less than the number of processed touch points. -/
theorem getSuggestions_skips_symbol_points (sp : SpecialTokens) (pInfo : ProximityInfo)
    (partialWord : List Char) (inComposeX inComposeY : List Int) :
    (getSuggestionsMixes sp pInfo partialWord inComposeX inComposeY).length ≤
        inputSize partialWord inComposeX ∧
      ∀ i, i < inputSize partialWord inComposeX →
        (∀ j, j < NUM_TOKEN_MIX → isLetterKey pInfo
          (keyAt (rankedKeys pInfo (inComposeX.getD i 0) (inComposeY.getD i 0)) j) = false) →
        pointMix sp pInfo (inComposeX.getD i 0) (inComposeY.getD i 0) = none ∧
          (getSuggestionsMixes sp pInfo partialWord inComposeX inComposeY).length <
            inputSize partialWord inComposeX := by
  constructor
  · unfold getSuggestionsMixes
    exact le_trans (List.length_filterMap_le _ _) (by simp)
  · intro i hi hsym
    have hnone := pointMix_none_of_symbols sp pInfo _ _ hsym
    refine ⟨hnone, ?_⟩
    unfold getSuggestionsMixes
    have := filterMap_length_lt
      (fun i => pointMix sp pInfo (inComposeX.getD i 0) (inComposeY.getD i 0))
      (List.range (inputSize partialWord inComposeX)) i (List.mem_range.mpr hi) hnone
    simpa using this

/-- C14 at the concrete input: of the two processed taps of the word `"a,"`, the second
lies on the symbols `, . ; /` and is skipped; one mix is built. -/
theorem getSuggestions_skips_symbol_points_witness :
    (1 < inputSize ['a', ','] [30, 20] ∧
      ∀ j, j < NUM_TOKEN_MIX → isLetterKey demoKeyboard
        (keyAt (rankedKeys demoKeyboard (([30, 20] : List Int).getD 1 0)
          (([10, 10] : List Int).getD 1 0)) j) = false) ∧
      (getSuggestionsMixes demoTokens demoKeyboard ['a', ','] [30, 20] [10, 10]).length <
        inputSize ['a', ','] [30, 20] :=
  ⟨⟨by decide, by decide!⟩,
    ((getSuggestions_skips_symbol_points demoTokens demoKeyboard ['a', ','] [30, 20]
      [10, 10]).2 1 (by decide) (by decide!)).2⟩

/-- C15, counterexample: on the keyboard of 26 letter keys every proportion of the tap is
`1/26`, below the threshold, so all are set to zero.  No key is a symbol, the touch point
is kept, `total_sum` is `0`, and the four weights, each a zero divided by `total_sum`, do
not sum to 1. -/
theorem getSuggestions_mix_of_zero_total :
    (∀ f ∈ demoLetterKeyboard.decomposeTapPosition 10 10, 0 ≤ f) ∧
      (selectKeys demoLetterKeyboard 10 10).num_symbols = 0 ∧
      totalSum (selectKeys demoLetterKeyboard 10 10).index_value = 0 ∧
      (pointMix demoTokens demoLetterKeyboard 10 10).map
        (fun mix => decide ((mix.mixes.map (fun t => t.weight)).sum = 1)) = some false := by
  decide!

/-- C15, amended: for every touch point that is kept, a slot whose key is not a letter has
weight 0 and every slot with a non-zero weight holds a per-letter token id.  When the four
selected keys (the first four of `index_value` after the symbol loop) are all letters,
every slot holds a per-letter token id, and if moreover `total_sum` is not zero, the four
weights are non-negative, non-increasing in slot order and sum to 1. -/
theorem getSuggestions_mix_weights (sp : SpecialTokens) (pInfo : ProximityInfo) (x y : Int)
    (mix : TokenMix) (h26 : sp.LETTERS_TO_IDS.length = 26)
    (hkept : pointMix sp pInfo x y = some mix) :
    mix.mixes.length = NUM_TOKEN_MIX ∧
      (∀ j, j < NUM_TOKEN_MIX →
        (isLetterKey pInfo (keyAt (selectKeys pInfo x y).index_value j) = false →
          (mix.mixes.getD j { weight := 0, token := 0 }).weight = 0) ∧
        ((mix.mixes.getD j { weight := 0, token := 0 }).weight ≠ 0 →
          (mix.mixes.getD j { weight := 0, token := 0 }).token ∈ sp.LETTERS_TO_IDS)) ∧
      ((∀ j, j < NUM_TOKEN_MIX →
          isLetterKey pInfo (keyAt (selectKeys pInfo x y).index_value j) = true) →
        (∀ t ∈ mix.mixes, t.token ∈ sp.LETTERS_TO_IDS) ∧
        (totalSum (selectKeys pInfo x y).index_value ≠ 0 →
          (∀ t ∈ mix.mixes, 0 ≤ t.weight) ∧
          (mix.mixes.map (fun t => t.weight)).Pairwise (fun a b => b ≤ a) ∧
          (mix.mixes.map (fun t => t.weight)).sum = 1)) := by
  obtain ⟨hn, hmix⟩ := pointMix_some hkept
  obtain ⟨hsorted, hgood⟩ := selectKeys_ranked pInfo x y hn
  have hentry : ∀ j, j < NUM_TOKEN_MIX → mix.mixes.getD j { weight := 0, token := 0 } =
      mixEntry sp pInfo (selectKeys pInfo x y).index_value j := by
    intro j hj
    rw [hmix]
    unfold NUM_TOKEN_MIX at hj
    interval_cases j <;> rfl
  refine ⟨by rw [hmix]; rfl, ?_, ?_⟩
  · intro j hj
    rw [hentry j hj]
    refine ⟨fun hsym => mixEntry_symbol sp pInfo _ j hsym, fun hw => ?_⟩
    cases hl : isLetterKey pInfo (keyAt (selectKeys pInfo x y).index_value j) with
    | true => exact (mixEntry_letter sp pInfo _ j h26 hl).2
    | false => exact absurd (mixEntry_symbol sp pInfo _ j hl) hw
  · intro hall
    have e0 := mixEntry_letter sp pInfo _ 0 h26 (hall 0 (by decide))
    have e1 := mixEntry_letter sp pInfo _ 1 h26 (hall 1 (by decide))
    have e2 := mixEntry_letter sp pInfo _ 2 h26 (hall 2 (by decide))
    have e3 := mixEntry_letter sp pInfo _ 3 h26 (hall 3 (by decide))
    have v0 := valueAt_nonneg hgood 0 (hall 0 (by decide))
    have v1 := valueAt_nonneg hgood 1 (hall 1 (by decide))
    have v2 := valueAt_nonneg hgood 2 (hall 2 (by decide))
    have v3 := valueAt_nonneg hgood 3 (hall 3 (by decide))
    have a01 := valueAt_antitone hsorted hgood 0 1 (by decide) (hall 0 (by decide))
    have a12 := valueAt_antitone hsorted hgood 1 2 (by decide) (hall 1 (by decide))
    have a23 := valueAt_antitone hsorted hgood 2 3 (by decide) (hall 2 (by decide))
    have ht := totalSum_eq (selectKeys pInfo x y).index_value
    have htot : 0 ≤ totalSum (selectKeys pInfo x y).index_value := by rw [ht]; positivity
    have d01 := div_le_div_of_nonneg_right a01 htot
    have d12 := div_le_div_of_nonneg_right a12 htot
    have d23 := div_le_div_of_nonneg_right a23 htot
    rw [hmix]
    refine ⟨?_, fun hne => ⟨?_, ?_, ?_⟩⟩
    · intro t ht1
      simp only [List.mem_cons, List.mem_singleton, List.not_mem_nil, or_false] at ht1
      rcases ht1 with h | h | h | h <;> rw [h]
      · exact e0.2
      · exact e1.2
      · exact e2.2
      · exact e3.2
    · intro t ht1
      simp only [List.mem_cons, List.mem_singleton, List.not_mem_nil, or_false] at ht1
      rcases ht1 with h | h | h | h <;> rw [h]
      · rw [e0.1]; exact div_nonneg v0 htot
      · rw [e1.1]; exact div_nonneg v1 htot
      · rw [e2.1]; exact div_nonneg v2 htot
      · rw [e3.1]; exact div_nonneg v3 htot
    · simp only [List.map_cons, List.map_nil, List.pairwise_cons, List.mem_cons,
        List.mem_singleton, List.not_mem_nil, forall_eq_or_imp, forall_eq, IsEmpty.forall_iff,
        implies_true, List.Pairwise.nil, and_true, or_false]
      rw [e0.1, e1.1, e2.1, e3.1]
      exact ⟨⟨d01, le_trans d12 d01, le_trans d23 (le_trans d12 d01)⟩,
        ⟨d12, le_trans d23 d12⟩, d23⟩
    · simp only [List.map_cons, List.map_nil, List.sum_cons, List.sum_nil, add_zero]
      rw [e0.1, e1.1, e2.1, e3.1, ← add_div, ← add_div, ← add_div, ← add_assoc, ← add_assoc,
        ← ht]
      exact div_self hne

/-- C15, amended, at the concrete input: the tap on the letters of the eight-key keyboard
is kept with the keys `a b c d`, whose proportions `0.40, 0.30, 0.20, 0.06` have the total
`0.96`; the weights `5/12, 5/16, 5/24, 1/16` sum to 1. -/
theorem getSuggestions_mix_weights_witness :
    (demoTokens.LETTERS_TO_IDS.length = 26 ∧
      pointMix demoTokens demoKeyboard 30 10 = some
        { x := 3 / 10, y := 1 / 5,
          mixes := [{ weight := 5 / 12, token := 8 }, { weight := 5 / 16, token := 9 },
            { weight := 5 / 24, token := 10 }, { weight := 1 / 16, token := 11 }] } ∧
      (∀ j, j < NUM_TOKEN_MIX →
        isLetterKey demoKeyboard (keyAt (selectKeys demoKeyboard 30 10).index_value j) = true) ∧
      totalSum (selectKeys demoKeyboard 30 10).index_value ≠ 0) ∧
      (([{ weight := 5 / 12, token := 8 }, { weight := 5 / 16, token := 9 },
        { weight := 5 / 24, token := 10 },
        ({ weight := 1 / 16, token := 11 } : TokenMixEntry)]).map (fun t => t.weight)).sum = 1 :=
  ⟨⟨by decide, by decide!, by decide!, by decide!⟩,
    (((getSuggestions_mix_weights demoTokens demoKeyboard 30 10
      { x := 3 / 10, y := 1 / 5,
        mixes := [{ weight := 5 / 12, token := 8 }, { weight := 5 / 16, token := 9 },
          { weight := 5 / 24, token := 10 }, { weight := 1 / 16, token := 11 }] }
      (by decide) (by decide!)).2.2 (by decide!)).2 (by decide!)).2.2⟩

/-- C16, at the failing inputs: `Initialize` returns `false` exactly when the model cannot
be created.  With a vocabulary that does not resolve `<XBU>` it returns `true` with
`XBU = 0` after one failed `ASSERT`; with a vocabulary that does not resolve `<XC0>` it
returns `true` with `XC0_SWIPE_MODE = 0` and no `ASSERT` fails.  The banned ids hold the
id 0 in every case. -/
theorem Initialize_returns_true_with_unresolved_token :
    (∀ createLanguageModel paths,
        (Initialize createLanguageModel paths).returned = (createLanguageModel paths).isSome) ∧
      (Initialize (fun _ => some demoTokenToId) "model").returned = true ∧
      (Initialize (fun _ => some demoTokenToId) "model").specialTokens.XBU = 0 ∧
      (Initialize (fun _ => some demoTokenToId) "model").failed_asserts = 1 ∧
      (Initialize (fun _ => some demoTokenToId) "model").specialTokens.SAMPLING_BAD_TOKENS =
        [0, 1, 2, 3, 126, 127, 128, 129, 130, 131, 133, 140, 141] ∧
      (Initialize (fun _ => some demoTokenToIdNoSwipe) "model").returned = true ∧
      (Initialize (fun _ => some demoTokenToIdNoSwipe) "model").specialTokens.XC0_SWIPE_MODE = 0 ∧
      (Initialize (fun _ => some demoTokenToIdNoSwipe) "model").failed_asserts = 0 := by
  refine ⟨?_, by decide, by decide, by decide, by decide, by decide, by decide, by decide⟩
  intro create paths
  unfold Initialize
  cases create paths <;> rfl

/-- C17 (the fast-forward helper is modelled from the spec): when the previously applied
prompt is a prefix of the new prompt, the fast-forward returns the rest of the new prompt
with `n_past` the length of the old one, and the empty suffix when the two are equal.
`DecodePromptAndMixes` puts token `i` of the suffix at position `n_past + i` in slot 0 and,
when the suffix is not empty, evaluates that batch right after removing slot 0 from
`n_past` on. -/
theorem fastforward_returns_new_suffix (st : LanguageModelState) (model : LanguageModel)
    (tail : List Nat) (mixes : List TokenMix)
    (hff : model.transformer_context_fastforward = transformer_context_fastforward) :
    transformer_context_fastforward st.active_context (st.active_context ++ tail)
        (!mixes.isEmpty) = (tail, st.active_context.length) ∧
      transformer_context_fastforward st.active_context st.active_context (!mixes.isEmpty) =
        ([], st.active_context.length) ∧
      (promptBatch (tail, st.active_context.length) mixes).map
          (fun b => (b.token, b.pos, b.seq_id)) =
        (List.range tail.length).map
          (fun i => (tail.getD i 0, (st.active_context.length : Int) + i, 0)) ∧
      (tail ≠ [] → ∃ newer,
        (st.DecodePromptAndMixes model (st.active_context ++ tail) mixes).2.ctx = newer ++
          Event.decode (promptBatch (tail, st.active_context.length) mixes) ::
            Event.kv_cache_seq_rm 0 st.active_context.length (-1) :: st.ctx) := by
  have h1 := fastforward_of_prefix st.active_context tail (!mixes.isEmpty)
  refine ⟨h1, ?_, ?_, ?_⟩
  · have := fastforward_of_prefix st.active_context [] (!mixes.isEmpty)
    rwa [List.append_nil] at this
  · simp [promptBatch]
  · intro hne
    have hs := DecodePromptAndMixes_prompt_step st model (st.active_context ++ tail) mixes
      (by rw [hff, h1]; exact hne)
    rw [hff, h1] at hs
    obtain ⟨newer, hn⟩ := hs
    exact ⟨newer, hn.symm⟩

/-- C17 at the concrete input: after `PredictNextWord("hi")` the applied prompt is
`[1, 39]`; for the new prompt `[1, 39, 35, 37]` the fast-forward returns `([35, 37], 2)`. -/
theorem fastforward_returns_new_suffix_witness :
    demoModelFastForward.transformer_context_fastforward = transformer_context_fastforward ∧
      demoAfterFirstCall.active_context = [1, 39] ∧
      transformer_context_fastforward demoAfterFirstCall.active_context
        (demoAfterFirstCall.active_context ++ [35, 37]) (!([] : List TokenMix).isEmpty) =
          ([35, 37], demoAfterFirstCall.active_context.length) :=
  ⟨rfl, by decide!,
    (fastforward_returns_new_suffix demoAfterFirstCall demoModelFastForward [35, 37] []
      rfl).1⟩

/-- C18, at the failing input: a tap whose four highest-ranked keys are `a`, `b`, `,` and
`.`, with `;` and `/` ranked next.  The first pass of the symbol loop counts two symbols;
the second pass, after the re-sort, finds `a`, `b`, `;`, `/` and counts two more, the count
reaches `NUM_TOKEN_MIX`, and the touch point is skipped although two of its four
highest-ranked keys are letters. -/
theorem getSuggestions_skips_point_with_letters :
    (rankedKeys demoKeyboard 10 10).map (fun e => demoKeyboard.getKeyCodePoint e.2) =
        [97, 98, 44, 46, 59, 47, 99, 100] ∧
      isLetterKey demoKeyboard (keyAt (rankedKeys demoKeyboard 10 10) 0) = true ∧
      isLetterKey demoKeyboard (keyAt (rankedKeys demoKeyboard 10 10) 1) = true ∧
      (selectKeys demoKeyboard 10 10).num_symbols = 4 ∧
      pointMix demoTokens demoKeyboard 10 10 = none ∧
      getSuggestionsMixes demoTokens demoKeyboard ['a'] [10] [10] = [] := by
  decide!

/-- With the fast-forward helper as the specification words it, which gives the third
argument of the call no role, the second `PredictNextWord("hi")` on a freshly loaded model
builds the prompt `[1, 39]` again, the fast-forward returns the empty suffix,
`DecodePromptAndMixes` runs no forward pass (it only removes slot 0 from position 2 on,
twice) and returns `logits_head = -1`. -/
theorem DecodePromptAndMixes_unchanged_prompt_head :
    demoAfterFirstCall.active_context = demoPrompt ∧
      (demoAfterFirstCall.DecodePromptAndMixes demoModelFastForward demoPrompt []).1 =
        { logits_head := -1, size := 2 } ∧
      (demoAfterFirstCall.DecodePromptAndMixes demoModelFastForward demoPrompt []).2.ctx =
        [Event.kv_cache_seq_rm 0 2 (-1), Event.kv_cache_seq_rm 0 2 (-1)] ++
          demoAfterFirstCall.ctx := by
  decide!

/-- C20, counterexample: in pass 0 of the concrete call of `Sample` the hypothesis `[37]`
is evaluated at position 2 in slot 2 and is then pruned.  The collision loop of the same
pass rebinds the hypothesis `[35, 36]` to slot 2 by `llama_kv_cache_seq_cp(ctx, 0, 2, 0, 3)`.
No `llama_kv_cache_seq_rm` of slot 2 lies between: the events before the copy do not
remove slot 2 after the last write into it. -/
theorem Sample_rebinds_without_removal :
    (sampleStateAt demoModelCollide demoTokens demoDecodedCollide.2.ctx demoDecodedCollide.1 3
        1).map (fun s => (s.sequences.map (fun q => (q.2.tokens, q.2.seq_id)), s.ctx)) =
      some ([([36, 35], 1), ([35, 36], 2), ([35, 38], 0)],
        Event.kv_cache_seq_cp 0 2 0 3 ::
          ([Event.transform_logits 2 true false, Event.transform_logits 1 true false,
            Event.transform_logits 0 true false,
            Event.decode [{ token := 35, pos := 2, seq_id := 0, logits := true },
              { token := 36, pos := 2, seq_id := 1, logits := true },
              { token := 37, pos := 2, seq_id := 2, logits := true }],
            Event.kv_cache_seq_cp 0 2 0 2, Event.kv_cache_seq_cp 0 1 0 2,
            Event.transform_logits 1 false false] ++ demoDecodedCollide.2.ctx)) ∧
      evictedAfterLastWrite 2
        ([Event.transform_logits 2 true false, Event.transform_logits 1 true false,
          Event.transform_logits 0 true false,
          Event.decode [{ token := 35, pos := 2, seq_id := 0, logits := true },
            { token := 36, pos := 2, seq_id := 1, logits := true },
            { token := 37, pos := 2, seq_id := 2, logits := true }],
          Event.kv_cache_seq_cp 0 2 0 2, Event.kv_cache_seq_cp 0 1 0 2,
          Event.transform_logits 1 false false] ++ demoDecodedCollide.2.ctx) = false := by
  decide!

/-- C20, amended: collision resolution in `Sample` rebinds a hypothesis by the copy from
its old slot alone.  Between the entry of `Sample` and the end of its loop no
`llama_kv_cache_seq_rm` is issued at all; the only removals of `Sample` are those of the
cleanup after the loop, one for every slot `1..n_results-1`. -/
theorem Sample_removes_only_in_cleanup (st : LanguageModelState) (model : LanguageModel)
    (dr : DecodeResult) (n : Nat) :
    ∃ s added, sampleLoop model st.specialTokens dr n 10
        (sampleInit model st.specialTokens st.ctx dr n) = LoopExit.finished s ∧
      s.ctx = added ++ st.ctx ∧
      (∀ e ∈ added, ∀ i p0 p1, e ≠ Event.kv_cache_seq_rm i p0 p1) ∧
      (st.Sample model dr n).2.ctx =
        (((List.range n).filter (fun i => 1 ≤ i)).map
          (fun i => Event.kv_cache_seq_rm i 0 (-1))).reverse ++ s.ctx := by
  have hQ : LoopClosed NoRemoval :=
    ⟨fun _ _ _ => trivial, fun _ => trivial, fun _ _ _ _ => trivial, trivial⟩
  obtain ⟨s, hs, hext⟩ := sampleLoop_adds hQ model st.specialTokens dr n 10
    (sampleInit model st.specialTokens st.ctx dr n)
    (by rw [sampleInit_sequences_length, sampleInit_outputs]; rfl)
    (by intro x hx; rw [slotIds_sampleInit] at hx; exact List.mem_range.mp hx)
  obtain ⟨added, h1, h2, _⟩ :=
    (sampleInit_adds hQ model st.specialTokens st.ctx dr n).trans hext
  refine ⟨s, added, hs, h1, ?_, ?_⟩
  · intro e he i p0 p1 heq
    have := h2 e he
    rw [heq] at this
    exact this
  · unfold LanguageModelState.Sample
    rw [hs]
    exact sampleCleanup_eq n s.ctx

/-! ## Lemmas on `trim`, `GetCachedMixAmount`, the blend and the mix step -/

/-- Below a start that holds a non-whitespace character, the loop over `end` stops one
before the end of the prefix `s[start..e)` stripped of its trailing whitespace. -/
theorem trimEnd_stripped (s : List Char) (start : Nat) (hs : start < s.length)
    (hns : isspace (s.getD start ' ') = false) :
    ∀ e, start < e → e ≤ s.length →
      trimEnd s start e + 1
        = (start : Int) + ((((s.take e).drop start).rdropWhile isspace).length : Nat) := by
  intro e
  induction e with
  | zero => intro h; omega
  | succ e ih =>
    intro hse hel
    have hel1 : e < s.length := by omega
    have htake : s.take (e + 1) = s.take e ++ [s.getD e ' '] := by
      rw [List.take_succ, List.getD_eq_getElem s ' ' hel1, List.getElem?_eq_getElem hel1]
      rfl
    have hdrop : (s.take (e + 1)).drop start = (s.take e).drop start ++ [s.getD e ' '] := by
      rw [htake, List.drop_append_of_le_length]
      rw [List.length_take]; omega
    rw [trimEnd, hdrop]
    by_cases hlt : start < e
    · by_cases hsp : isspace (s.getD e ' ') = true
      · rw [if_pos ⟨hlt, hsp⟩, List.rdropWhile_concat_pos _ _ _ hsp]
        exact ih hlt (by omega)
      · rw [if_neg (fun h => hsp h.2), List.rdropWhile_concat_neg _ _ _ hsp]
        simp [List.length_take]
        omega
    · have he : e = start := by omega
      subst he
      rw [if_neg (fun h => hlt h.1), List.rdropWhile_concat_neg _ _ _ (by rw [hns]; simp)]
      simp [List.length_take]

theorem drop_length_takeWhile (p : Char → Bool) (s : List Char) :
    s.drop (s.takeWhile p).length = s.dropWhile p := by
  induction s with
  | nil => rfl
  | cons c s ih =>
    by_cases h : p c = true
    · simp [List.takeWhile_cons, List.dropWhile_cons, h, ih]
    · simp [List.takeWhile_cons, List.dropWhile_cons, h]

theorem trim_eq_trimSpec (s : List Char) : trim s = trimSpec s := by
  unfold trim trimSpec
  simp only []
  rw [drop_length_takeWhile]
  by_cases hnil : s.dropWhile isspace = []
  · rw [hnil]; simp [List.rdropWhile]
  · have hdrop := drop_length_takeWhile isspace s
    have hlen : (s.takeWhile isspace).length < s.length := by
      by_contra hge
      apply hnil
      rw [← hdrop]
      exact List.drop_eq_nil_of_le (by omega)
    have hhead : isspace (s.getD (s.takeWhile isspace).length ' ') = false := by
      have h0 := List.head_dropWhile_not isspace s hnil
      have h1 : (s.dropWhile isspace).head hnil = s.getD (s.takeWhile isspace).length ' ' := by
        rw [List.getD_eq_getElem s ' ' hlen]
        simp only [← hdrop, List.head_drop]
      rw [← h1]; exact h0
    have hstop := trimEnd_stripped s _ hlen hhead s.length hlen (le_refl _)
    rw [List.take_length, hdrop] at hstop
    have hto : (trimEnd s (s.takeWhile isspace).length s.length + 1
        - ((s.takeWhile isspace).length : Int)).toNat
          = ((s.dropWhile isspace).rdropWhile isspace).length := by omega
    rw [hto]
    exact (List.prefix_iff_eq_take.1 ( List.rdropWhile_prefix isspace _)).symm

theorem trimSpec_idempotent (s : List Char) : trimSpec (trimSpec s) = trimSpec s := by
  unfold trimSpec
  have h : ((s.dropWhile isspace).rdropWhile isspace).dropWhile isspace
      = (s.dropWhile isspace).rdropWhile isspace := by
    rw [List.dropWhile_eq_self_iff]
    intro hl
    obtain ⟨t, ht⟩ := List.rdropWhile_prefix isspace (s.dropWhile isspace)
    have h0 := List.head?_dropWhile_not isspace s
    rw [← ht] at h0
    generalize (s.dropWhile isspace).rdropWhile isspace = a at hl h0
    cases a with
    | nil => simp at hl
    | cons c a =>
      simp only [List.cons_append, List.head?_cons] at h0
      simp [h0]
  rw [h, List.rdropWhile_idempotent]

theorem rdropWhile_append_rtakeWhile (p : Char → Bool) (l : List Char) :
    l.rdropWhile p ++ l.rtakeWhile p = l := by
  simp [List.rdropWhile, List.rtakeWhile, ← List.reverse_append]

theorem trimSpec_of_whitespace (s : List Char) (hs : ∀ c ∈ s, isspace c = true) :
    trimSpec s = [] := by
  unfold trimSpec
  rw [List.dropWhile_eq_nil_iff.mpr hs]
  rfl

/-- The string is its trimmed part between a run of whitespace on either side. -/
theorem trimSpec_split (s : List Char) :
    ∃ a b, s = a ++ trimSpec s ++ b ∧ (∀ c ∈ a, isspace c = true) ∧
      ∀ c ∈ b, isspace c = true := by
  refine ⟨s.takeWhile isspace, (s.dropWhile isspace).rtakeWhile isspace, ?_,
    fun c hc => List.mem_takeWhile_imp hc, fun c hc => List.mem_rtakeWhile_imp hc⟩
  unfold trimSpec
  rw [List.append_assoc, rdropWhile_append_rtakeWhile, List.takeWhile_append_dropWhile]

/-- The trimmed part neither starts nor ends with whitespace. -/
theorem trimSpec_ends (s : List Char) (h : trimSpec s ≠ []) :
    isspace ((trimSpec s).head h) = false ∧ isspace ((trimSpec s).getLast h) = false := by
  constructor
  · unfold trimSpec at h ⊢
    obtain ⟨t, ht⟩ := List.rdropWhile_prefix isspace (s.dropWhile isspace)
    have h0 := List.head?_dropWhile_not isspace s
    rw [← ht] at h0
    generalize (s.dropWhile isspace).rdropWhile isspace = a at h h0
    cases a with
    | nil => exact absurd rfl h
    | cons c a =>
      simp only [List.cons_append, List.head?_cons] at h0
      simpa using h0
  · have := List.rdropWhile_last_not isspace (s.dropWhile isspace) h
    simpa [trimSpec] using this

theorem cachedMixAmount_le : ∀ (past mixes : List TokenMix),
    cachedMixAmount past mixes ≤ min past.length mixes.length := by
  intro past
  induction past with
  | nil => intro mixes; simp [cachedMixAmount]
  | cons p ps ih =>
    intro mixes
    cases mixes with
    | nil => simp [cachedMixAmount]
    | cons m ms =>
      rw [cachedMixAmount]
      have := ih ms
      split_ifs <;> simp only [List.length_cons] <;> omega

theorem cachedMixAmount_match : ∀ (past mixes : List TokenMix) (i : Nat)
    (hp : i < past.length) (hm : i < mixes.length), i < cachedMixAmount past mixes →
      |past[i].x - mixes[i].x| < EPS ∧ |past[i].y - mixes[i].y| < EPS := by
  intro past
  induction past with
  | nil => intro mixes i hp; simp at hp
  | cons p ps ih =>
    intro mixes i hp hm hi
    cases mixes with
    | nil => simp at hm
    | cons m ms =>
      rw [cachedMixAmount] at hi
      split_ifs at hi with hx hy
      · omega
      · omega
      · cases i with
        | zero => exact ⟨lt_of_not_ge hx, lt_of_not_ge hy⟩
        | succ i =>
          simp only [List.getElem_cons_succ]
          exact ih ms i (by simpa using hp) (by simpa using hm) (by omega)

theorem cachedMixAmount_stop : ∀ (past mixes : List TokenMix)
    (hp : cachedMixAmount past mixes < past.length)
    (hm : cachedMixAmount past mixes < mixes.length),
      EPS ≤ |past[cachedMixAmount past mixes].x - mixes[cachedMixAmount past mixes].x| ∨
      EPS ≤ |past[cachedMixAmount past mixes].y - mixes[cachedMixAmount past mixes].y| := by
  intro past
  induction past with
  | nil => intro mixes hp; simp at hp
  | cons p ps ih =>
    intro mixes hp hm
    cases mixes with
    | nil => simp at hm
    | cons m ms =>
      have hdef : cachedMixAmount (p :: ps) (m :: ms) =
          if |p.x - m.x| ≥ EPS then 0 else if |p.y - m.y| ≥ EPS then 0
          else cachedMixAmount ps ms + 1 := by rw [cachedMixAmount]
      by_cases hx : |p.x - m.x| ≥ EPS
      · have h0 : cachedMixAmount (p :: ps) (m :: ms) = 0 := by rw [hdef, if_pos hx]
        simp only [h0, List.getElem_cons_zero]
        exact Or.inl hx
      · by_cases hy : |p.y - m.y| ≥ EPS
        · have h0 : cachedMixAmount (p :: ps) (m :: ms) = 0 := by
            rw [hdef, if_neg hx, if_pos hy]
          simp only [h0, List.getElem_cons_zero]
          exact Or.inr hy
        · have h1 : cachedMixAmount (p :: ps) (m :: ms) = cachedMixAmount ps ms + 1 := by
            rw [hdef, if_neg hx, if_neg hy]
          simp only [h1, List.getElem_cons_succ]
          rw [h1] at hp hm
          exact ih ms (by simpa using hp) (by simpa using hm)

theorem cachedMixAmount_coordinates : ∀ (past mixes past2 mixes2 : List TokenMix),
    past2.map (fun m => (m.x, m.y)) = past.map (fun m => (m.x, m.y)) →
    mixes2.map (fun m => (m.x, m.y)) = mixes.map (fun m => (m.x, m.y)) →
      cachedMixAmount past2 mixes2 = cachedMixAmount past mixes := by
  intro past
  induction past with
  | nil =>
    intro mixes past2 mixes2 h1 _
    have : past2 = [] := by simpa using h1
    subst this
    simp [cachedMixAmount]
  | cons p ps ih =>
    intro mixes past2 mixes2 h1 h2
    cases past2 with
    | nil => simp at h1
    | cons p2 ps2 =>
      cases mixes with
      | nil =>
        have : mixes2 = [] := by simpa using h2
        subst this
        simp [cachedMixAmount]
      | cons m ms =>
        cases mixes2 with
        | nil => simp at h2
        | cons m2 ms2 =>
          simp only [List.map_cons, List.cons.injEq, Prod.mk.injEq] at h1 h2
          rw [cachedMixAmount, cachedMixAmount, h1.1.1, h1.1.2, h2.1.1, h2.1.2,
            ih ms ps2 ms2 h1.2 h2.2]

/-- The loop of the blend branch adds to `mix_f` the contributions of the slots before the
first weight below `EPS` and counts them. -/
theorem blendMix_eq (model : LanguageModel) : ∀ (l : List TokenMixEntry) (acc : List ℚ × Nat),
    acc.1.length = model.n_embd →
    blendMix model l acc =
      ((List.range model.n_embd).map (fun i => acc.1.getD i 0 +
          ((l.takeWhile (fun t => decide (EPS ≤ t.weight))).map
            (fun t => t.weight * model.embeddings.getD (t.token * model.n_embd + i) 0)).sum),
        acc.2 + (l.takeWhile (fun t => decide (EPS ≤ t.weight))).length) := by
  intro l
  induction l with
  | nil =>
    intro acc hacc
    rw [blendMix]
    refine Prod.ext ?_ (by simp)
    apply List.ext_getElem
    · simp [hacc]
    · intro i h1 h2
      simp [List.getD_eq_getElem?_getD, List.getElem?_eq_getElem h1]
  | cons t rest ih =>
    intro acc hacc
    rw [blendMix]
    by_cases hw : t.weight < EPS
    · rw [if_pos hw]
      have hnot : ¬ EPS ≤ t.weight := not_le.mpr hw
      refine Prod.ext ?_ (by simp [List.takeWhile_cons, hnot])
      apply List.ext_getElem
      · simp [hacc]
      · intro i h1 h2
        simp [List.takeWhile_cons, hnot, List.getD_eq_getElem?_getD, List.getElem?_eq_getElem h1]
    · rw [if_neg hw]
      have hge : EPS ≤ t.weight := not_lt.mp hw
      rw [ih _ (by simp)]
      refine Prod.ext ?_ (by simp [List.takeWhile_cons, hge]; omega)
      apply List.ext_getElem
      · simp
      · intro i h1 h2
        have hi : i < model.n_embd := by simpa using h1
        simp [List.takeWhile_cons, hge, List.getD_eq_getElem?_getD, List.getElem?_map,
          List.getElem?_range hi]
        ring

/-- With non-increasing weights, the slots with weight at least `EPS` are the slots before
the first weight below `EPS`. -/
theorem filter_eq_takeWhile_weights : ∀ (l : List TokenMixEntry),
    l.Pairwise (fun a b => b.weight ≤ a.weight) →
      l.filter (fun t => decide (EPS ≤ t.weight))
        = l.takeWhile (fun t => decide (EPS ≤ t.weight)) := by
  intro l
  induction l with
  | nil => intro _; rfl
  | cons t rest ih =>
    intro hp
    rw [List.pairwise_cons] at hp
    by_cases hge : EPS ≤ t.weight
    · simp [List.filter_cons, List.takeWhile_cons, hge, ih hp.2]
    · have hnil : rest.filter (fun t => decide (EPS ≤ t.weight)) = [] := by
        rw [List.filter_eq_nil_iff]
        intro a ha
        have := hp.1 a ha
        simp only [decide_eq_true_eq, not_le]
        exact lt_of_le_of_lt this (not_le.mp hge)
      simp [List.filter_cons, List.takeWhile_cons, hge, hnil]

theorem mixEmbedding_blend (model : LanguageModel) (mix : TokenMix)
    (henc : model.encoder_weight = []) :
    mixEmbedding model mix =
      ((List.range model.n_embd).map (fun i =>
          ((mix.mixes.takeWhile (fun t => decide (EPS ≤ t.weight))).map
            (fun t => t.weight * model.embeddings.getD (t.token * model.n_embd + i) 0)).sum),
        (mix.mixes.takeWhile (fun t => decide (EPS ≤ t.weight))).length) := by
  unfold mixEmbedding
  rw [henc]
  simp only [List.isEmpty_nil, Bool.not_true, Bool.false_eq_true, if_false]
  rw [blendMix_eq model _ _ (by simp)]
  refine Prod.ext ?_ (by simp)
  apply List.map_congr_left
  intro i hi
  have hi1 : i < model.n_embd := List.mem_range.mp hi
  simp [List.getD_eq_getElem?_getD, List.getElem?_replicate, hi1]

theorem mixEmbedding_encoder (model : LanguageModel) (mix : TokenMix)
    (henc : model.encoder_weight ≠ []) :
    mixEmbedding model mix = (encodeMix model mix, 1) := by
  unfold mixEmbedding
  have : model.encoder_weight.isEmpty = false := by
    cases h : model.encoder_weight with
    | nil => exact absurd h henc
    | cons a l => rfl
  simp [this]

theorem decodeEmbeds_ok_eq {model : LanguageModel} (hok : ∀ tr, model.llama_decode tr = 0)
    (embeds : List ℚ) (prompt_size : Nat) :
    ∀ (L : List Nat) (ctx : List Event),
      decodeEmbeds model embeds prompt_size L ctx =
        (true, (L.map (fun h => Event.decode_embd
          ((embeds.drop (h * model.n_embd)).take model.n_embd)
          ((prompt_size : Int) + h) 0 false)).reverse ++ ctx) := by
  intro L
  induction L with
  | nil => intro ctx; rfl
  | cons h L ih =>
    intro ctx
    unfold decodeEmbeds
    simp only [hok, ne_eq, not_true_eq_false, if_false]
    rw [ih]
    simp

theorem assert_fold_eq {α : Type} (L : List α) :
    ∀ ctx : List Event,
      L.foldl (fun c _ => Event.assert_failed :: c) ctx =
        List.replicate L.length Event.assert_failed ++ ctx := by
  induction L with
  | nil => intro ctx; rfl
  | cons a L ih =>
    intro ctx
    rw [List.foldl_cons, ih, List.length_cons, List.replicate_succ']
    simp

/-- In a concatenation of blocks of one length, block number `h` starts at `h` times that
length. -/
theorem flatten_block (n : Nat) : ∀ (ls : List (List ℚ)) (h : Nat),
    (∀ l ∈ ls, l.length = n) → h < ls.length →
      (ls.flatten.drop (h * n)).take n = ls.getD h [] := by
  intro ls
  induction ls with
  | nil => intro h _ hh; simp at hh
  | cons a rest ih =>
    intro h hall hh
    have ha : a.length = n := hall a (by simp)
    cases h with
    | zero =>
      simp only [List.flatten_cons, Nat.zero_mul, List.drop_zero, List.getD_cons_zero]
      rw [List.take_append_of_le_length (by omega), List.take_of_length_le (by omega)]
    | succ h =>
      have hmul : (h + 1) * n = a.length + h * n := by rw [ha]; ring
      simp only [List.flatten_cons, List.getD_cons_succ]
      rw [hmul, List.drop_append]
      exact ih h (fun l hl => hall l (by simp [hl])) (by simpa using hh)

theorem flatten_block_length (n : Nat) : ∀ (ls : List (List ℚ)),
    (∀ l ∈ ls, l.length = n) → ls.flatten.length = ls.length * n := by
  intro ls
  induction ls with
  | nil => intro _; simp
  | cons a rest ih =>
    intro hall
    rw [List.flatten_cons, List.length_append, ih (fun l hl => hall l (by simp [hl])),
      hall a (by simp), List.length_cons]
    ring

theorem range_filter_ge (k : Nat) : ∀ m : Nat,
    (List.range m).filter (fun h => decide (k ≤ h)) = (List.range (m - k)).map (fun j => k + j) := by
  intro m
  induction m with
  | zero => simp
  | succ m ih =>
    rw [List.range_succ, List.filter_append, ih]
    by_cases hk : k ≤ m
    · have : m + 1 - k = (m - k) + 1 := by omega
      rw [this, List.range_succ, List.map_append]
      simp [hk]
    · have : m + 1 - k = m - k := by omega
      rw [this]
      simp [hk]

/-- The slices of `embeds` that the loop over `h` passes to the evaluator are the
embeddings of the mixes. -/
theorem embeds_slice (model : LanguageModel) (mixes : List TokenMix) (h : Nat)
    (hh : h < mixes.length) :
    ((((mixes.map (mixEmbedding model)).map (fun e => e.1)).flatten.drop
        (h * model.n_embd)).take model.n_embd)
      = (mixEmbedding model (mixes.getD h { x := 0, y := 0, mixes := [] })).1 := by
  rw [flatten_block model.n_embd _ h _ (by simpa using hh)]
  · simp [List.getD_eq_getElem?_getD, List.getElem?_map, List.getElem?_eq_getElem hh]
  · intro l hl
    simp only [List.map_map, List.mem_map, Function.comp] at hl
    obtain ⟨m, _, hm⟩ := hl
    rw [← hm]
    exact mixEmbedding_length model m

theorem embeds_length (model : LanguageModel) (mixes : List TokenMix) :
    ((mixes.map (mixEmbedding model)).map (fun e => e.1)).flatten.length
      = mixes.length * model.n_embd := by
  rw [flatten_block_length model.n_embd]
  · simp
  · intro l hl
    simp only [List.map_map, List.mem_map, Function.comp] at hl
    obtain ⟨m, _, hm⟩ := hl
    rw [← hm]
    exact mixEmbedding_length model m

/-- The successful run of `DecodePromptAndMixes` with mixes, in full. -/
theorem DecodePromptAndMixes_mixes_run (st : LanguageModelState) (model : LanguageModel)
    (prompt : List Nat) (mixes : List TokenMix) (hok : ∀ tr, model.llama_decode tr = 0)
    (hembd : 0 < model.n_embd) (hm : mixes ≠ []) :
    st.DecodePromptAndMixes model prompt mixes =
      ({ logits_head := 0, size := (prompt.length : Int) + mixes.length + 1 },
        { st with
            past_mixes := mixes,
            active_context := model.transformer_context_apply st.active_context
              (model.transformer_context_fastforward st.active_context prompt (!mixes.isEmpty)),
            ctx := Event.kv_cache_seq_rm 0 ((prompt.length : Int) + mixes.length + 1) (-1) ::
              Event.decode [{ token := st.specialTokens.XBC,
                              pos := (prompt.length : Int) + mixes.length,
                              seq_id := 0, logits := true }] ::
              ((List.range (mixes.length - reusedMixes st model prompt mixes)).map
                (fun j => embeddingPass model prompt mixes
                  (reusedMixes st model prompt mixes + j))).reverse ++
              Event.kv_cache_seq_rm 0
                ((prompt.length : Int) + reusedMixes st model prompt mixes) (-1) ::
              List.replicate
                (mixes.filter (fun m => (mixEmbedding model m).2 = 0)).length
                Event.assert_failed ++
              promptStepCtx st model prompt mixes }) := by
  have hemb := embeds_not_empty model mixes hm hembd
  have hlenE := embeds_length model mixes
  have hcount : ((mixes.map (mixEmbedding model)).filter (fun e => decide (e.2 = 0))).length
      = (mixes.filter (fun m => decide ((mixEmbedding model m).2 = 0))).length := by
    rw [List.filter_map, List.length_map]
    rfl
  have hdiv : mixes.length * model.n_embd / model.n_embd = mixes.length :=
    Nat.mul_div_cancel _ hembd
  unfold LanguageModelState.DecodePromptAndMixes ASSERT
  simp only [hok, ne_eq, not_true_eq_false, and_false, if_false, hemb, Bool.not_false, if_true]
  rw [decodeEmbeds_ok_eq hok]
  simp only [hlenE, hdiv, if_true, assert_fold_eq, hcount]
  have hmap : ∀ k, List.map (fun h => Event.decode_embd
        (List.take model.n_embd (List.drop (h * model.n_embd)
          (List.map (fun e => e.1) (List.map (mixEmbedding model) mixes)).flatten))
        ((prompt.length : Int) + (h : Nat)) 0 false)
        (List.filter (fun h => decide (k ≤ h)) (List.range mixes.length))
      = List.map (fun j => embeddingPass model prompt mixes (k + j))
          (List.range (mixes.length - k)) := by
    intro k
    rw [range_filter_ge, List.map_map]
    apply List.map_congr_left
    intro j hj
    have hj1 : k + j < mixes.length := by have := List.mem_range.mp hj; omega
    simp only [Function.comp, embeddingPass, embeds_slice model mixes _ hj1]
  rw [hmap]
  unfold promptStepCtx reusedMixes
  cases hff : (model.transformer_context_fastforward st.active_context prompt
      (!mixes.isEmpty)).1 with
  | nil => simp
  | cons a l => simp [promptBatch, hff]

/-- The successful run of `DecodePromptAndMixes` without mixes, in full. -/
theorem DecodePromptAndMixes_prompt_run (st : LanguageModelState) (model : LanguageModel)
    (prompt : List Nat) (hok : ∀ tr, model.llama_decode tr = 0) :
    st.DecodePromptAndMixes model prompt [] =
      ({ logits_head :=
           ((model.transformer_context_fastforward st.active_context prompt false).1.length : Int)
             - 1,
         size := (prompt.length : Int) },
        { st with
            past_mixes := [],
            active_context := model.transformer_context_apply st.active_context
              (model.transformer_context_fastforward st.active_context prompt false),
            ctx := Event.kv_cache_seq_rm 0 (prompt.length : Int) (-1) ::
              Event.kv_cache_seq_rm 0 (prompt.length : Int) (-1) ::
              promptStepCtx st model prompt [] }) := by
  unfold LanguageModelState.DecodePromptAndMixes ASSERT promptStepCtx
  simp only [hok, List.isEmpty_nil, Bool.not_true, List.map_nil, List.filter_nil, List.foldl_nil,
    List.flatten_nil, ne_eq, not_true_eq_false, and_false, if_false, List.length_nil,
    Nat.cast_zero, add_zero, Bool.false_eq_true, if_true]
  cases hff : (model.transformer_context_fastforward st.active_context prompt false).1 with
  | nil => simp [LanguageModelState.GetCachedMixAmount, cachedMixAmount]
  | cons a l => simp [promptBatch, hff]

/-- The `ASSERT`s that fail during a successful run of `DecodePromptAndMixes` are those on
a mix without contribution, one per such mix. -/
theorem DecodePromptAndMixes_assert_count (st : LanguageModelState) (model : LanguageModel)
    (prompt : List Nat) (mixes : List TokenMix) (hok : ∀ tr, model.llama_decode tr = 0)
    (hembd : 0 < model.n_embd) :
    (st.DecodePromptAndMixes model prompt mixes).2.ctx.count Event.assert_failed
      = st.ctx.count Event.assert_failed
        + (mixes.filter (fun m => (mixEmbedding model m).2 = 0)).length := by
  have hprompt : (promptStepCtx st model prompt mixes).count Event.assert_failed
      = st.ctx.count Event.assert_failed := by
    unfold promptStepCtx
    split_ifs
    · rfl
    · simp [List.count_cons]
  by_cases hm : mixes = []
  · subst hm
    rw [DecodePromptAndMixes_prompt_run st model prompt hok]
    simp [List.count_cons, hprompt]
  · rw [DecodePromptAndMixes_mixes_run st model prompt mixes hok hembd hm]
    have hpass : ∀ L : List Nat, (L.map (fun j => embeddingPass model prompt mixes
        (reusedMixes st model prompt mixes + j))).count Event.assert_failed = 0 := by
      intro L
      rw [List.count_eq_zero]
      intro hmem
      obtain ⟨j, _, hj⟩ := List.mem_map.mp hmem
      simp [embeddingPass] at hj
    simp only [List.count_cons, List.count_append, List.count_reverse, hpass, hprompt,
      List.count_replicate_self]
    simp
    omega

/-! ## The claims on the mix cache, the mix step, the blend and `trim` -/

/-- C21: `GetCachedMixAmount` returns the length `k` of the longest common prefix of
`past_mixes` and `mixes` under the match relation `|dx| < EPS` and `|dy| < EPS` with
`EPS = 0.0001`: `k` is at most the length of either sequence, every index below `k`
matches in both coordinates, and if `k` is below both lengths then index `k` differs by
at least `EPS` in `x` or in `y`.  Sequences with the same coordinates give the same
result, whatever their weights and tokens. -/
theorem GetCachedMixAmount_longest_match (st : LanguageModelState)
    (mixes : List TokenMix) :
    EPS = 1 / 10000 ∧
    st.GetCachedMixAmount mixes ≤ min st.past_mixes.length mixes.length ∧
    (∀ (i : Nat) (hp : i < st.past_mixes.length) (hm : i < mixes.length),
      i < st.GetCachedMixAmount mixes →
        |st.past_mixes[i].x - mixes[i].x| < EPS ∧ |st.past_mixes[i].y - mixes[i].y| < EPS) ∧
    (∀ (hp : st.GetCachedMixAmount mixes < st.past_mixes.length)
        (hm : st.GetCachedMixAmount mixes < mixes.length),
      EPS ≤ |st.past_mixes[st.GetCachedMixAmount mixes].x
              - mixes[st.GetCachedMixAmount mixes].x| ∨
      EPS ≤ |st.past_mixes[st.GetCachedMixAmount mixes].y
              - mixes[st.GetCachedMixAmount mixes].y|) ∧
    (∀ (st2 : LanguageModelState) (mixes2 : List TokenMix),
      st2.past_mixes.map (fun m => (m.x, m.y)) = st.past_mixes.map (fun m => (m.x, m.y)) →
      mixes2.map (fun m => (m.x, m.y)) = mixes.map (fun m => (m.x, m.y)) →
        st2.GetCachedMixAmount mixes2 = st.GetCachedMixAmount mixes) :=
  ⟨rfl, cachedMixAmount_le _ _, cachedMixAmount_match _ _, cachedMixAmount_stop _ _,
    fun _ _ h1 h2 => cachedMixAmount_coordinates _ _ _ _ h1 h2⟩

/-- C22, counterexample: with one touch point after the prompt `[1, 39, 4]`, an evaluator
that fails on the forward pass over the embedding makes `DecodePromptAndMixes` return
`{0, 0}` right after that pass, and with embedding dimension 0 the vector `embeds` is
empty although there is a mix.  In both runs no embedding is evaluated with success and
no forward pass over the `XBC` token follows. -/
theorem DecodePromptAndMixes_stops_at_failed_embedding :
    ([demoMix] ≠ [] ∧ 0 < (demoModel statusFailEmbd).n_embd ∧
      (∀ tr, demoModelNoEmbd.llama_decode tr = 0)) ∧
    (demoState.DecodePromptAndMixes (demoModel statusFailEmbd) [1, 39, 4] [demoMix]).1 =
        { logits_head := 0, size := 0 } ∧
    (demoState.DecodePromptAndMixes (demoModel statusFailEmbd) [1, 39, 4] [demoMix]).2.ctx =
        [Event.decode_embd [1 / 4, 1 / 4] 3 0 false,
          Event.kv_cache_seq_rm 0 3 (-1),
          Event.decode (promptBatch ([1, 39, 4], 0) [demoMix]),
          Event.kv_cache_seq_rm 0 0 (-1)] ∧
    (demoState.DecodePromptAndMixes demoModelNoEmbd [1, 39, 4] [demoMix]).1 =
        { logits_head := 2, size := 4 } ∧
    (demoState.DecodePromptAndMixes demoModelNoEmbd [1, 39, 4] [demoMix]).2.ctx =
        [Event.kv_cache_seq_rm 0 4 (-1),
          Event.assert_failed,
          Event.kv_cache_seq_rm 0 3 (-1),
          Event.decode (promptBatch ([1, 39, 4], 0) [demoMix]),
          Event.kv_cache_seq_rm 0 0 (-1)] := by
  refine ⟨⟨by decide, by decide, fun _ => rfl⟩, ?_, ?_, ?_, ?_⟩ <;> decide!

/-- C22, amended: in `DecodePromptAndMixes` with non-empty mixes, a positive embedding
dimension and no failing evaluator call, the number `n_past` of reused mix positions is 0
whenever the fast-forward suffix is non-empty and otherwise `GetCachedMixAmount(mixes)`,
computed against `past_mixes`, which the call then sets to `mixes`.  On top of the context
of the prompt step (and of the failed zero-contribution assertions) the call adds, oldest
first: the removal of slot 0 from position `|prompt| + n_past` on; one forward pass for
every `h` in `[n_past, |mixes|)` in increasing order, over the embedding of mix `h` alone
at position `|prompt| + h` in slot 0 without logits; one forward pass over the single
token `XBC` at position `|prompt| + |mixes|` in slot 0 with logits; and the final removal
of slot 0 from position `|prompt| + |mixes| + 1` on. -/
theorem DecodePromptAndMixes_reuses_matching_mixes (st : LanguageModelState)
    (model : LanguageModel) (prompt : List Nat) (mixes : List TokenMix)
    (hok : ∀ tr, model.llama_decode tr = 0) (hembd : 0 < model.n_embd) (hm : mixes ≠ []) :
    ((model.transformer_context_fastforward st.active_context prompt (!mixes.isEmpty)).1 ≠ [] →
      reusedMixes st model prompt mixes = 0) ∧
    ((model.transformer_context_fastforward st.active_context prompt (!mixes.isEmpty)).1 = [] →
      reusedMixes st model prompt mixes = st.GetCachedMixAmount mixes) ∧
    reusedMixes st model prompt mixes ≤ mixes.length ∧
    (st.DecodePromptAndMixes model prompt mixes).2.ctx =
      Event.kv_cache_seq_rm 0 ((prompt.length : Int) + mixes.length + 1) (-1) ::
        Event.decode [{ token := st.specialTokens.XBC,
                        pos := (prompt.length : Int) + mixes.length,
                        seq_id := 0, logits := true }] ::
        ((List.range (mixes.length - reusedMixes st model prompt mixes)).map
          (fun j => Event.decode_embd
            (mixEmbedding model
              (mixes.getD (reusedMixes st model prompt mixes + j)
                { x := 0, y := 0, mixes := [] })).1
            ((prompt.length : Int) + ((reusedMixes st model prompt mixes + j : Nat) : Int))
            0 false)).reverse ++
        Event.kv_cache_seq_rm 0
          ((prompt.length : Int) + reusedMixes st model prompt mixes) (-1) ::
        List.replicate (mixes.filter (fun m => (mixEmbedding model m).2 = 0)).length
          Event.assert_failed ++
        promptStepCtx st model prompt mixes ∧
    (st.DecodePromptAndMixes model prompt mixes).2.past_mixes = mixes := by
  refine ⟨fun h => ?_, fun h => ?_, ?_, ?_, ?_⟩
  · unfold reusedMixes
    rw [if_neg h]
  · unfold reusedMixes
    rw [if_pos h]
  · unfold reusedMixes
    split_ifs
    · exact le_trans (cachedMixAmount_le _ _) (min_le_right _ _)
    · exact Nat.zero_le _
  · rw [DecodePromptAndMixes_mixes_run st model prompt mixes hok hembd hm]
    rfl
  · rw [DecodePromptAndMixes_mixes_run st model prompt mixes hok hembd hm]

/-- C22, amended, at the concrete input: the second call with the prompt `[1, 39, 4]`, now
with two touch points of which the first is the one of the first call, finds an empty
fast-forward suffix and one matching mix; it removes slot 0 from position 4 on, evaluates
the embedding of mix 1 at position 4 and the `XBC` token at position 5. -/
theorem DecodePromptAndMixes_reuses_matching_mixes_witness :
    ((∀ tr, demoModelFastForward.llama_decode tr = 0) ∧ 0 < demoModelFastForward.n_embd ∧
      [demoMix, demoMix] ≠ []) ∧
    reusedMixes demoAfterCorrection demoModelFastForward [1, 39, 4] [demoMix, demoMix] = 1 ∧
    (demoAfterCorrection.DecodePromptAndMixes demoModelFastForward [1, 39, 4]
        [demoMix, demoMix]).2.ctx =
      [Event.kv_cache_seq_rm 0 6 (-1),
        Event.decode [{ token := 5, pos := 5, seq_id := 0, logits := true }],
        Event.decode_embd [1 / 4, 1 / 4] 4 0 false,
        Event.kv_cache_seq_rm 0 4 (-1)] ++ demoAfterCorrection.ctx ∧
    (demoAfterCorrection.DecodePromptAndMixes demoModelFastForward [1, 39, 4]
        [demoMix, demoMix]).2.past_mixes = [demoMix, demoMix] :=
  ⟨⟨fun _ => rfl, by decide, by decide⟩, by decide!, by decide!,
    (DecodePromptAndMixes_reuses_matching_mixes demoAfterCorrection demoModelFastForward
      [1, 39, 4] [demoMix, demoMix] (fun _ => rfl) (by decide) (by decide)).2.2.2.2⟩

/-- C23: for every prompt and mix sequence, with embedding dimension above 0 and no
failing evaluator call, `DecodePromptAndMixes` returns `size = |prompt| + |mixes| + 1` and
`logits_head = 0` when mixes is non-empty, and `size = |prompt|` and
`logits_head = |fast-forward suffix| - 1` when mixes is empty.  The number of embeddings
`embeds.size() / n_embd` is `|mixes|`, and the only `ASSERT`s that fail during the call
are the zero-contribution ones, one for every mix with `num_added == 0`: the assertions
on `size` and `head` never fail, and with an encoder no assertion fails at all. -/
theorem DecodePromptAndMixes_size_and_head (st : LanguageModelState)
    (model : LanguageModel) (prompt : List Nat) (mixes : List TokenMix)
    (hok : ∀ tr, model.llama_decode tr = 0) (hembd : 0 < model.n_embd) :
    (mixes ≠ [] → (st.DecodePromptAndMixes model prompt mixes).1 =
      { logits_head := 0, size := (prompt.length : Int) + mixes.length + 1 }) ∧
    (mixes = [] → (st.DecodePromptAndMixes model prompt mixes).1 =
      { logits_head :=
          ((model.transformer_context_fastforward st.active_context prompt
            (!mixes.isEmpty)).1.length : Int) - 1,
        size := (prompt.length : Int) }) ∧
    ((mixes.map (mixEmbedding model)).map (fun e => e.1)).flatten.length / model.n_embd
      = mixes.length ∧
    (st.DecodePromptAndMixes model prompt mixes).2.ctx.count Event.assert_failed
      = st.ctx.count Event.assert_failed
        + (mixes.filter (fun m => (mixEmbedding model m).2 = 0)).length ∧
    (model.encoder_weight ≠ [] →
      (st.DecodePromptAndMixes model prompt mixes).2.ctx.count Event.assert_failed
        = st.ctx.count Event.assert_failed) := by
  refine ⟨fun hm => ?_, fun hm => ?_, ?_, ?_, fun henc => ?_⟩
  · rw [DecodePromptAndMixes_mixes_run st model prompt mixes hok hembd hm]
  · subst hm
    rw [DecodePromptAndMixes_prompt_run st model prompt hok]
    rfl
  · rw [embeds_length, Nat.mul_div_cancel _ hembd]
  · exact DecodePromptAndMixes_assert_count st model prompt mixes hok hembd
  · rw [DecodePromptAndMixes_assert_count st model prompt mixes hok hembd]
    have hnil : mixes.filter (fun m => decide ((mixEmbedding model m).2 = 0)) = [] := by
      rw [List.filter_eq_nil_iff]
      intro m _
      rw [mixEmbedding_encoder model m henc]
      simp
    rw [hnil]
    rfl

/-- C23 at the concrete input: the prompt `[1, 39, 4]` with one touch point gives
`size = 5` and `logits_head = 0`, and no assertion fails. -/
theorem DecodePromptAndMixes_size_and_head_witness :
    ((∀ tr, (demoModel statusOk).llama_decode tr = 0) ∧ 0 < (demoModel statusOk).n_embd) ∧
    demoCorrection.1 = { logits_head := 0, size := 5 } ∧
    demoCorrection.2.ctx.count Event.assert_failed = 0 ∧
    (([demoMix] : List TokenMix) ≠ [] →
      (demoState.DecodePromptAndMixes (demoModel statusOk) [1, 39, 4] [demoMix]).1 =
        { logits_head := 0,
          size := (([1, 39, 4] : List Nat).length : Int) + ([demoMix] : List TokenMix).length
            + 1 }) :=
  ⟨⟨fun _ => rfl, by decide⟩, by decide!, by decide!,
    (DecodePromptAndMixes_size_and_head demoState (demoModel statusOk) [1, 39, 4] [demoMix]
      (fun _ => rfl) (by decide)).1⟩

/-- C24: in every execution of `Sample` with `n_results >= 1` and a vocabulary of at least
`n_results` ids, the branch "couldn't find an empty sequence id"
of the collision loop is never taken, so the loop is never left through `return {}`.  At
every pass that is reached, the surviving hypotheses `next_sequences` carry slot ids below
`n_results` and are at most `n_results` many; the array `seq_id_use_count` holds for every
slot the number of survivors bound to it; whenever some slot is used more than once some
slot below `n_results` is unused; the collision loop returns the rebound hypotheses; and
the pass does not end in `return {}`.  The proof does not use the two bounds on
`n_results`. -/
theorem Sample_never_lacks_free_slot (model : LanguageModel) (sp : SpecialTokens)
    (ctx : List Event) (dr : DecodeResult) (n : Nat)
    (_hn : 1 ≤ n) (_hvocab : n ≤ model.n_vocab) :
    (∃ s, sampleLoop model sp dr n 10 (sampleInit model sp ctx dr n) = LoopExit.finished s) ∧
    ∀ tok s, sampleStateAt model sp ctx dr n tok = some s →
      (∀ x ∈ slotIds (stepNextSequences model sp dr n s), x < n) ∧
      (stepNextSequences model sp dr n s).length ≤ n ∧
      (∀ j, j < n → (countSeqIds n (stepNextSequences model sp dr n s)).getD j 0 =
        (slotIds (stepNextSequences model sp dr n s)).count j) ∧
      (∀ x, 1 < (slotIds (stepNextSequences model sp dr n s)).count x →
        ∃ j, j < n ∧ (slotIds (stepNextSequences model sp dr n s)).count j = 0) ∧
      (∃ r, (resolveCollisions n dr.size (stepNextSequences model sp dr n s)
          (countSeqIds n (stepNextSequences model sp dr n s))
          (stepExpandedCtx model sp dr n s)).1 = some r) ∧
      ∀ ctx2, sampleStep model sp dr n s ≠ StepOutcome.returnEmpty ctx2 := by
  refine ⟨sampleLoop_never_fails model sp dr n 10 _ ?_ ?_, ?_⟩
  · exact sampleStateAt_length 0 _ rfl
  · exact sampleStateAt_slots 0 _ rfl
  · intro tok s hs
    have hlen := sampleStateAt_length tok s hs
    have hslots := sampleStateAt_slots tok s hs
    have hnext : ∀ x ∈ slotIds (stepNextSequences model sp dr n s), x < n :=
      @stepNext_slots model sp dr n s (stepCtx model sp dr n s) hlen hslots
    have hle : (stepNextSequences model sp dr n s).length ≤ n := by
      unfold stepNextSequences
      rw [stepNext_length]
      omega
    obtain ⟨hc1, hc2⟩ := countSeqIds_spec n _ hnext
    refine ⟨hnext, hle, hc2, ?_, ?_, ?_⟩
    · intro x hx
      exact exists_unused_slot n _ (by simpa [slotIds] using hle) x hx
    · obtain ⟨r, hr, _⟩ := resolveCollisions_spec n dr.size
        (stepNextSequences model sp dr n s) []
        (countSeqIds n (stepNextSequences model sp dr n s))
        (stepExpandedCtx model sp dr n s) hc1
        (by intro j hj; rw [hc2 j hj]; simp)
        (by simpa using hnext)
        (by simpa [slotIds] using hle)
        (by simp)
      exact ⟨r, by rw [hr]⟩
    · intro ctx2 hfail
      by_cases hlive : stepLive model sp s = []
      · obtain ⟨s1, hs1⟩ := @sampleStep_of_empty model sp dr n s hlive
        rw [hs1] at hfail
        exact StepOutcome.noConfusion hfail
      · obtain ⟨s1, hs1, _⟩ := @sampleStep_of_live model sp dr n s hlen hslots hlive
        rw [hs1] at hfail
        exact StepOutcome.noConfusion hfail

/-- C24 at the concrete input: the call of `Sample` for three results over the 40 ids
leaves its loop by `break` or after the tenth pass. -/
theorem Sample_never_lacks_free_slot_witness :
    (1 ≤ 3 ∧ 3 ≤ demoModelCollide.n_vocab) ∧
      ∃ s, sampleLoop demoModelCollide demoTokens demoDecodedCollide.1 3 10
        (sampleInit demoModelCollide demoTokens demoDecodedCollide.2.ctx
          demoDecodedCollide.1 3) = LoopExit.finished s :=
  ⟨⟨by decide, by decide⟩,
    (Sample_never_lacks_free_slot demoModelCollide demoTokens demoDecodedCollide.2.ctx
      demoDecodedCollide.1 3 (by decide) (by decide)).1⟩

/-- C25: when no learned encoder is available, for every `TokenMix` with four weights
that are non-increasing, the embedding that `DecodePromptAndMixes` builds for the mix is
the sum over all slots with weight at least `EPS` of the weight times the embedding-table
row of the token of the slot, and `num_added` counts those slots: stopping at the first
weight below `EPS` loses no contributing slot.  The counter `num_added` is zero, which is
when the zero-contribution assertion fires, exactly when the weight of the first slot is
below `EPS`.  When an encoder is available the embedding is
`bias[i] + w[2i]*x + w[2i+1]*y`, `num_added` is one, and the embedding is the same for all
mixes with the same `x` and `y`. -/
theorem DecodePromptAndMixes_blend_is_weighted_sum (model : LanguageModel) (mix : TokenMix)
    (hlen : mix.mixes.length = NUM_TOKEN_MIX)
    (hmono : mix.mixes.Pairwise (fun a b => b.weight ≤ a.weight)) :
    EPS = 1 / 10000 ∧
    (model.encoder_weight = [] →
      (mixEmbedding model mix).1 = blendSpec model mix ∧
      (mixEmbedding model mix).2
        = (mix.mixes.filter (fun t => decide (EPS ≤ t.weight))).length ∧
      ((mixEmbedding model mix).2 = 0 ↔
        (mix.mixes.getD 0 { weight := 0, token := 0 }).weight < EPS)) ∧
    (model.encoder_weight ≠ [] →
      (mixEmbedding model mix).1 = (List.range model.n_embd).map (fun i =>
        model.encoder_bias.getD i 0 + model.encoder_weight.getD (i * 2) 0 * mix.x +
          model.encoder_weight.getD (i * 2 + 1) 0 * mix.y) ∧
      (mixEmbedding model mix).2 = 1 ∧
      ∀ mix2 : TokenMix, mix2.x = mix.x → mix2.y = mix.y →
        mixEmbedding model mix2 = mixEmbedding model mix) := by
  refine ⟨rfl, fun henc => ?_, fun henc => ?_⟩
  · rw [mixEmbedding_blend model mix henc, blendSpec, filter_eq_takeWhile_weights _ hmono]
    refine ⟨rfl, rfl, ?_⟩
    cases hm : mix.mixes with
    | nil => rw [hm] at hlen; exact absurd hlen (by decide)
    | cons t rest =>
      by_cases hge : EPS ≤ t.weight
      · simp [List.takeWhile_cons, hge]
      · simp [List.takeWhile_cons, hge, not_le.mp hge]
  · rw [mixEmbedding_encoder model mix henc]
    refine ⟨rfl, rfl, fun mix2 hx hy => ?_⟩
    rw [mixEmbedding_encoder model mix2 henc]
    simp only [encodeMix, hx, hy]

/-- C25 at the concrete input: in the model without encoder the mix with the weights
`1, 0, 0, 0` on token `8` is embedded as the row of token `8`, with one contribution. -/
theorem DecodePromptAndMixes_blend_is_weighted_sum_witness :
    (demoMix.mixes.length = NUM_TOKEN_MIX ∧
      demoMix.mixes.Pairwise (fun a b => b.weight ≤ a.weight)) ∧
    (demoModel statusOk).encoder_weight = [] ∧
    mixEmbedding (demoModel statusOk) demoMix = ([1 / 4, 1 / 4], 1) ∧
    (mixEmbedding (demoModel statusOk) demoMix).1 = blendSpec (demoModel statusOk) demoMix :=
  ⟨⟨rfl, by decide!⟩, rfl, by decide!,
    ((DecodePromptAndMixes_blend_is_weighted_sum (demoModel statusOk) demoMix rfl
      (by decide!)).2.1 rfl).1⟩

/-- C26: for every string `s`, the empty string and strings of whitespace included, `trim`
returns `s` without its maximal leading run and its maximal trailing run of whitespace
characters: `s` is `a ++ trim(s) ++ b` with `a` and `b` whitespace only, and `trim(s)` is
empty or begins and ends with a character that is not whitespace.  It is the empty string
when `s` has no other character, on the empty string in particular, where `end` steps to
`begin - 1` and the loop test ends the loop before `*end` is read.  Hence
`trim(trim(s)) = trim(s)`.  `PredictNextWord` applies `trim` to its context whatever its
length. -/
theorem trim_removes_outer_whitespace :
    (∀ s : List Char, trim s = trimSpec s) ∧
    trimEnd [] 0 0 = -1 ∧
    trim [] = [] ∧
    (∀ s : List Char, (∀ c ∈ s, isspace c = true) → trim s = []) ∧
    (∀ s : List Char, ∃ a b, s = a ++ trim s ++ b ∧ (∀ c ∈ a, isspace c = true) ∧
      ∀ c ∈ b, isspace c = true) ∧
    (∀ (s : List Char) (h : trim s ≠ []),
      isspace ((trim s).head h) = false ∧ isspace ((trim s).getLast h) = false) ∧
    (∀ s : List Char, trim (trim s) = trim s) ∧
    (∀ (st : LanguageModelState) (model : LanguageModel) (context : List Char),
      st.PredictNextWord model context =
        (((st.DecodePromptAndMixes model (1 :: model.tokenize (trim context ++ [' '])) []).2.Sample
            model
            (st.DecodePromptAndMixes model (1 :: model.tokenize (trim context ++ [' '])) []).1
            3).1.map (fun r => (r.1, model.decode r.2)),
          ((st.DecodePromptAndMixes model (1 :: model.tokenize (trim context ++ [' '])) []).2.Sample
            model
            (st.DecodePromptAndMixes model (1 :: model.tokenize (trim context ++ [' '])) []).1
            3).2)) := by
  refine ⟨trim_eq_trimSpec, rfl, rfl, ?_, ?_, ?_, ?_, fun _ _ _ => rfl⟩
  · intro s hs
    rw [trim_eq_trimSpec]
    exact trimSpec_of_whitespace s hs
  · intro s
    rw [trim_eq_trimSpec]
    exact trimSpec_split s
  · intro s
    rw [trim_eq_trimSpec]
    exact trimSpec_ends s
  · intro s
    rw [trim_eq_trimSpec, trim_eq_trimSpec]
    exact trimSpec_idempotent s
